import Mathlib

/-!
Verification development for the `lightgrid` spatial index (`lightgrid::grid`
in `include/lightgrid/grid.hpp`).  The header contains two variants of the
class, embedded below as namespaces `V1` (the first variant: camelCase
helpers, cell-node arena of size `wrapping_bit_mask`) and `V2` (the second
variant: snake_case helpers, arena of size `wrapping_bit_mask + 1`,
guarded `cell_remove`, branchless `cell_query`).

C++ `int` values (including the `-1` sentinels) are modelled as `Int`.
`std::vector` indexing is modelled by `Option`-valued access; `none`
marks an out-of-bounds access (undefined behaviour in the C++).
C++ `/` on `int` is truncating division, i.e. `Int.tdiv`.
Unbounded C++ loops are modelled with an explicit fuel argument; running
out of fuel is reported separately from an indexing fault.
-/

namespace Lightgrid

/-- Result of a fuelled computation: an indexing fault (undefined behaviour
in the C++), fuel exhaustion (the loop did not finish within the allotted
number of steps), or a normal result. -/
inductive Res (α : Type) where
  | fault : Res α
  | fuelout : Res α
  | ok : α → Res α
deriving DecidableEq, Repr

/-! ## Z-order indexer (identical in both variants) -/

/-- `interleave_with_zeros` from `grid.hpp`: spreads the low 32 bits of the
input so that bit `i` moves to bit `2*i`, via the fixed shift/mask chain. -/
def interleave_with_zeros (input : Nat) : Nat :=
  let res := input
  let res := (res ||| (res <<< 16)) &&& 0x0000ffff0000ffff
  let res := (res ||| (res <<< 8 )) &&& 0x00ff00ff00ff00ff
  let res := (res ||| (res <<< 4 )) &&& 0x0f0f0f0f0f0f0f0f
  let res := (res ||| (res <<< 2 )) &&& 0x3333333333333333
  let res := (res ||| (res <<< 1 )) &&& 0x5555555555555555
  res

/-- The portable `interleave` (default target): Morton interleaving of two
32-bit coordinates. -/
def interleave (x y : Nat) : Nat :=
  interleave_with_zeros x ||| (interleave_with_zeros y <<< 1)

/-- One step semantics of the x86 `pdep` instruction, processing the mask
from the least significant bit; each set mask bit consumes the next source
bit.  `fuel` is the number of bit positions processed (64 for `_pdep_u64`). -/
def pdepAux : Nat → Nat → Nat → Nat
  | 0, _, _ => 0
  | fuel + 1, src, mask =>
    if mask % 2 = 1 then
      (src % 2) + 2 * pdepAux fuel (src / 2) (mask / 2)
    else
      2 * pdepAux fuel src (mask / 2)

/-- `_pdep_u64 src mask`. -/
def pdep_u64 (src mask : Nat) : Nat := pdepAux 64 src mask

/-- The bmi2 `interleave`:
`_pdep_u64(y, 0xaaaaaaaaaaaaaaaa) | _pdep_u64(x, 0x5555555555555555)`. -/
def interleave_bmi2 (x y : Nat) : Nat :=
  pdep_u64 y 0xaaaaaaaaaaaaaaaa ||| pdep_u64 x 0x5555555555555555

/-- `wrapping_bit_mask = (1 << ZBitWidth) - 1`. -/
def wrapping_bit_mask (Z : Nat) : Nat := 2 ^ Z - 1

/-- `z_order(x, y) = interleave(x, y) & wrapping_bit_mask` (portable path). -/
def z_order (Z : Nat) (x y : Nat) : Nat :=
  interleave x y &&& wrapping_bit_mask Z

/-- `z_order` when `interleave` resolves to the bmi2 implementation. -/
def z_order_bmi2 (Z : Nat) (x y : Nat) : Nat :=
  interleave_bmi2 x y &&& wrapping_bit_mask Z

/-- Conversion of a C++ `int` cell coordinate to the `uint32_t` argument of
`z_order` (two's-complement wraparound). -/
def toU32 (i : Int) : Nat := (i % (2 ^ 32 : Int)).toNat

/-! ## Bounds and the coordinate mapper -/

/-- `lightgrid::bounds`. -/
structure Bounds where
  x : Int
  y : Int
  w : Int
  h : Int
deriving DecidableEq, Repr

/-- `cell_bounds` / `grid::cell_bounds`. -/
structure CellBounds where
  x_start : Int
  x_end : Int
  y_start : Int
  y_end : Int
deriving DecidableEq, Repr

/-- `getCellBounds` / `get_cell_bounds` (identical in both variants):
truncating integer division of each edge by `CellSize`. -/
def getCellBounds (CellSize : Int) (b : Bounds) : CellBounds :=
  { x_start := b.x.tdiv CellSize
    x_end := (b.x + b.w).tdiv CellSize
    y_start := b.y.tdiv CellSize
    y_end := (b.y + b.h).tdiv CellSize }

/-- The inclusive integer range `[lo, hi]`, empty when `hi < lo`; the order
in which the C++ `for` loops enumerate a coordinate axis. -/
def intRange (lo hi : Int) : List Int :=
  (List.range (hi + 1 - lo).toNat).map (fun i : Nat => lo + (i : Int))

/-- All cell coordinate pairs visited by the nested
`for (yy ...) for (xx ...)` loops, in visit order. -/
def rectCells (cb : CellBounds) : List (Int × Int) :=
  (intRange cb.y_start cb.y_end).flatMap
    (fun yy => (intRange cb.x_start cb.x_end).map (fun xx => (xx, yy)))

/-- The z-order address passed to the cell operations for one coordinate
pair, as an `Int` index into `cell_nodes`. -/
def cellAddr (Z : Nat) (xy : Int × Int) : Int :=
  (z_order Z (toU32 xy.1) (toU32 xy.2) : Int)

/-! ## Grid state -/

/-- `grid::node`. -/
structure Node where
  element : Int := -1
  next : Int := -1
deriving DecidableEq, Repr

/-- The data members of `lightgrid::grid`. -/
structure GridState (T : Type) where
  elements : List T
  element_nodes : List Node
  cell_nodes : List Node
  last_query : List Int
  query_set : List Bool
  query_size : Nat
  free_element_nodes : Int
  free_cell_nodes : Int
  num_elements : Int
deriving DecidableEq, Repr

/-- Checked read `l[i]` for a C++ `int` index; `none` is an out-of-bounds
access. -/
def getN {α : Type} (l : List α) (i : Int) : Option α :=
  if i < 0 then none else l[i.toNat]?

/-- Checked write `l[i] = a`; `none` is an out-of-bounds access. -/
def setN {α : Type} (l : List α) (i : Int) (a : α) : Option (List α) :=
  if 0 ≤ i ∧ i.toNat < l.length then some (l.set i.toNat a) else none

/-- `std::vector::resize` to `n` elements with default value `d`. -/
def resizeL {α : Type} (l : List α) (n : Nat) (d : α) : List α :=
  l.take n ++ List.replicate (n - l.length) d

/-- Fold a fallible step over a list (the nested cell loops of
`insert` / `remove` / `update`). -/
def foldM {σ α : Type} (f : σ → α → Option σ) : σ → List α → Option σ
  | s, [] => some s
  | s, a :: as => do
    let s' ← f s a
    foldM f s' as

namespace V1

variable {T : Type}

/-- Initial state of the first variant:
`cell_nodes{std::vector<node>(wrapping_bit_mask)}` — note the arena holds
`2^Z - 1` default nodes, and everything else is empty. -/
def init (T : Type) (Z : Nat) : GridState T :=
  { elements := []
    element_nodes := []
    cell_nodes := List.replicate (wrapping_bit_mask Z) {}
    last_query := []
    query_set := []
    query_size := 0
    free_element_nodes := -1
    free_cell_nodes := -1
    num_elements := 0 }

/-- `grid::clear` (first variant): clears `elements`, `element_nodes`,
`cell_nodes` and resizes `cell_nodes` to `wrapping_bit_mask`; no other
member is touched. -/
def clear (Z : Nat) (s : GridState T) : GridState T :=
  { s with
    elements := []
    element_nodes := []
    cell_nodes := List.replicate (wrapping_bit_mask Z) {} }

/-- `grid::elementInsert`: pop the element free list, or append a fresh
slot. -/
def elementInsert (s : GridState T) (element : T) : Option (Int × GridState T) :=
  if s.free_element_nodes ≠ -1 then do
    let nd ← getN s.element_nodes s.free_element_nodes
    let elements' ← setN s.elements nd.element element
    some (s.free_element_nodes,
      { s with free_element_nodes := nd.next, elements := elements' })
  else
    some ((s.element_nodes.length : Int),
      { s with
        element_nodes := s.element_nodes ++ [{ element := (s.elements.length : Int), next := -1 }]
        elements := s.elements ++ [element] })

/-- `grid::elementRemove`: push the node onto the element free list. -/
def elementRemove (s : GridState T) (element_node : Int) : Option (GridState T) := do
  let nd ← getN s.element_nodes element_node
  let en' ← setN s.element_nodes element_node { nd with next := s.free_element_nodes }
  some { s with element_nodes := en', free_element_nodes := element_node }

/-- `grid::cellInsert`: splice a node (reused from the free list via the
scratchpad trick, or freshly appended) in front of the cell's list.
The reads and writes follow the C++ statements in order. -/
def cellInsert (s : GridState T) (cell_node element_node : Int) : Option (GridState T) :=
  if s.free_cell_nodes ≠ -1 then do
    let f := s.free_cell_nodes
    let nf ← getN s.cell_nodes f
    let cn1 ← setN s.cell_nodes f { nf with element := nf.next }
    let nc1 ← getN cn1 cell_node
    let nf1 ← getN cn1 f
    let cn2 ← setN cn1 f { nf1 with next := nc1.next }
    let nc2 ← getN cn2 cell_node
    let cn3 ← setN cn2 cell_node { nc2 with next := f }
    let nf3 ← getN cn3 f
    let nc3 ← getN cn3 cell_node
    let ntgt ← getN cn3 nc3.next
    let cn4 ← setN cn3 nc3.next { ntgt with element := element_node }
    some { s with cell_nodes := cn4, free_cell_nodes := nf3.element }
  else do
    let nc ← getN s.cell_nodes cell_node
    let cn1 := s.cell_nodes ++ [{ element := element_node, next := nc.next }]
    let nc1 ← getN cn1 cell_node
    let cn2 ← setN cn1 cell_node { nc1 with next := (cn1.length : Int) - 1 }
    some { s with cell_nodes := cn2 }

/-- The search loop of `grid::cellRemove` (first variant): walks from
`current` until a node whose `element` matches is found, with no guard on
the `-1` sentinel — reading node `-1` is a fault. -/
def cellRemoveWalk (nodes : List Node) (target : Int) :
    Nat → Int → Int → Res (Int × Int)
  | 0, _, _ => .fuelout
  | fuel + 1, prev, cur =>
    match getN nodes cur with
    | none => .fault
    | some nd =>
      if nd.element = target then .ok (prev, cur)
      else cellRemoveWalk nodes target fuel cur nd.next

/-- `grid::cellRemove` (first variant): unguarded walk, then unlink the
found node and push it on the cell-node free list. -/
def cellRemove (s : GridState T) (cell_node element_node : Int) : Option (GridState T) := do
  let nc ← getN s.cell_nodes cell_node
  match cellRemoveWalk s.cell_nodes element_node (s.cell_nodes.length + 1) cell_node nc.next with
  | .fault => none
  | .fuelout => none
  | .ok (prev, cur) => do
    let ncur ← getN s.cell_nodes cur
    let np ← getN s.cell_nodes prev
    let cn1 ← setN s.cell_nodes prev { np with next := ncur.next }
    let ncur1 ← getN cn1 cur
    let cn2 ← setN cn1 cur { ncur1 with next := s.free_cell_nodes }
    some { s with cell_nodes := cn2, free_cell_nodes := cur }

/-- The scratch state mutated by a query: `last_query`, `query_set`,
`query_size`. -/
structure Scratch where
  last_query : List Int
  query_set : List Bool
  query_size : Nat
deriving DecidableEq, Repr

/-- The walk of `grid::cellQuery` (first variant): for each node of the
cell's list, if its element is not yet marked seen, record it in
`last_query` and mark it. -/
def cellQueryWalk (nodes : List Node) : Nat → Int → Scratch → Res Scratch
  | 0, _, _ => .fuelout
  | fuel + 1, cur, sc =>
    if cur = -1 then .ok sc
    else
      match getN nodes cur with
      | none => .fault
      | some nd =>
        match getN sc.query_set nd.element with
        | none => .fault
        | some seen =>
          if seen then cellQueryWalk nodes fuel nd.next sc
          else
            match setN sc.last_query (sc.query_size : Int) nd.element,
                  setN sc.query_set nd.element true with
            | some lq', some qs' =>
              cellQueryWalk nodes fuel nd.next
                { last_query := lq', query_set := qs', query_size := sc.query_size + 1 }
            | _, _ => .fault

/-- `grid::cellQuery` (first variant), lifted to the grid state. -/
def cellQuery (s : GridState T) (cell_node : Int) : Option (GridState T) := do
  let nc ← getN s.cell_nodes cell_node
  match cellQueryWalk s.cell_nodes (s.cell_nodes.length + 1) nc.next
      { last_query := s.last_query, query_set := s.query_set, query_size := s.query_size } with
  | .fault => none
  | .fuelout => none
  | .ok sc =>
    some { s with last_query := sc.last_query, query_set := sc.query_set, query_size := sc.query_size }

/-- `grid::resetQuerySet`: unmark the handles recorded by the last query
and reset `query_size`. -/
def resetQuerySet (s : GridState T) : Option (GridState T) := do
  let qs' ← foldM (fun qs (i : Nat) => do
      let e ← getN s.last_query (i : Int)
      setN qs e false) s.query_set (List.range s.query_size)
  some { s with query_set := qs', query_size := 0 }

/-- `grid::insert` (first variant): allocate an element slot, link it into
every covered cell, bump `num_elements`, and grow the query scratch
vectors when `query_set.size() < num_elements`. -/
def insert (CellSize : Int) (Z : Nat) (s : GridState T) (element : T) (b : Bounds) :
    Option (Int × GridState T) := do
  let (h, s1) ← elementInsert s element
  let scaled := getCellBounds CellSize b
  let s2 ← foldM (fun st xy => cellInsert st (cellAddr Z xy) h) s1 (rectCells scaled)
  let s3 := { s2 with num_elements := s2.num_elements + 1 }
  let s4 :=
    if (s3.query_set.length : Int) < s3.num_elements then
      { s3 with
        last_query := resizeL s3.last_query s3.num_elements.toNat 0
        query_set := resizeL s3.query_set s3.num_elements.toNat false }
    else s3
  some (h, s4)

/-- `grid::remove` (first variant): unlink the handle from every covered
cell, then free the element slot and decrement `num_elements`. -/
def remove (CellSize : Int) (Z : Nat) (s : GridState T) (element_node : Int) (b : Bounds) :
    Option (GridState T) := do
  let scaled := getCellBounds CellSize b
  let s1 ← foldM (fun st xy => cellRemove st (cellAddr Z xy) element_node) s (rectCells scaled)
  let s2 ← elementRemove s1 element_node
  some { s2 with num_elements := s2.num_elements - 1 }

/-- `grid::update` (first variant): remove from the old bounds' cells, then
insert into the new bounds' cells, keeping the same handle. -/
def update (CellSize : Int) (Z : Nat) (s : GridState T) (element_node : Int)
    (old_bounds new_bounds : Bounds) : Option (GridState T) := do
  let scaled_old := getCellBounds CellSize old_bounds
  let s1 ← foldM (fun st xy => cellRemove st (cellAddr Z xy) element_node) s (rectCells scaled_old)
  let scaled_new := getCellBounds CellSize new_bounds
  foldM (fun st xy => cellInsert st (cellAddr Z xy) element_node) s1 (rectCells scaled_new)

/-- `grid::query` (first variant): run `cellQuery` over every covered cell,
map the recorded handles through the element arena into the result
collection, then reset the dedup scratch state. -/
def query (CellSize : Int) (Z : Nat) (s : GridState T) (b : Bounds) :
    Option (List T × GridState T) := do
  let scaled := getCellBounds CellSize b
  let s1 ← foldM (fun st xy => cellQuery st (cellAddr Z xy)) s (rectCells scaled)
  let results ← (s1.last_query.take s1.query_size).mapM (fun e => do
    let nd ← getN s1.element_nodes e
    getN s1.elements nd.element)
  let s2 ← resetQuerySet s1
  some (results, s2)

end V1

namespace V2

variable {T : Type}

/-- Initial state of the second variant (its constructor runs `clear()`):
the cell-node arena holds `wrapping_bit_mask + 1 = 2^Z` default nodes. -/
def init (T : Type) (Z : Nat) : GridState T :=
  { elements := []
    element_nodes := []
    cell_nodes := List.replicate (wrapping_bit_mask Z + 1) {}
    last_query := []
    query_set := []
    query_size := 0
    free_element_nodes := -1
    free_cell_nodes := -1
    num_elements := 0 }

/-- `grid::clear` (second variant): clears the three arenas and resizes
`cell_nodes` to `wrapping_bit_mask + 1`; no other member is touched. -/
def clear (Z : Nat) (s : GridState T) : GridState T :=
  { s with
    elements := []
    element_nodes := []
    cell_nodes := List.replicate (wrapping_bit_mask Z + 1) {} }

/-- `grid::element_insert` (same body as the first variant's
`elementInsert`). -/
def element_insert (s : GridState T) (element : T) : Option (Int × GridState T) :=
  V1.elementInsert s element

/-- `grid::element_remove` (same body as the first variant's
`elementRemove`). -/
def element_remove (s : GridState T) (element_node : Int) : Option (GridState T) :=
  V1.elementRemove s element_node

/-- `grid::cell_insert` (same body as the first variant's `cellInsert`). -/
def cell_insert (s : GridState T) (cell_node element_node : Int) : Option (GridState T) :=
  V1.cellInsert s cell_node element_node

/-- The `do { ... } while (cell_nodes[current_node].element != element_node)`
search of `grid::cell_remove` (second variant).  The body checks
`current_node == -1` and returns (a no-op) before advancing, but the loop
condition then reads `cell_nodes[current_node]` at the advanced index
without any check — when the advanced index is `-1` that read is a fault. -/
def cell_remove_walk (nodes : List Node) (target : Int) :
    Nat → Int → Res (Option (Int × Int))
  | 0, _ => .fuelout
  | fuel + 1, cur =>
    if cur = -1 then .ok none
    else
      match getN nodes cur with
      | none => .fault
      | some nd =>
        match getN nodes nd.next with
        | none => .fault
        | some nd' =>
          if nd'.element = target then .ok (some (cur, nd.next))
          else cell_remove_walk nodes target fuel nd.next

/-- `grid::cell_remove` (second variant): guarded walk, then unlink the
found node and push it on the cell-node free list; an early `return`
leaves the state unchanged. -/
def cell_remove (s : GridState T) (cell_node element_node : Int) : Option (GridState T) :=
  match cell_remove_walk s.cell_nodes element_node (s.cell_nodes.length + 1) cell_node with
  | .fault => none
  | .fuelout => none
  | .ok none => some s
  | .ok (some (prev, cur)) => do
    let ncur ← getN s.cell_nodes cur
    let np ← getN s.cell_nodes prev
    let cn1 ← setN s.cell_nodes prev { np with next := ncur.next }
    let ncur1 ← getN cn1 cur
    let cn2 ← setN cn1 cur { ncur1 with next := s.free_cell_nodes }
    some { s with cell_nodes := cn2, free_cell_nodes := cur }

/-- The walk of `grid::cell_query` (second variant, branchless): for each
node, the store `last_query[query_size] = current_element` happens
unconditionally, `query_size` is advanced only when the element was not
yet seen, and the seen mark is set unconditionally. -/
def cell_query_walk (nodes : List Node) : Nat → Int → V1.Scratch → Res V1.Scratch
  | 0, _, _ => .fuelout
  | fuel + 1, cur, sc =>
    if cur = -1 then .ok sc
    else
      match getN nodes cur with
      | none => .fault
      | some nd =>
        match getN sc.query_set nd.element with
        | none => .fault
        | some seen =>
          match setN sc.last_query (sc.query_size : Int) nd.element,
                setN sc.query_set nd.element true with
          | some lq', some qs' =>
            cell_query_walk nodes fuel nd.next
              { last_query := lq', query_set := qs'
                query_size := sc.query_size + (if seen then 0 else 1) }
          | _, _ => .fault

/-- `grid::cell_query` (second variant), lifted to the grid state. -/
def cell_query (s : GridState T) (cell_node : Int) : Option (GridState T) := do
  let nc ← getN s.cell_nodes cell_node
  match cell_query_walk s.cell_nodes (s.cell_nodes.length + 1) nc.next
      { last_query := s.last_query, query_set := s.query_set, query_size := s.query_size } with
  | .fault => none
  | .fuelout => none
  | .ok sc =>
    some { s with last_query := sc.last_query, query_set := sc.query_set, query_size := sc.query_size }

/-- `grid::reset_query_set` (same body as the first variant's
`resetQuerySet`). -/
def reset_query_set (s : GridState T) : Option (GridState T) :=
  V1.resetQuerySet s

/-- `grid::insert` (second variant; the `bounds` overload delegates to the
`cell_bounds` one through `get_cell_bounds`). -/
def insert (CellSize : Int) (Z : Nat) (s : GridState T) (element : T) (b : Bounds) :
    Option (Int × GridState T) := do
  let (h, s1) ← element_insert s element
  let scaled := getCellBounds CellSize b
  let s2 ← foldM (fun st xy => cell_insert st (cellAddr Z xy) h) s1 (rectCells scaled)
  let s3 := { s2 with num_elements := s2.num_elements + 1 }
  let s4 :=
    if (s3.query_set.length : Int) < s3.num_elements then
      { s3 with
        last_query := resizeL s3.last_query s3.num_elements.toNat 0
        query_set := resizeL s3.query_set s3.num_elements.toNat false }
    else s3
  some (h, s4)

/-- `grid::remove` (second variant). -/
def remove (CellSize : Int) (Z : Nat) (s : GridState T) (element_node : Int) (b : Bounds) :
    Option (GridState T) := do
  let scaled := getCellBounds CellSize b
  let s1 ← foldM (fun st xy => cell_remove st (cellAddr Z xy) element_node) s (rectCells scaled)
  let s2 ← element_remove s1 element_node
  some { s2 with num_elements := s2.num_elements - 1 }

/-- `grid::update` (second variant). -/
def update (CellSize : Int) (Z : Nat) (s : GridState T) (element_node : Int)
    (old_bounds new_bounds : Bounds) : Option (GridState T) := do
  let scaled_old := getCellBounds CellSize old_bounds
  let s1 ← foldM (fun st xy => cell_remove st (cellAddr Z xy) element_node) s (rectCells scaled_old)
  let scaled_new := getCellBounds CellSize new_bounds
  foldM (fun st xy => cell_insert st (cellAddr Z xy) element_node) s1 (rectCells scaled_new)

/-- `grid::query` (second variant). -/
def query (CellSize : Int) (Z : Nat) (s : GridState T) (b : Bounds) :
    Option (List T × GridState T) := do
  let scaled := getCellBounds CellSize b
  let s1 ← foldM (fun st xy => cell_query st (cellAddr Z xy)) s (rectCells scaled)
  let results ← (s1.last_query.take s1.query_size).mapM (fun e => do
    let nd ← getN s1.element_nodes e
    getN s1.elements nd.element)
  let s2 ← reset_query_set s1
  some (results, s2)

end V2

/-! ## Claim C3: valid-address safety of the cell-node head region

`z_order` always lands in `[0, 2^Z - 1]`, and the second variant's arena
does hold `2^Z` permanent head slots; but the first variant's arena is
created with `wrapping_bit_mask = 2^Z - 1` slots, so the attained address
`2^Z - 1` (for example `z_order 255 255 = 65535` at `Z = 16`) indexes past
the end of its head region. -/

/-- C3: the z-order address is always at most `2^Z - 1`; the second
variant's arena has exactly `2^Z` head slots, so every address is a valid
index there; but the first variant's arena has only `2^Z - 1` slots while
the address `2^Z - 1` is attained (`z_order 255 255 = 65535` with
`ZBitWidth = 16`), so the claim fails on the first variant: a cell head
access at that address is out of bounds. -/
theorem C3_valid_address_safety :
    (∀ Z x y, z_order Z x y ≤ 2 ^ Z - 1)
    ∧ (∀ (T : Type) (Z : Nat), (V2.init T Z).cell_nodes.length = 2 ^ Z)
    ∧ (∀ (T : Type) (Z : Nat), (V1.init T Z).cell_nodes.length = 2 ^ Z - 1)
    ∧ z_order 16 255 255 = 65535
    ∧ ¬ (65535 : Nat) < 2 ^ 16 - 1 := by
  refine ⟨fun Z x y => Nat.and_le_right, fun T Z => ?_, fun T Z => ?_, by decide, by decide⟩
  · have h1 : 1 ≤ 2 ^ Z := Nat.one_le_two_pow
    simp [V2.init, wrapping_bit_mask]
    omega
  · simp [V1.init, wrapping_bit_mask]

/-! ## Claim C1: round-trip membership

The round-trip property fails on the code as written: on the first
variant (the one the claim cites), `insert` itself faults for bounds whose
cells map to address `2^Z - 1`, because the head-slot arena has only
`2^Z - 1` slots (claim C3's defect).  For bounds clear of that address the
round trip does hold, as the second part of the theorem shows concretely. -/

/-- C1: with `CellSize = 1`, `ZBitWidth = 2`, the bounds `{3,3,0,0}` map to
the single cell `(3,3)` whose address is `3 = 2^2 - 1`; the first variant's
arena has `2^2 - 1 = 3` head slots, so `insert` faults instead of making
the value queryable.  For bounds away from the top address
(`{0,0,0,1}`, cells `(0,0)` and `(0,1)`, addresses `0` and `2`) the full
round trip behaves as the claim states: `query` returns exactly `[7]`
after `insert`, and `[]` after `remove`. -/
theorem C1_round_trip_membership :
    V1.insert (T := Int) 1 2 (V1.init Int 2) 7 ⟨3, 3, 0, 0⟩ = none
    ∧ (do
        let (h, s1) ← V1.insert (T := Int) 1 2 (V1.init Int 2) 7 ⟨0, 0, 0, 1⟩
        let (r1, s2) ← V1.query 1 2 s1 ⟨0, 0, 0, 1⟩
        let s3 ← V1.remove 1 2 s2 h ⟨0, 0, 0, 1⟩
        let (r2, _) ← V1.query 1 2 s3 ⟨0, 0, 0, 1⟩
        some (r1, r2)) = some ([7], []) := by
  exact ⟨by decide, by decide⟩

/-! ## Claim C4: removal of an absent handle is not a safe no-op

Both variants read past the `-1` sentinel.  The first variant's walk has
no sentinel check at all; the second variant checks `current_node == -1`
at the top of the `do` body, but the `while` condition has already read
`cell_nodes[current_node]` at the advanced index, so an empty cell (head
`next == -1`) still faults. -/

/-- C4: removing handle `5` from the empty cell `0` of a freshly
initialized grid faults in both variants (it reads node `-1`), where the
claim requires a state-preserving no-op. -/
theorem C4_cell_remove_not_noop :
    V1.cellRemove (T := Int) (V1.init Int 2) 0 5 = none
    ∧ V2.cell_remove (T := Int) (V2.init Int 2) 0 5 = none := by
  exact ⟨by decide, by decide⟩

/-! ## Claim C5: `clear()` does not reset the free lists

Both variants' `clear` only clears the three arenas and re-sizes the
head region; `free_element_nodes` and `free_cell_nodes` keep whatever
values they had, dangling into the discarded arenas.  A subsequent
`insert` then pops the stale element free list and faults. -/

/-- C5: after `insert`, `remove`, `clear` (first variant, `CellSize = 4`,
`ZBitWidth = 2`), the cleared state has `free_element_nodes = 0` and
`free_cell_nodes = 3` (not `-1` as the claim requires, although the
arenas and head slots are restored), and the next `insert` faults by
reading the cleared `element_nodes[0]`.  The second variant's `clear`
leaves the free heads stale in the same way. -/
theorem C5_clear_keeps_free_lists :
    (do
      let (h, s1) ← V1.insert (T := Int) 4 2 (V1.init Int 2) 7 ⟨0, 0, 0, 0⟩
      let s2 ← V1.remove 4 2 s1 h ⟨0, 0, 0, 0⟩
      let s3 := V1.clear 2 s2
      some (s3.free_element_nodes, s3.free_cell_nodes, s3.elements, s3.element_nodes,
            s3.cell_nodes, (V1.insert 4 2 s3 7 ⟨0, 0, 0, 0⟩).isSome))
      = some (0, 3, ([] : List Int), ([] : List Node), List.replicate 3 {}, false)
    ∧ (do
      let (h, s1) ← V2.insert (T := Int) 4 2 (V2.init Int 2) 7 ⟨0, 0, 0, 0⟩
      let s2 ← V2.remove 4 2 s1 h ⟨0, 0, 0, 0⟩
      let s3 := V2.clear 2 s2
      some (s3.free_element_nodes, s3.free_cell_nodes, (V2.insert 4 2 s3 7 ⟨0, 0, 0, 0⟩).isSome))
      = some (0, 4, false) := by
  exact ⟨by rfl, by rfl⟩

/-! ## Claim C6: deduplication

On the first variant the property holds in the canonical scenario; the
second variant's "branchless" rewrite of the dedup step is not equivalent
to the branching version it documents: it stores
`last_query[query_size]` unconditionally, and once every element of the
grid has been recorded this store is one past the end of `last_query`. -/

/-- C6: value `7` inserted at bounds `{0,0,4,0}` (`CellSize = 4`,
`ZBitWidth = 2`) spans `k = 2` cells, addresses `0` and `1`.  Querying the
same region returns `7` exactly once on the first variant; on the second
variant the same query faults: after `7` is recorded from the first cell,
`query_size = 1 = last_query.size()`, and the unconditional store for the
duplicate in the second cell writes `last_query[1]`, out of bounds. -/
theorem C6_deduplication :
    (do
      let (_, s1) ← V1.insert (T := Int) 4 2 (V1.init Int 2) 7 ⟨0, 0, 4, 0⟩
      let (r, _) ← V1.query 4 2 s1 ⟨0, 0, 4, 0⟩
      some (r.count 7)) = some 1
    ∧ (do
      let (_, s1) ← V2.insert (T := Int) 4 2 (V2.init Int 2) 7 ⟨0, 0, 4, 0⟩
      let (r, _) ← V2.query 4 2 s1 ⟨0, 0, 4, 0⟩
      some r) = none := by
  exact ⟨by decide, by decide⟩

/-! ## Claim C9: idempotent clear

On the first variant (the one the claim cites), `clear` followed by
`query` does return the empty collection for bounds whose addresses fit
the arena, but bounds reaching address `2^Z - 1` make the query fault on
the undersized head region instead of returning an empty collection. -/

/-- C9: with `CellSize = 1`, `ZBitWidth = 2`, querying `{3,3,0,0}` (cell
`(3,3)`, address `3`) on a freshly cleared first-variant grid faults on
the 3-slot head region rather than returning an empty collection; for
in-range bounds (`{0,0,0,1}`) the claim's behaviour is observed even after
a preceding insert. -/
theorem C9_idempotent_clear :
    V1.query (T := Int) 1 2 (V1.clear 2 (V1.init Int 2)) ⟨3, 3, 0, 0⟩ = none
    ∧ (do
      let (_, s1) ← V1.insert (T := Int) 1 2 (V1.init Int 2) 7 ⟨0, 0, 0, 1⟩
      let s2 := V1.clear 2 s1
      let (r, _) ← V1.query 1 2 s2 ⟨0, 0, 0, 1⟩
      some r) = some [] := by
  exact ⟨by decide, by decide⟩

/-! ## Claim C2: equivalence of the two interleave implementations

The portable shift/mask chain and the `_pdep_u64`-based implementation are
proved to agree on all 32-bit inputs by characterizing, bit by bit, the
layout after each stage of the chain, and by evaluating `pdep` on the two
constant masks. -/

/-- Layout invariant between the chain's stages: in a "chunk `c`" layout
bit `n` of `s` is bit `(n / (2*c)) * c + n % c` of `x` when `n` lies in an
even `c`-chunk, and `0` otherwise. -/
def bitSpec (x c s : Nat) : Prop :=
  ∀ n, s.testBit n = (decide ((n / c) % 2 = 0) && x.testBit ((n / (2 * c)) * c + n % c))

theorem testBit_high {x : Nat} (hx : x < 2 ^ 32) : ∀ i, 32 ≤ i → x.testBit i = false :=
  fun i hi => Nat.testBit_lt_two_pow (lt_of_lt_of_le hx (Nat.pow_le_pow_right (by norm_num) hi))

theorem bitSpec_init {x : Nat} (hx : x < 2 ^ 32) : bitSpec x 32 x := by
  intro n
  rcases lt_or_ge n 64 with hn | hn
  · rcases lt_or_ge n 32 with h32 | h32
    · have e0 : n / 32 = 0 := by omega
      have e1 : n / 64 * 32 + n % 32 = n := by omega
      simp [e0, e1]
    · have e0 : (n / 32) % 2 = 1 := by omega
      simp [e0, testBit_high hx n h32]
  · by_cases h2 : (n / 32) % 2 = 0
    · have e1 : 32 ≤ n / 64 * 32 + n % 32 := by omega
      simp [h2, testBit_high hx _ e1, testBit_high hx n (by omega)]
    · simp [h2, testBit_high hx n (by omega)]

theorem bitSpec_step16 {x s : Nat} (hx : x < 2 ^ 32) (h : bitSpec x 32 s) :
    bitSpec x 16 ((s ||| (s <<< 16)) &&& 0x0000ffff0000ffff) := by
  intro n
  have hmask : (0x0000ffff0000ffff : Nat).testBit n = (decide (n < 64) && decide ((n / 16) % 2 = 0)) := by
    rcases lt_or_ge n 64 with hm | hm
    · have hall : ∀ k, k < 64 → (0x0000ffff0000ffff : Nat).testBit k = decide ((k / 16) % 2 = 0) := by decide
      simp [hall n hm, hm]
    · rw [Nat.testBit_lt_two_pow (lt_of_lt_of_le (by norm_num) (Nat.pow_le_pow_right (by norm_num) hm))]
      simp [Nat.not_lt.mpr hm]
  rw [Nat.testBit_land, Nat.testBit_lor, Nat.testBit_shiftLeft, hmask, h n, h (n - 16)]
  rcases lt_or_ge n 64 with hn | hn
  · by_cases hc : (n / 16) % 2 = 0
    · by_cases h2c : (n / 32) % 2 = 0
      · have e1 : n / 64 * 32 + n % 32 = n / 32 * 16 + n % 16 := by omega
        rcases (by omega : ((n - 16) / 32) % 2 = 1 ∨ n < 16) with e2 | e2
        · simp [hn, hc, h2c, e1, e2]
        · simp [hn, hc, h2c, e1, Nat.not_le.mpr e2]
      · have e3 : 16 ≤ n := by omega
        have e4 : ((n - 16) / 32) % 2 = 0 := by omega
        have e5 : (n - 16) / 64 * 32 + (n - 16) % 32 = n / 32 * 16 + n % 16 := by omega
        simp [hn, hc, h2c, e3, e4, e5]
    · simp [hc]
  · have e6 : 32 ≤ n / 32 * 16 + n % 16 := by omega
    simp [Nat.not_lt.mpr hn, testBit_high hx _ e6]

theorem bitSpec_step8 {x s : Nat} (hx : x < 2 ^ 32) (h : bitSpec x 16 s) :
    bitSpec x 8 ((s ||| (s <<< 8)) &&& 0x00ff00ff00ff00ff) := by
  intro n
  have hmask : (0x00ff00ff00ff00ff : Nat).testBit n = (decide (n < 64) && decide ((n / 8) % 2 = 0)) := by
    rcases lt_or_ge n 64 with hm | hm
    · have hall : ∀ k, k < 64 → (0x00ff00ff00ff00ff : Nat).testBit k = decide ((k / 8) % 2 = 0) := by decide
      simp [hall n hm, hm]
    · rw [Nat.testBit_lt_two_pow (lt_of_lt_of_le (by norm_num) (Nat.pow_le_pow_right (by norm_num) hm))]
      simp [Nat.not_lt.mpr hm]
  rw [Nat.testBit_land, Nat.testBit_lor, Nat.testBit_shiftLeft, hmask, h n, h (n - 8)]
  rcases lt_or_ge n 64 with hn | hn
  · by_cases hc : (n / 8) % 2 = 0
    · by_cases h2c : (n / 16) % 2 = 0
      · have e1 : n / 32 * 16 + n % 16 = n / 16 * 8 + n % 8 := by omega
        rcases (by omega : ((n - 8) / 16) % 2 = 1 ∨ n < 8) with e2 | e2
        · simp [hn, hc, h2c, e1, e2]
        · simp [hn, hc, h2c, e1, Nat.not_le.mpr e2]
      · have e3 : 8 ≤ n := by omega
        have e4 : ((n - 8) / 16) % 2 = 0 := by omega
        have e5 : (n - 8) / 32 * 16 + (n - 8) % 16 = n / 16 * 8 + n % 8 := by omega
        simp [hn, hc, h2c, e3, e4, e5]
    · simp [hc]
  · have e6 : 32 ≤ n / 16 * 8 + n % 8 := by omega
    simp [Nat.not_lt.mpr hn, testBit_high hx _ e6]

theorem bitSpec_step4 {x s : Nat} (hx : x < 2 ^ 32) (h : bitSpec x 8 s) :
    bitSpec x 4 ((s ||| (s <<< 4)) &&& 0x0f0f0f0f0f0f0f0f) := by
  intro n
  have hmask : (0x0f0f0f0f0f0f0f0f : Nat).testBit n = (decide (n < 64) && decide ((n / 4) % 2 = 0)) := by
    rcases lt_or_ge n 64 with hm | hm
    · have hall : ∀ k, k < 64 → (0x0f0f0f0f0f0f0f0f : Nat).testBit k = decide ((k / 4) % 2 = 0) := by decide
      simp [hall n hm, hm]
    · rw [Nat.testBit_lt_two_pow (lt_of_lt_of_le (by norm_num) (Nat.pow_le_pow_right (by norm_num) hm))]
      simp [Nat.not_lt.mpr hm]
  rw [Nat.testBit_land, Nat.testBit_lor, Nat.testBit_shiftLeft, hmask, h n, h (n - 4)]
  rcases lt_or_ge n 64 with hn | hn
  · by_cases hc : (n / 4) % 2 = 0
    · by_cases h2c : (n / 8) % 2 = 0
      · have e1 : n / 16 * 8 + n % 8 = n / 8 * 4 + n % 4 := by omega
        rcases (by omega : ((n - 4) / 8) % 2 = 1 ∨ n < 4) with e2 | e2
        · simp [hn, hc, h2c, e1, e2]
        · simp [hn, hc, h2c, e1, Nat.not_le.mpr e2]
      · have e3 : 4 ≤ n := by omega
        have e4 : ((n - 4) / 8) % 2 = 0 := by omega
        have e5 : (n - 4) / 16 * 8 + (n - 4) % 8 = n / 8 * 4 + n % 4 := by omega
        simp [hn, hc, h2c, e3, e4, e5]
    · simp [hc]
  · have e6 : 32 ≤ n / 8 * 4 + n % 4 := by omega
    simp [Nat.not_lt.mpr hn, testBit_high hx _ e6]

theorem bitSpec_step2 {x s : Nat} (hx : x < 2 ^ 32) (h : bitSpec x 4 s) :
    bitSpec x 2 ((s ||| (s <<< 2)) &&& 0x3333333333333333) := by
  intro n
  have hmask : (0x3333333333333333 : Nat).testBit n = (decide (n < 64) && decide ((n / 2) % 2 = 0)) := by
    rcases lt_or_ge n 64 with hm | hm
    · have hall : ∀ k, k < 64 → (0x3333333333333333 : Nat).testBit k = decide ((k / 2) % 2 = 0) := by decide
      simp [hall n hm, hm]
    · rw [Nat.testBit_lt_two_pow (lt_of_lt_of_le (by norm_num) (Nat.pow_le_pow_right (by norm_num) hm))]
      simp [Nat.not_lt.mpr hm]
  rw [Nat.testBit_land, Nat.testBit_lor, Nat.testBit_shiftLeft, hmask, h n, h (n - 2)]
  rcases lt_or_ge n 64 with hn | hn
  · by_cases hc : (n / 2) % 2 = 0
    · by_cases h2c : (n / 4) % 2 = 0
      · have e1 : n / 8 * 4 + n % 4 = n / 4 * 2 + n % 2 := by omega
        rcases (by omega : ((n - 2) / 4) % 2 = 1 ∨ n < 2) with e2 | e2
        · simp [hn, hc, h2c, e1, e2]
        · simp [hn, hc, h2c, e1, Nat.not_le.mpr e2]
      · have e3 : 2 ≤ n := by omega
        have e4 : ((n - 2) / 4) % 2 = 0 := by omega
        have e5 : (n - 2) / 8 * 4 + (n - 2) % 4 = n / 4 * 2 + n % 2 := by omega
        simp [hn, hc, h2c, e3, e4, e5]
    · simp [hc]
  · have e6 : 32 ≤ n / 4 * 2 + n % 2 := by omega
    simp [Nat.not_lt.mpr hn, testBit_high hx _ e6]

theorem bitSpec_step1 {x s : Nat} (hx : x < 2 ^ 32) (h : bitSpec x 2 s) :
    ∀ n, ((s ||| (s <<< 1)) &&& 0x5555555555555555).testBit n
      = (decide (n % 2 = 0) && x.testBit (n / 2)) := by
  intro n
  have hmask : (0x5555555555555555 : Nat).testBit n = (decide (n < 64) && decide (n % 2 = 0)) := by
    rcases lt_or_ge n 64 with hm | hm
    · have hall : ∀ k, k < 64 → (0x5555555555555555 : Nat).testBit k = decide (k % 2 = 0) := by decide
      simp [hall n hm, hm]
    · rw [Nat.testBit_lt_two_pow (lt_of_lt_of_le (by norm_num) (Nat.pow_le_pow_right (by norm_num) hm))]
      simp [Nat.not_lt.mpr hm]
  rw [Nat.testBit_land, Nat.testBit_lor, Nat.testBit_shiftLeft, hmask, h n, h (n - 1)]
  rcases lt_or_ge n 64 with hn | hn
  · by_cases hc : n % 2 = 0
    · by_cases h2c : (n / 2) % 2 = 0
      · have e1 : n / 4 * 2 = n / 2 := by omega
        rcases (by omega : ((n - 1) / 2) % 2 = 1 ∨ n < 1) with e2 | e2
        · simp [hn, hc, h2c, e1, e2]
        · simp [hn, hc, h2c, e1, Nat.not_le.mpr e2]
      · have e3 : 1 ≤ n := by omega
        have e4 : ((n - 1) / 2) % 2 = 0 := by omega
        have e5 : (n - 1) / 4 * 2 + (n - 1) % 2 = n / 2 := by omega
        simp [hn, hc, h2c, e3, e4, e5]
    · simp [hc]
  · have e6 : 32 ≤ n / 2 := by omega
    simp [Nat.not_lt.mpr hn, testBit_high hx _ e6]

/-- The defining property of `interleave_with_zeros` on 32-bit inputs:
bit `2*i` of the output is bit `i` of the input, odd bits are zero. -/
theorem interleave_with_zeros_testBit {x : Nat} (hx : x < 2 ^ 32) :
    ∀ n, (interleave_with_zeros x).testBit n = (decide (n % 2 = 0) && x.testBit (n / 2)) :=
  bitSpec_step1 hx (bitSpec_step2 hx (bitSpec_step4 hx
    (bitSpec_step8 hx (bitSpec_step16 hx (bitSpec_init hx)))))

/-- Ground-truth bit spreading: bit `i` of the input moves to bit `2*i`,
for the low `k` bits of the input. -/
def spreadAux : Nat → Nat → Nat
  | 0, _ => 0
  | k + 1, v => (v % 2) + 4 * spreadAux k (v / 2)

/-- The mask `0b0101...01` with `k` one bits. -/
def mask5 : Nat → Nat
  | 0 => 0
  | k + 1 => 1 + 4 * mask5 k

theorem spreadAux_testBit : ∀ (k v n : Nat),
    (spreadAux k v).testBit n = (decide (n % 2 = 0) && decide (n / 2 < k) && v.testBit (n / 2)) := by
  intro k
  induction k with
  | zero => intro v n; simp [spreadAux]
  | succ k ih =>
    intro v n
    match n with
    | 0 =>
      have h4 : (v % 2 + 4 * spreadAux k (v / 2)) % 2 = v % 2 := by omega
      simp [spreadAux, Nat.testBit_zero, h4]
    | 1 =>
      have h4 : (v % 2 + 4 * spreadAux k (v / 2)) / 2 = 2 * spreadAux k (v / 2) := by omega
      rw [spreadAux, show (v % 2 + 4 * spreadAux k (v / 2)).testBit 1
            = ((v % 2 + 4 * spreadAux k (v / 2)) / 2).testBit 0 from Nat.testBit_succ _ 0]
      rw [h4, Nat.testBit_zero]
      simp [Nat.mul_mod_right]
    | n + 2 =>
      have h4 : (v % 2 + 4 * spreadAux k (v / 2)) / 2 / 2 = spreadAux k (v / 2) := by omega
      have e1 : (n + 2) % 2 = n % 2 := by omega
      have e2 : (n + 2) / 2 = n / 2 + 1 := by omega
      rw [spreadAux, Nat.testBit_succ, Nat.testBit_succ, h4, ih, e1, e2, Nat.testBit_succ]
      have e5 : (n / 2 + 1 < k + 1) ↔ (n / 2 < k) := by omega
      simp [e5]

theorem pdepAux_zero : ∀ fuel x, pdepAux fuel x 0 = 0 := by
  intro fuel
  induction fuel with
  | zero => intro x; rfl
  | succ f ih => intro x; simp [pdepAux, ih]

theorem pdepAux_mask5 : ∀ (k fuel x : Nat), 2 * k ≤ fuel + 1 →
    pdepAux fuel x (mask5 k) = spreadAux k x := by
  intro k
  induction k with
  | zero => intro fuel x _; simp [mask5, spreadAux, pdepAux_zero]
  | succ k ih =>
    intro fuel x hf
    obtain ⟨f, rfl⟩ : ∃ f, fuel = f + 1 := ⟨fuel - 1, by omega⟩
    have hm : mask5 (k + 1) % 2 = 1 := by rw [mask5]; omega
    have hm2 : mask5 (k + 1) / 2 = 2 * mask5 k := by rw [mask5]; omega
    rw [pdepAux, if_pos hm, hm2]
    rcases k with _ | k'
    · simp [mask5, pdepAux_zero, spreadAux]
    · obtain ⟨f', rfl⟩ : ∃ f', f = f' + 1 := ⟨f - 1, by omega⟩
      have he2 : (2 * mask5 (k' + 1)) / 2 = mask5 (k' + 1) := by omega
      rw [pdepAux, if_neg (by omega), he2, ih f' (x / 2) (by omega)]
      conv_rhs => rw [spreadAux]
      omega

theorem mask5_32 : mask5 32 = 0x5555555555555555 := by decide

theorem pdep_u64_even (x : Nat) : pdep_u64 x 0x5555555555555555 = spreadAux 32 x := by
  rw [pdep_u64, ← mask5_32]
  exact pdepAux_mask5 32 64 x (by omega)

theorem pdep_u64_odd (y : Nat) : pdep_u64 y 0xaaaaaaaaaaaaaaaa = 2 * spreadAux 32 y := by
  have hA : (0xaaaaaaaaaaaaaaaa : Nat) = 2 * mask5 32 := by decide
  rw [pdep_u64, hA]
  show pdepAux (63 + 1) y (2 * mask5 32) = _
  rw [pdepAux, if_neg (by omega), show (2 * mask5 32) / 2 = mask5 32 from by omega,
      pdepAux_mask5 32 63 y (by omega)]

/-- On 32-bit inputs the shift/mask chain agrees with ground-truth bit
spreading. -/
theorem interleave_with_zeros_eq_spread {x : Nat} (hx : x < 2 ^ 32) :
    interleave_with_zeros x = spreadAux 32 x := by
  apply Nat.eq_of_testBit_eq
  intro n
  rw [interleave_with_zeros_testBit hx n, spreadAux_testBit]
  by_cases h : n / 2 < 32
  · simp [h]
  · simp [testBit_high hx (n / 2) (by omega)]

/-- C2: for all 32-bit cell coordinates, the portable shift/mask
interleave and the `_pdep_u64`-based interleave produce the same 64-bit
value, and hence the same masked z-order address for every `ZBitWidth`. -/
theorem C2_z_order_equivalence : ∀ (Z x y : Nat), x < 2 ^ 32 → y < 2 ^ 32 →
    interleave x y = interleave_bmi2 x y ∧ z_order Z x y = z_order_bmi2 Z x y := by
  intro Z x y hx hy
  have h : interleave x y = interleave_bmi2 x y := by
    rw [interleave, interleave_bmi2, pdep_u64_even, pdep_u64_odd,
        interleave_with_zeros_eq_spread hx, interleave_with_zeros_eq_spread hy,
        Nat.shiftLeft_eq, Nat.lor_comm]
    norm_num [Nat.mul_comm]
  exact ⟨h, by rw [z_order, z_order_bmi2, h]⟩

/-- C2 witness: the equivalence evaluated at `x = 3`, `y = 5`,
`ZBitWidth = 16`. -/
theorem C2_z_order_equivalence_witness :
    (3 : Nat) < 2 ^ 32 ∧ (5 : Nat) < 2 ^ 32
    ∧ (interleave 3 5 = interleave_bmi2 3 5 ∧ z_order 16 3 5 = z_order_bmi2 16 3 5) :=
  ⟨by norm_num, by norm_num, C2_z_order_equivalence 16 3 5 (by norm_num) (by norm_num)⟩

/-! ## Claim C7: coordinate mapping -/

/-- Truncating division is monotone in the numerator (positive divisor). -/
theorem tdiv_le_tdiv {a b c : Int} (hc : 0 < c) (hab : a ≤ b) : a.tdiv c ≤ b.tdiv c := by
  rcases le_or_lt 0 a with ha | ha
  · rw [Int.tdiv_eq_ediv ha hc.le, Int.tdiv_eq_ediv (ha.trans hab) hc.le]
    exact Int.ediv_le_ediv hc hab
  · rcases le_or_lt 0 b with hb | hb
    · have h1 : a.tdiv c ≤ 0 := by
        have h2 := Int.tdiv_nonneg (a := -a) (b := c) (by omega) hc.le
        rw [Int.neg_tdiv] at h2
        omega
      have h2 : 0 ≤ b.tdiv c := Int.tdiv_nonneg hb hc.le
      omega
    · have h3 : (-b).tdiv c ≤ (-a).tdiv c := by
        rw [Int.tdiv_eq_ediv (by omega) hc.le, Int.tdiv_eq_ediv (by omega) hc.le]
        exact Int.ediv_le_ediv hc (by omega)
      rw [Int.neg_tdiv, Int.neg_tdiv] at h3
      omega

/-- C7: the computed cell rectangle is exactly the four truncating
divisions of the bounds edges by `CellSize`, and for non-negative width
and height the rectangle is non-degenerate
(`x_start ≤ x_end`, `y_start ≤ y_end`). -/
theorem C7_coordinate_mapping (CellSize : Int) (hC : 0 < CellSize) (b : Bounds) :
    getCellBounds CellSize b =
      { x_start := b.x.tdiv CellSize
        x_end := (b.x + b.w).tdiv CellSize
        y_start := b.y.tdiv CellSize
        y_end := (b.y + b.h).tdiv CellSize }
    ∧ (0 ≤ b.w → (getCellBounds CellSize b).x_start ≤ (getCellBounds CellSize b).x_end)
    ∧ (0 ≤ b.h → (getCellBounds CellSize b).y_start ≤ (getCellBounds CellSize b).y_end) := by
  refine ⟨rfl, fun hw => ?_, fun hh => ?_⟩
  · exact tdiv_le_tdiv hC (by omega)
  · exact tdiv_le_tdiv hC (by omega)

/-- C7 witness: the boundary-straddling bounds `{9,9,2,2}` with
`cell_size = 10` from the spec's concrete scenario. -/
theorem C7_coordinate_mapping_witness :
    (0 : Int) < 10
    ∧ (getCellBounds 10 ⟨9, 9, 2, 2⟩ =
        { x_start := (9 : Int).tdiv 10, x_end := ((9 : Int) + 2).tdiv 10
          y_start := (9 : Int).tdiv 10, y_end := ((9 : Int) + 2).tdiv 10 }
      ∧ ((0 : Int) ≤ 2 → (getCellBounds 10 ⟨9, 9, 2, 2⟩).x_start ≤ (getCellBounds 10 ⟨9, 9, 2, 2⟩).x_end)
      ∧ ((0 : Int) ≤ 2 → (getCellBounds 10 ⟨9, 9, 2, 2⟩).y_start ≤ (getCellBounds 10 ⟨9, 9, 2, 2⟩).y_end)) :=
  ⟨by norm_num, C7_coordinate_mapping 10 (by norm_num) ⟨9, 9, 2, 2⟩⟩

/-! ## Indexing lemmas for the checked accessors -/

theorem getN_pos {α : Type} {l : List α} {i : Int} {a : α} (h : getN l i = some a) :
    0 ≤ i ∧ i.toNat < l.length := by
  by_cases hi : i < 0
  · simp [getN, hi] at h
  · refine ⟨by omega, ?_⟩
    simp only [getN, hi, if_false] at h
    exact (List.getElem?_eq_some.mp h).1

theorem getN_of_lt {α : Type} {l : List α} {j : Nat} (h : j < l.length) :
    getN l (j : Int) = some l[j] := by
  simp [getN, Int.toNat_natCast, h]

theorem getN_replicate {α : Type} {n j : Nat} {d : α} (h : j < n) :
    getN (List.replicate n d) (j : Int) = some d := by
  rw [getN_of_lt (by simpa using h)]
  simp

theorem getN_append_left {α : Type} {l l2 : List α} {i : Int}
    (h : 0 ≤ i) (h2 : i.toNat < l.length) : getN (l ++ l2) i = getN l i := by
  simp only [getN, show ¬ i < 0 from by omega, if_false]
  rw [List.getElem?_append]
  simp [h2]

theorem getN_concat_last {α : Type} {l : List α} {v : α} :
    getN (l ++ [v]) (l.length : Int) = some v := by
  rw [getN_of_lt (by simp)]
  simp

theorem setN_of_lt {α : Type} {l : List α} {j : Nat} (v : α) (h : j < l.length) :
    setN l (j : Int) v = some (l.set j v) := by
  simp [setN, Int.toNat_natCast, h]

theorem setN_some {α : Type} {l l' : List α} {i : Int} {v : α} (h : setN l i v = some l') :
    0 ≤ i ∧ i.toNat < l.length ∧ l' = l.set i.toNat v := by
  by_cases hc : 0 ≤ i ∧ i.toNat < l.length
  · rw [setN, if_pos hc] at h
    exact ⟨hc.1, hc.2, (Option.some_inj.mp h).symm⟩
  · rw [setN, if_neg hc] at h
    cases h

theorem getN_set_self {α : Type} {l : List α} {j : Nat} {v : α} (h : j < l.length) :
    getN (l.set j v) (j : Int) = some v := by
  rw [getN_of_lt (by simpa using h)]
  simp [List.getElem_set_self]

theorem getN_set_ne {α : Type} {l : List α} {j : Nat} {v : α} {i : Int} (h : i ≠ (j : Int)) :
    getN (l.set j v) i = getN l i := by
  by_cases hi : i < 0
  · simp [getN, hi]
  · simp only [getN, hi, if_false]
    rw [List.getElem?_set]
    have : ¬ j = i.toNat := by omega
    simp [this]

/-! ## A cell-arena model for single-element scenarios (first variant)

For the update/round-trip theorems we track, for a grid holding exactly one
element handle (`0`), the per-address linked lists as lists of node
indices.  `chain0 nodes i l` says that starting from pointer `i` the cell
list visits exactly the nodes `l`, all carrying element handle `0`;
`chainF` is the same for the cell-node free list (elements unconstrained). -/

def chain0 (nodes : List Node) : Int → List Nat → Prop
  | i, [] => i = -1
  | i, j :: rest =>
    i = (j : Int) ∧ ∃ nd, getN nodes (j : Int) = some nd ∧ nd.element = 0 ∧
      chain0 nodes nd.next rest

def chainF (nodes : List Node) : Int → List Nat → Prop
  | i, [] => i = -1
  | i, j :: rest =>
    i = (j : Int) ∧ ∃ nd, getN nodes (j : Int) = some nd ∧ chainF nodes nd.next rest

theorem chain0_congr {nodes nodes' : List Node} {i : Int} {l : List Nat}
    (hg : ∀ j ∈ l, getN nodes' (j : Int) = getN nodes (j : Int)) :
    chain0 nodes i l → chain0 nodes' i l := by
  induction l generalizing i with
  | nil => exact id
  | cons j rest ih =>
    rintro ⟨rfl, nd, hnd, he, hc⟩
    exact ⟨rfl, nd, (hg j (by simp)).trans hnd, he,
      ih (fun k hk => hg k (by simp [hk])) hc⟩

theorem chainF_congr {nodes nodes' : List Node} {i : Int} {l : List Nat}
    (hg : ∀ j ∈ l, getN nodes' (j : Int) = getN nodes (j : Int)) :
    chainF nodes i l → chainF nodes' i l := by
  induction l generalizing i with
  | nil => exact id
  | cons j rest ih =>
    rintro ⟨rfl, nd, hnd, hc⟩
    exact ⟨rfl, nd, (hg j (by simp)).trans hnd, ih (fun k hk => hg k (by simp [hk])) hc⟩

/-- The cell-side model of a first-variant cell-node arena holding only
element handle `0`: `ch a` lists the node indices of the cell list at
address `a` (all carrying element `0`), `fr` lists the free cell nodes.
`wrapping_bit_mask Z` is the head-region size of the first variant. -/
structure CellAbs (Z : Nat) (nodes : List Node) (free : Int) (ch : Nat → List Nat)
    (fr : List Nat) : Prop where
  hlen : wrapping_bit_mask Z ≤ nodes.length
  head : ∀ a, a < wrapping_bit_mask Z →
    ∃ nd, getN nodes (a : Int) = some nd ∧ chain0 nodes nd.next (ch a)
  free : chainF nodes free fr
  cbound : ∀ a, a < wrapping_bit_mask Z → ∀ j ∈ ch a,
    wrapping_bit_mask Z ≤ j ∧ j < nodes.length
  fbound : ∀ j ∈ fr, wrapping_bit_mask Z ≤ j ∧ j < nodes.length
  cdup : ∀ a, a < wrapping_bit_mask Z → (ch a).Nodup
  cdisj : ∀ a b, a < wrapping_bit_mask Z → b < wrapping_bit_mask Z → a ≠ b →
    ∀ j ∈ ch a, j ∉ ch b
  cfdisj : ∀ a, a < wrapping_bit_mask Z → ∀ j ∈ ch a, j ∉ fr
  fdup : fr.Nodup

/-- Effect of `cellInsert` at an in-range address `a` on a single-handle
cell model: one node `j` (fresh or popped from the free list) is prepended
to the cell's chain, and the rest of the grid state is untouched. -/
theorem cellInsert_abs {T : Type} {Z : Nat} {s : GridState T} {ch : Nat → List Nat}
    {fr : List Nat} (h : CellAbs Z s.cell_nodes s.free_cell_nodes ch fr)
    {a : Nat} (ha : a < wrapping_bit_mask Z) :
    ∃ cn' fc' j fr',
      V1.cellInsert s (a : Int) 0 = some { s with cell_nodes := cn', free_cell_nodes := fc' } ∧
      CellAbs Z cn' fc' (fun b => if b = a then j :: ch b else ch b) fr' ∧
      s.cell_nodes.length ≤ cn'.length ∧
      (fr = [] ∧ fr' = [] ∨ fr = j :: fr') := by
  obtain ⟨nd, hnd, hchain⟩ := h.head a ha
  have hHL : wrapping_bit_mask Z ≤ s.cell_nodes.length := h.hlen
  have haL : a < s.cell_nodes.length := lt_of_lt_of_le ha hHL
  cases fr with
  | nil =>
    have hfree : s.free_cell_nodes = -1 := h.free
    refine ⟨(s.cell_nodes ++ [({ element := 0, next := nd.next } : Node)]).set a
        ({ nd with next := (s.cell_nodes.length : Int) }),
      s.free_cell_nodes, s.cell_nodes.length, [], ?_, ?_, by simp, Or.inl ⟨rfl, rfl⟩⟩
    · rw [V1.cellInsert, if_neg (by simp [hfree])]
      simp only [Option.bind_eq_bind]
      rw [hnd, Option.some_bind]
      rw [getN_append_left (by omega) (by simpa using haL), hnd, Option.some_bind]
      rw [setN_of_lt _ (by simp; omega), Option.some_bind]
      have e3 : (((s.cell_nodes ++ [({ element := 0, next := nd.next } : Node)]).length : Int) - 1)
          = (s.cell_nodes.length : Int) := by simp
      rw [e3]
    · have hCNlen : ((s.cell_nodes ++ [({ element := 0, next := nd.next } : Node)]).set a
          ({ nd with next := (s.cell_nodes.length : Int) })).length
          = s.cell_nodes.length + 1 := by simp
      have hkeep : ∀ (i : Int), 0 ≤ i → i.toNat < s.cell_nodes.length → i ≠ (a : Int) →
          getN ((s.cell_nodes ++ [({ element := 0, next := nd.next } : Node)]).set a
            ({ nd with next := (s.cell_nodes.length : Int) })) i = getN s.cell_nodes i := by
        intro i h0 hl hne
        rw [getN_set_ne hne, getN_append_left h0 hl]
      have hheadA : getN ((s.cell_nodes ++ [({ element := 0, next := nd.next } : Node)]).set a
          ({ nd with next := (s.cell_nodes.length : Int) })) (a : Int)
          = some { nd with next := (s.cell_nodes.length : Int) } :=
        getN_set_self (by simp; omega)
      have hnewnode : getN ((s.cell_nodes ++ [({ element := 0, next := nd.next } : Node)]).set a
          ({ nd with next := (s.cell_nodes.length : Int) })) (s.cell_nodes.length : Int)
          = some { element := 0, next := nd.next } := by
        rw [getN_set_ne (by omega), getN_concat_last]
      have hmem : ∀ b, b < wrapping_bit_mask Z → ∀ j ∈ ch b,
          getN ((s.cell_nodes ++ [({ element := 0, next := nd.next } : Node)]).set a
            ({ nd with next := (s.cell_nodes.length : Int) })) (j : Int)
          = getN s.cell_nodes (j : Int) := by
        intro b hb j hj
        obtain ⟨hj1, hj2⟩ := h.cbound b hb j hj
        exact hkeep _ (by omega) (by simpa using hj2) (by omega)
      refine ⟨by omega, ?_, hfree, ?_, ?_, ?_, ?_, ?_, ?_⟩
      · intro b hb
        by_cases hba : b = a
        · subst hba
          refine ⟨{ nd with next := (s.cell_nodes.length : Int) }, hheadA, ?_⟩
          rw [if_pos rfl]
          exact ⟨rfl, { element := 0, next := nd.next }, hnewnode, rfl,
            chain0_congr (hmem b hb) hchain⟩
        · obtain ⟨ndb, hndb, hcb⟩ := h.head b hb
          refine ⟨ndb, ?_, ?_⟩
          · rw [hkeep _ (by omega) (by simp; omega) (by omega)]
            exact hndb
          · rw [if_neg hba]
            exact chain0_congr (hmem b hb) hcb
      · intro b hb j hj
        by_cases hba : b = a
        · subst hba
          rw [if_pos rfl, List.mem_cons] at hj
          rcases hj with hjL | hj
          · subst hjL
            exact ⟨hHL, by omega⟩
          · obtain ⟨hj1, hj2⟩ := h.cbound b hb j hj
            exact ⟨hj1, by omega⟩
        · rw [if_neg hba] at hj
          obtain ⟨hj1, hj2⟩ := h.cbound b hb j hj
          exact ⟨hj1, by omega⟩
      · intro j hj
        cases hj
      · intro b hb
        by_cases hba : b = a
        · subst hba
          rw [if_pos rfl]
          refine List.nodup_cons.mpr ⟨fun hmem2 => ?_, h.cdup b hb⟩
          have := (h.cbound b hb _ hmem2).2
          omega
        · rw [if_neg hba]
          exact h.cdup b hb
      · intro b c hb hc hbc j hj
        by_cases hba : b = a
        · subst hba
          rw [if_pos rfl, List.mem_cons] at hj
          rw [if_neg (Ne.symm hbc)]
          rcases hj with hjL | hj
          · subst hjL
            intro hmem2
            have := (h.cbound c hc _ hmem2).2
            omega
          · exact h.cdisj b c hb hc hbc j hj
        · rw [if_neg hba] at hj
          by_cases hca : c = a
          · subst hca
            rw [if_pos rfl]
            simp only [List.mem_cons, not_or]
            have := (h.cbound b hb j hj).2
            exact ⟨by omega, h.cdisj b c hb hc hbc j hj⟩
          · rw [if_neg hca]
            exact h.cdisj b c hb hc hbc j hj
      · intro b hb j hj
        simp
      · simp
  | cons f fr'' =>
    obtain ⟨hfeq, nf, hnf, hfrest⟩ := h.free
    obtain ⟨hfH, hfL⟩ := h.fbound f (by simp)
    refine ⟨(s.cell_nodes.set a { nd with next := (f : Int) }).set f
        { element := 0, next := nd.next },
      nf.next, f, fr'', ?_, ?_, by simp, Or.inr rfl⟩
    · rw [V1.cellInsert, if_pos (by rw [hfeq]; omega)]
      simp only [Option.bind_eq_bind]
      rw [hfeq]
      rw [hnf, Option.some_bind]
      rw [setN_of_lt _ hfL, Option.some_bind]
      rw [getN_set_ne (by omega), hnd, Option.some_bind]
      rw [getN_set_self hfL, Option.some_bind]
      rw [setN_of_lt _ (by simp [hfL]), List.set_set, Option.some_bind]
      rw [getN_set_ne (by omega), hnd, Option.some_bind]
      rw [setN_of_lt _ (by simp [haL]), Option.some_bind]
      rw [getN_set_ne (by omega), getN_set_self hfL, Option.some_bind]
      rw [getN_set_self (by simp [haL]), Option.some_bind]
      dsimp only
      rw [getN_set_ne (by omega), getN_set_self hfL, Option.some_bind]
      rw [setN_of_lt _ (by simp [hfL]), Option.some_bind]
      rw [List.set_comm _ _ _ (by omega), List.set_set]
      dsimp only
      rw [List.set_comm _ _ _ (by omega : f ≠ a)]
    · have hCNlen : ((s.cell_nodes.set a { nd with next := (f : Int) }).set f
          ({ element := 0, next := nd.next } : Node)).length = s.cell_nodes.length := by simp
      have hffr : f ∉ fr'' := (List.nodup_cons.mp h.fdup).1
      have hkeep : ∀ (i : Int), 0 ≤ i → i ≠ (a : Int) → i ≠ (f : Int) →
          getN ((s.cell_nodes.set a { nd with next := (f : Int) }).set f
            ({ element := 0, next := nd.next } : Node)) i = getN s.cell_nodes i := by
        intro i h0 hia hif
        rw [getN_set_ne hif, getN_set_ne hia]
      have hheadA : getN ((s.cell_nodes.set a { nd with next := (f : Int) }).set f
          ({ element := 0, next := nd.next } : Node)) (a : Int)
          = some { nd with next := (f : Int) } := by
        rw [getN_set_ne (by omega), getN_set_self haL]
      have hfnode : getN ((s.cell_nodes.set a { nd with next := (f : Int) }).set f
          ({ element := 0, next := nd.next } : Node)) (f : Int)
          = some { element := 0, next := nd.next } :=
        getN_set_self (by simp [hfL])
      have hmem : ∀ b, b < wrapping_bit_mask Z → ∀ j ∈ ch b,
          getN ((s.cell_nodes.set a { nd with next := (f : Int) }).set f
            ({ element := 0, next := nd.next } : Node)) (j : Int)
          = getN s.cell_nodes (j : Int) := by
        intro b hb j hj
        obtain ⟨hj1, hj2⟩ := h.cbound b hb j hj
        have hnotin := h.cfdisj b hb j hj
        simp only [List.mem_cons, not_or] at hnotin
        exact hkeep _ (by omega) (by omega) (by omega)
      have hfrmem : ∀ k ∈ fr'', getN ((s.cell_nodes.set a { nd with next := (f : Int) }).set f
            ({ element := 0, next := nd.next } : Node)) (k : Int)
          = getN s.cell_nodes (k : Int) := by
        intro k hk
        obtain ⟨hk1, hk2⟩ := h.fbound k (List.mem_cons_of_mem _ hk)
        have hkf : k ≠ f := fun hc => hffr (hc ▸ hk)
        exact hkeep _ (by omega) (by omega) (by omega)
      refine ⟨by omega, ?_, chainF_congr hfrmem hfrest, ?_, ?_, ?_, ?_, ?_,
        (List.nodup_cons.mp h.fdup).2⟩
      · intro b hb
        by_cases hba : b = a
        · subst hba
          refine ⟨{ nd with next := (f : Int) }, hheadA, ?_⟩
          rw [if_pos rfl]
          exact ⟨rfl, { element := 0, next := nd.next }, hfnode, rfl,
            chain0_congr (hmem b hb) hchain⟩
        · obtain ⟨ndb, hndb, hcb⟩ := h.head b hb
          refine ⟨ndb, ?_, ?_⟩
          · rw [hkeep _ (by omega) (by omega) (by omega)]
            exact hndb
          · rw [if_neg hba]
            exact chain0_congr (hmem b hb) hcb
      · intro b hb j hj
        by_cases hba : b = a
        · subst hba
          rw [if_pos rfl, List.mem_cons] at hj
          rcases hj with hjL | hj
          · subst hjL
            exact ⟨hfH, by omega⟩
          · obtain ⟨hj1, hj2⟩ := h.cbound b hb j hj
            exact ⟨hj1, by omega⟩
        · rw [if_neg hba] at hj
          obtain ⟨hj1, hj2⟩ := h.cbound b hb j hj
          exact ⟨hj1, by omega⟩
      · intro k hk
        obtain ⟨hk1, hk2⟩ := h.fbound k (List.mem_cons_of_mem _ hk)
        exact ⟨hk1, by omega⟩
      · intro b hb
        by_cases hba : b = a
        · subst hba
          rw [if_pos rfl]
          exact List.nodup_cons.mpr
            ⟨fun hmem2 => (h.cfdisj b hb f hmem2) (by simp), h.cdup b hb⟩
        · rw [if_neg hba]
          exact h.cdup b hb
      · intro b c hb hc hbc j hj
        by_cases hba : b = a
        · subst hba
          rw [if_pos rfl, List.mem_cons] at hj
          rw [if_neg (Ne.symm hbc)]
          rcases hj with hjL | hj
          · subst hjL
            exact fun hmem2 => (h.cfdisj c hc j hmem2) (by simp)
          · exact h.cdisj b c hb hc hbc j hj
        · rw [if_neg hba] at hj
          by_cases hca : c = a
          · subst hca
            rw [if_pos rfl]
            simp only [List.mem_cons, not_or]
            have hnotin := h.cfdisj b hb j hj
            simp only [List.mem_cons, not_or] at hnotin
            exact ⟨hnotin.1, h.cdisj b c hb hc hbc j hj⟩
          · rw [if_neg hca]
            exact h.cdisj b c hb hc hbc j hj
      · intro b hb j hj
        by_cases hba : b = a
        · subst hba
          rw [if_pos rfl, List.mem_cons] at hj
          rcases hj with hjL | hj
          · subst hjL
            exact hffr
          · exact fun hk => (h.cfdisj b hb j hj) (List.mem_cons_of_mem _ hk)
        · rw [if_neg hba] at hj
          exact fun hk => (h.cfdisj b hb j hj) (List.mem_cons_of_mem _ hk)

/-- Effect of `cellRemove` for element `0` at an in-range address whose
chain is non-empty: the walk finds the first node immediately, unlinks it
and pushes it on the cell-node free list. -/
theorem cellRemove_abs {T : Type} {Z : Nat} {s : GridState T} {ch : Nat → List Nat}
    {fr : List Nat} (h : CellAbs Z s.cell_nodes s.free_cell_nodes ch fr)
    {a j : Nat} {rest : List Nat} (ha : a < wrapping_bit_mask Z) (hch : ch a = j :: rest) :
    ∃ cn',
      V1.cellRemove s (a : Int) 0 = some { s with cell_nodes := cn', free_cell_nodes := (j : Int) } ∧
      CellAbs Z cn' (j : Int) (fun b => if b = a then rest else ch b) (j :: fr) ∧
      cn'.length = s.cell_nodes.length := by
  obtain ⟨nd, hnd, hchain⟩ := h.head a ha
  rw [hch] at hchain
  obtain ⟨hjeq, ndj, hndj, hel, hrest⟩ := hchain
  have hHL : wrapping_bit_mask Z ≤ s.cell_nodes.length := h.hlen
  have haL : a < s.cell_nodes.length := lt_of_lt_of_le ha hHL
  obtain ⟨hjH, hjL⟩ := h.cbound a ha j (by rw [hch]; simp)
  have hja : j ≠ a := by omega
  have hjrest : j ∉ rest := by
    have := h.cdup a ha
    rw [hch] at this
    exact (List.nodup_cons.mp this).1
  have hjfr : j ∉ fr := h.cfdisj a ha j (by rw [hch]; simp)
  refine ⟨(s.cell_nodes.set a { nd with next := ndj.next }).set j
      { ndj with next := s.free_cell_nodes }, ?_, ?_, by simp⟩
  · rw [V1.cellRemove]
    simp only [Option.bind_eq_bind]
    rw [hnd, Option.some_bind]
    have hwalk : V1.cellRemoveWalk s.cell_nodes 0 (s.cell_nodes.length + 1) (a : Int) nd.next
        = Res.ok ((a : Int), (j : Int)) := by
      rw [hjeq, V1.cellRemoveWalk, hndj]
      dsimp only
      rw [if_pos hel]
    rw [hwalk]
    simp only [Option.bind_eq_bind]
    rw [hndj, Option.some_bind]
    rw [hnd, Option.some_bind]
    rw [setN_of_lt _ haL, Option.some_bind]
    rw [getN_set_ne (by omega), hndj, Option.some_bind]
    rw [setN_of_lt _ (by simp [hjL]), Option.some_bind]
  · have hkeep : ∀ (i : Int), i ≠ (a : Int) → i ≠ (j : Int) →
        getN ((s.cell_nodes.set a { nd with next := ndj.next }).set j
          ({ ndj with next := s.free_cell_nodes } : Node)) i = getN s.cell_nodes i := by
      intro i hia hij
      rw [getN_set_ne hij, getN_set_ne hia]
    have hheadA : getN ((s.cell_nodes.set a { nd with next := ndj.next }).set j
        ({ ndj with next := s.free_cell_nodes } : Node)) (a : Int)
        = some { nd with next := ndj.next } := by
      rw [getN_set_ne (by omega), getN_set_self haL]
    have hjnode : getN ((s.cell_nodes.set a { nd with next := ndj.next }).set j
        ({ ndj with next := s.free_cell_nodes } : Node)) (j : Int)
        = some { ndj with next := s.free_cell_nodes } :=
      getN_set_self (by simp [hjL])
    have hmem : ∀ b, b < wrapping_bit_mask Z → b ≠ a → ∀ k ∈ ch b,
        getN ((s.cell_nodes.set a { nd with next := ndj.next }).set j
          ({ ndj with next := s.free_cell_nodes } : Node)) (k : Int)
        = getN s.cell_nodes (k : Int) := by
      intro b hb hba k hk
      obtain ⟨hk1, hk2⟩ := h.cbound b hb k hk
      have hkj : k ≠ j := fun hc => h.cdisj b a hb ha hba k hk (by rw [hch, hc]; simp)
      exact hkeep _ (by omega) (by omega)
    have hrestmem : ∀ k ∈ rest,
        getN ((s.cell_nodes.set a { nd with next := ndj.next }).set j
          ({ ndj with next := s.free_cell_nodes } : Node)) (k : Int)
        = getN s.cell_nodes (k : Int) := by
      intro k hk
      obtain ⟨hk1, hk2⟩ := h.cbound a ha k (by rw [hch]; simp [hk])
      have hkj : k ≠ j := fun hc => hjrest (hc ▸ hk)
      exact hkeep _ (by omega) (by omega)
    have hfrmem : ∀ k ∈ fr,
        getN ((s.cell_nodes.set a { nd with next := ndj.next }).set j
          ({ ndj with next := s.free_cell_nodes } : Node)) (k : Int)
        = getN s.cell_nodes (k : Int) := by
      intro k hk
      obtain ⟨hk1, hk2⟩ := h.fbound k hk
      have hkj : k ≠ j := fun hc => hjfr (hc ▸ hk)
      exact hkeep _ (by omega) (by omega)
    have hCNlen : ((s.cell_nodes.set a { nd with next := ndj.next }).set j
        ({ ndj with next := s.free_cell_nodes } : Node)).length = s.cell_nodes.length := by
      simp
    refine ⟨by omega, ?_, ?_, ?_, ?_, ?_, ?_, ?_, ?_⟩
    · intro b hb
      by_cases hba : b = a
      · subst hba
        refine ⟨{ nd with next := ndj.next }, hheadA, ?_⟩
        rw [if_pos rfl]
        exact chain0_congr hrestmem hrest
      · obtain ⟨ndb, hndb, hcb⟩ := h.head b hb
        refine ⟨ndb, ?_, ?_⟩
        · rw [hkeep _ (by omega) (by omega)]
          exact hndb
        · rw [if_neg hba]
          exact chain0_congr (hmem b hb hba) hcb
    · exact ⟨rfl, { ndj with next := s.free_cell_nodes }, hjnode, chainF_congr hfrmem h.free⟩
    · intro b hb k hk
      by_cases hba : b = a
      · subst hba
        rw [if_pos rfl] at hk
        obtain ⟨hk1, hk2⟩ := h.cbound b hb k (by rw [hch]; simp [hk])
        exact ⟨hk1, by omega⟩
      · rw [if_neg hba] at hk
        obtain ⟨hk1, hk2⟩ := h.cbound b hb k hk
        exact ⟨hk1, by omega⟩
    · intro k hk
      rcases List.mem_cons.mp hk with hkj | hk
      · subst hkj
        exact ⟨hjH, by omega⟩
      · obtain ⟨hk1, hk2⟩ := h.fbound k hk
        exact ⟨hk1, by omega⟩
    · intro b hb
      by_cases hba : b = a
      · subst hba
        rw [if_pos rfl]
        have := h.cdup b hb
        rw [hch] at this
        exact (List.nodup_cons.mp this).2
      · rw [if_neg hba]
        exact h.cdup b hb
    · intro b c hb hc hbc k hk
      by_cases hba : b = a
      · subst hba
        rw [if_pos rfl] at hk
        rw [if_neg (Ne.symm hbc)]
        exact h.cdisj b c hb hc hbc k (by rw [hch]; simp [hk])
      · rw [if_neg hba] at hk
        by_cases hca : c = a
        · subst hca
          rw [if_pos rfl]
          intro hk2
          exact h.cdisj b c hb hc hbc k hk (by rw [hch]; simp [hk2])
        · rw [if_neg hca]
          exact h.cdisj b c hb hc hbc k hk
    · intro b hb k hk
      simp only [List.mem_cons, not_or]
      by_cases hba : b = a
      · subst hba
        rw [if_pos rfl] at hk
        exact ⟨fun hc => hjrest (hc ▸ hk), h.cfdisj b hb k (by rw [hch]; simp [hk])⟩
      · rw [if_neg hba] at hk
        refine ⟨?_, h.cfdisj b hb k hk⟩
        intro hc
        exact h.cdisj b a hb ha hba k hk (by rw [hch, hc]; simp)
    · exact List.nodup_cons.mpr ⟨hjfr, h.fdup⟩

/-- The z-order address of a coordinate pair, as a natural number. -/
def addrN (Z : Nat) (p : Int × Int) : Nat := z_order Z (toU32 p.1) (toU32 p.2)

theorem cellAddr_eq (Z : Nat) (p : Int × Int) : cellAddr Z p = (addrN Z p : Int) := rfl

/-- How many cells of the traversal list `L` map to address `a`. -/
def cnt (Z : Nat) (L : List (Int × Int)) (a : Nat) : Nat := (L.map (addrN Z)).count a

theorem cnt_nil (Z : Nat) (a : Nat) : cnt Z [] a = 0 := rfl

theorem cnt_cons (Z : Nat) (p : Int × Int) (L : List (Int × Int)) (a : Nat) :
    cnt Z (p :: L) a = cnt Z L a + (if a = addrN Z p then 1 else 0) := by
  by_cases hap : a = addrN Z p
  · simp [cnt, List.count_cons, hap]
  · simp [cnt, List.count_cons, hap, (Ne.symm hap : addrN Z p ≠ a)]

/-- Folding `cellInsert` for handle `0` over a list of in-range cells:
every step succeeds, only `cell_nodes` / `free_cell_nodes` change, and each
address's chain grows by the number of cells mapping to it. -/
theorem foldInsert_abs {T : Type} {Z : Nat} :
    ∀ (L : List (Int × Int)) (s : GridState T) (ch : Nat → List Nat) (fr : List Nat),
    CellAbs Z s.cell_nodes s.free_cell_nodes ch fr →
    (∀ p ∈ L, addrN Z p < wrapping_bit_mask Z) →
    ∃ s', foldM (fun st xy => V1.cellInsert st (cellAddr Z xy) 0) s L = some s' ∧
      s'.elements = s.elements ∧ s'.element_nodes = s.element_nodes ∧
      s'.last_query = s.last_query ∧ s'.query_set = s.query_set ∧
      s'.query_size = s.query_size ∧ s'.free_element_nodes = s.free_element_nodes ∧
      s'.num_elements = s.num_elements ∧
      ∃ ch' fr', CellAbs Z s'.cell_nodes s'.free_cell_nodes ch' fr' ∧
        ∀ a, a < wrapping_bit_mask Z → (ch' a).length = (ch a).length + cnt Z L a := by
  intro L
  induction L with
  | nil =>
    intro s ch fr h _
    exact ⟨s, rfl, rfl, rfl, rfl, rfl, rfl, rfl, rfl, ch, fr, h,
      fun a _ => by simp [cnt_nil]⟩
  | cons p L' ih =>
    intro s ch fr h hL
    obtain ⟨cn', fc', j, fr', hstep, habs, _, _⟩ :=
      cellInsert_abs h (hL p (by simp))
    obtain ⟨s', hfold, he1, he2, he3, he4, he5, he6, he7, ch'', fr'', habs'', hlen''⟩ :=
      ih { s with cell_nodes := cn', free_cell_nodes := fc' }
        (fun b => if b = addrN Z p then j :: ch b else ch b) fr' habs
        (fun q hq => hL q (by simp [hq]))
    refine ⟨s', ?_, he1, he2, he3, he4, he5, he6, he7, ch'', fr'', habs'', ?_⟩
    · rw [foldM, cellAddr_eq, hstep]
      simp only [Option.bind_eq_bind, Option.some_bind]
      exact hfold
    · intro a ha
      rw [hlen'' a ha, cnt_cons]
      by_cases hap : a = addrN Z p
      · subst hap
        rw [if_pos rfl, if_pos rfl]
        simp only [List.length_cons]
        omega
      · rw [if_neg hap, if_neg hap]
        omega

/-- Folding `cellRemove` for handle `0` over a list of in-range cells whose
multiplicities are covered by the current chains: every step succeeds and
each address's chain shrinks by the number of cells mapping to it. -/
theorem foldRemove_abs {T : Type} {Z : Nat} :
    ∀ (L : List (Int × Int)) (s : GridState T) (ch : Nat → List Nat) (fr : List Nat),
    CellAbs Z s.cell_nodes s.free_cell_nodes ch fr →
    (∀ p ∈ L, addrN Z p < wrapping_bit_mask Z) →
    (∀ a, a < wrapping_bit_mask Z → cnt Z L a ≤ (ch a).length) →
    ∃ s', foldM (fun st xy => V1.cellRemove st (cellAddr Z xy) 0) s L = some s' ∧
      s'.elements = s.elements ∧ s'.element_nodes = s.element_nodes ∧
      s'.last_query = s.last_query ∧ s'.query_set = s.query_set ∧
      s'.query_size = s.query_size ∧ s'.free_element_nodes = s.free_element_nodes ∧
      s'.num_elements = s.num_elements ∧
      ∃ ch' fr', CellAbs Z s'.cell_nodes s'.free_cell_nodes ch' fr' ∧
        ∀ a, a < wrapping_bit_mask Z → (ch' a).length = (ch a).length - cnt Z L a := by
  intro L
  induction L with
  | nil =>
    intro s ch fr h _ _
    exact ⟨s, rfl, rfl, rfl, rfl, rfl, rfl, rfl, rfl, ch, fr, h,
      fun a _ => by simp [cnt_nil]⟩
  | cons p L' ih =>
    intro s ch fr h hL hcnt
    have hpH : addrN Z p < wrapping_bit_mask Z := hL p (by simp)
    have hlen1 : 1 ≤ (ch (addrN Z p)).length := by
      have := hcnt (addrN Z p) hpH
      rw [cnt_cons, if_pos rfl] at this
      omega
    obtain ⟨j, rest, hch⟩ : ∃ j rest, ch (addrN Z p) = j :: rest := by
      cases hc : ch (addrN Z p) with
      | nil => rw [hc] at hlen1; simp at hlen1
      | cons j rest => exact ⟨j, rest, rfl⟩
    obtain ⟨cn', hstep, habs, hlen⟩ := cellRemove_abs h hpH hch
    obtain ⟨s', hfold, he1, he2, he3, he4, he5, he6, he7, ch'', fr'', habs'', hlen''⟩ :=
      ih { s with cell_nodes := cn', free_cell_nodes := (j : Int) }
        (fun b => if b = addrN Z p then rest else ch b) (j :: fr) habs
        (fun q hq => hL q (by simp [hq]))
        (fun a ha => by
          dsimp only
          have hc := hcnt a ha
          rw [cnt_cons] at hc
          by_cases hap : a = addrN Z p
          · subst hap
            rw [if_pos rfl]
            rw [if_pos rfl, hch] at hc
            simp at hc
            omega
          · rw [if_neg hap]
            rw [if_neg hap] at hc
            omega)
    refine ⟨s', ?_, he1, he2, he3, he4, he5, he6, he7, ch'', fr'', habs'', ?_⟩
    · rw [foldM, cellAddr_eq, hstep]
      simp only [Option.bind_eq_bind, Option.some_bind]
      exact hfold
    · intro a ha
      rw [hlen'' a ha, cnt_cons]
      have hc := hcnt a ha
      rw [cnt_cons] at hc
      by_cases hap : a = addrN Z p
      · subst hap
        rw [if_pos rfl, if_pos rfl, hch]
        rw [if_pos rfl, hch] at hc
        simp only [List.length_cons] at hc ⊢
        omega
      · rw [if_neg hap, if_neg hap]
        rw [if_neg hap] at hc
        omega

theorem chain_length_le {nodes : List Node} {l : List Nat} (hdup : l.Nodup)
    (hb : ∀ j ∈ l, j < nodes.length) : l.length ≤ nodes.length := by
  have hsub : l ⊆ List.range nodes.length := fun j hj => List.mem_range.mpr (hb j hj)
  simpa using (List.subperm_of_subset hdup hsub).length_le

/-- Walking a chain of element-`0` nodes when `0` is already marked seen
leaves the query scratch unchanged (first variant's branching walk). -/
theorem cellQueryWalk_seen {nodes : List Node} :
    ∀ {l : List Nat} {i : Int} {lq : List Int} {sz fuel : Nat},
    chain0 nodes i l → l.length < fuel →
    V1.cellQueryWalk nodes fuel i ⟨lq, [true], sz⟩ = .ok ⟨lq, [true], sz⟩ := by
  intro l
  induction l with
  | nil =>
    intro i lq sz fuel hc hfuel
    obtain ⟨f, rfl⟩ : ∃ f, fuel = f + 1 := ⟨fuel - 1, by omega⟩
    have hi : i = -1 := hc
    rw [V1.cellQueryWalk, if_pos hi]
  | cons j rest ih =>
    intro i lq sz fuel hc hfuel
    obtain ⟨rfl, nd, hnd, hel, hrest⟩ := hc
    obtain ⟨f, rfl⟩ : ∃ f, fuel = f + 1 := ⟨fuel - 1, by omega⟩
    rw [V1.cellQueryWalk, if_neg (by omega), hnd]
    dsimp only
    rw [hel, show getN ([true] : List Bool) (0 : Int) = some true from rfl]
    dsimp only
    rw [if_pos rfl]
    exact ih hrest (by simpa using Nat.lt_of_succ_lt_succ (by simpa using hfuel))

/-- Walking a non-empty chain of element-`0` nodes with an all-clear
scratch records handle `0` exactly once. -/
theorem cellQueryWalk_hit {nodes : List Node} {j : Nat} {rest : List Nat} {i : Int}
    {lq : List Int} (hc : chain0 nodes i (j :: rest)) (hlq : lq.length = 1)
    {fuel : Nat} (hfuel : rest.length + 1 < fuel) :
    V1.cellQueryWalk nodes fuel i ⟨lq, [false], 0⟩ = .ok ⟨[0], [true], 1⟩ := by
  obtain ⟨rfl, nd, hnd, hel, hrest⟩ := hc
  obtain ⟨f, rfl⟩ : ∃ f, fuel = f + 1 := ⟨fuel - 1, by omega⟩
  obtain ⟨x, rfl⟩ := List.length_eq_one.mp hlq
  rw [V1.cellQueryWalk, if_neg (by omega), hnd]
  dsimp only
  rw [hel, show getN ([false] : List Bool) (0 : Int) = some false from rfl]
  dsimp only
  rw [if_neg (by simp)]
  rw [show setN ([x] : List Int) ((0 : Nat) : Int) 0 = some [0] from rfl,
    show setN ([false] : List Bool) (0 : Int) true = some [true] from rfl]
  dsimp only
  exact cellQueryWalk_seen hrest (by omega)

/-- `cellQuery` at an in-range address when handle `0` is already marked
seen: a no-op. -/
theorem cellQuery_skip {T : Type} {Z : Nat} {s : GridState T} {ch : Nat → List Nat}
    {fr : List Nat} (h : CellAbs Z s.cell_nodes s.free_cell_nodes ch fr)
    {a : Nat} (ha : a < wrapping_bit_mask Z) (hqs : s.query_set = [true]) :
    V1.cellQuery s (a : Int) = some s := by
  obtain ⟨nd, hnd, hchain⟩ := h.head a ha
  have hfuel : (ch a).length < s.cell_nodes.length + 1 :=
    Nat.lt_succ_of_le (chain_length_le (h.cdup a ha) (fun j hj => (h.cbound a ha j hj).2))
  rw [V1.cellQuery]
  simp only [Option.bind_eq_bind]
  rw [hnd, Option.some_bind, hqs, cellQueryWalk_seen hchain hfuel]
  rw [← hqs]
/-- `cellQuery` at an in-range address starting from an all-clear scratch:
a no-op for an empty chain, otherwise handle `0` is recorded once. -/
theorem cellQuery_fresh {T : Type} {Z : Nat} {s : GridState T} {ch : Nat → List Nat}
    {fr : List Nat} (h : CellAbs Z s.cell_nodes s.free_cell_nodes ch fr)
    {a : Nat} (ha : a < wrapping_bit_mask Z) (hqs : s.query_set = [false])
    (hn : s.query_size = 0) (hlq : s.last_query.length = 1) :
    (ch a = [] ∧ V1.cellQuery s (a : Int) = some s)
    ∨ (ch a ≠ [] ∧ V1.cellQuery s (a : Int)
        = some { s with last_query := [0], query_set := [true], query_size := 1 }) := by
  obtain ⟨nd, hnd, hchain⟩ := h.head a ha
  have hfuel : (ch a).length < s.cell_nodes.length + 1 :=
    Nat.lt_succ_of_le (chain_length_le (h.cdup a ha) (fun j hj => (h.cbound a ha j hj).2))
  cases hca : ch a with
  | nil =>
    rw [hca] at hchain
    have hi : nd.next = -1 := hchain
    refine Or.inl ⟨rfl, ?_⟩
    rw [V1.cellQuery]
    simp only [Option.bind_eq_bind]
    rw [hnd, Option.some_bind]
    rw [show V1.cellQueryWalk s.cell_nodes (s.cell_nodes.length + 1) nd.next
        ⟨s.last_query, s.query_set, s.query_size⟩
        = .ok ⟨s.last_query, s.query_set, s.query_size⟩ from by
      rw [V1.cellQueryWalk, if_pos hi]]
  | cons j rest =>
    rw [hca] at hchain hfuel
    refine Or.inr ⟨by simp, ?_⟩
    rw [V1.cellQuery]
    simp only [Option.bind_eq_bind]
    rw [hnd, Option.some_bind, hqs, hn]
    rw [cellQueryWalk_hit hchain hlq (by simpa using hfuel)]

/-- Folding `cellQuery` when handle `0` is already marked: a no-op. -/
theorem foldQuery_seen {T : Type} {Z : Nat} :
    ∀ (L : List (Int × Int)) (s : GridState T) (ch : Nat → List Nat) (fr : List Nat),
    CellAbs Z s.cell_nodes s.free_cell_nodes ch fr →
    (∀ p ∈ L, addrN Z p < wrapping_bit_mask Z) →
    s.query_set = [true] →
    foldM (fun st xy => V1.cellQuery st (cellAddr Z xy)) s L = some s := by
  intro L
  induction L with
  | nil => intro s ch fr _ _ _; rfl
  | cons p L' ih =>
    intro s ch fr h hL hqs
    rw [foldM, cellAddr_eq, cellQuery_skip h (hL p (by simp)) hqs]
    simp only [Option.bind_eq_bind, Option.some_bind]
    exact ih s ch fr h (fun q hq => hL q (by simp [hq])) hqs

/-- Folding `cellQuery` from an all-clear scratch over in-range cells:
either every visited chain is empty and nothing changes, or handle `0` is
recorded exactly once. -/
theorem foldQuery_fresh {T : Type} {Z : Nat} :
    ∀ (L : List (Int × Int)) (s : GridState T) (ch : Nat → List Nat) (fr : List Nat),
    CellAbs Z s.cell_nodes s.free_cell_nodes ch fr →
    (∀ p ∈ L, addrN Z p < wrapping_bit_mask Z) →
    s.query_set = [false] → s.query_size = 0 → s.last_query.length = 1 →
    ((∀ p ∈ L, ch (addrN Z p) = [])
      ∧ foldM (fun st xy => V1.cellQuery st (cellAddr Z xy)) s L = some s)
    ∨ ((∃ p ∈ L, ch (addrN Z p) ≠ [])
      ∧ foldM (fun st xy => V1.cellQuery st (cellAddr Z xy)) s L
        = some { s with last_query := [0], query_set := [true], query_size := 1 }) := by
  intro L
  induction L with
  | nil => intro s ch fr _ _ _ _ _; exact Or.inl ⟨by simp, rfl⟩
  | cons p L' ih =>
    intro s ch fr h hL hqs hn hlq
    rcases cellQuery_fresh h (hL p (by simp)) hqs hn hlq with ⟨hempty, hstep⟩ | ⟨hne, hstep⟩
    · rw [foldM, cellAddr_eq, hstep]
      simp only [Option.bind_eq_bind, Option.some_bind]
      rcases ih s ch fr h (fun q hq => hL q (by simp [hq])) hqs hn hlq with
        ⟨hall, hfold⟩ | ⟨hex, hfold⟩
      · refine Or.inl ⟨?_, hfold⟩
        intro q hq
        rcases List.mem_cons.mp hq with rfl | hq
        · exact hempty
        · exact hall q hq
      · refine Or.inr ⟨?_, hfold⟩
        obtain ⟨q, hq, hqne⟩ := hex
        exact ⟨q, by simp [hq], hqne⟩
    · rw [foldM, cellAddr_eq, hstep]
      simp only [Option.bind_eq_bind, Option.some_bind]
      refine Or.inr ⟨⟨p, by simp, hne⟩, ?_⟩
      exact foldQuery_seen L' _ ch fr h (fun q hq => hL q (by simp [hq])) rfl

theorem mapM_take_zero {α β : Type} (f : α → Option β) (l : List α) :
    (l.take 0).mapM f = some [] := rfl

/-- `resetQuerySet` on a state whose `query_size` is already `0`: a no-op. -/
theorem resetQuerySet_zero {T : Type} {s : GridState T} (h : s.query_size = 0) :
    V1.resetQuerySet s = some s := by
  rw [V1.resetQuerySet]
  simp only [Option.bind_eq_bind]
  rw [h]
  show some ({ s with query_set := s.query_set, query_size := 0 } : GridState T) = some s
  rw [← h]

/-- `query` (first variant) on a grid that holds exactly the single value
`V` under element handle `0`: the result contains `V` exactly when some
covered cell's chain is non-empty, and the dedup scratch state is restored
afterwards. -/
theorem query_abs {T : Type} {Z : Nat} {CellSize : Int} {s : GridState T}
    {ch : Nat → List Nat} {fr : List Nat} {V : T}
    (h : CellAbs Z s.cell_nodes s.free_cell_nodes ch fr)
    (hqs : s.query_set = [false]) (hn : s.query_size = 0) (hlq : s.last_query.length = 1)
    (hen : s.element_nodes = [{ element := 0, next := -1 }]) (hel : s.elements = [V])
    {b : Bounds}
    (hL : ∀ p ∈ rectCells (getCellBounds CellSize b), addrN Z p < wrapping_bit_mask Z) :
    ((∀ p ∈ rectCells (getCellBounds CellSize b), ch (addrN Z p) = [])
      ∧ V1.query CellSize Z s b = some ([], s))
    ∨ ((∃ p ∈ rectCells (getCellBounds CellSize b), ch (addrN Z p) ≠ [])
      ∧ V1.query CellSize Z s b
        = some ([V], { s with last_query := [0], query_set := [false], query_size := 0 })) := by
  rcases foldQuery_fresh (rectCells (getCellBounds CellSize b)) s ch fr h hL hqs hn hlq with
    ⟨hall, hfold⟩ | ⟨hex, hfold⟩
  · refine Or.inl ⟨hall, ?_⟩
    rw [V1.query]
    simp only [Option.bind_eq_bind]
    rw [hfold, Option.some_bind, hn, mapM_take_zero, Option.some_bind,
      resetQuerySet_zero hn, Option.some_bind]
  · refine Or.inr ⟨hex, ?_⟩
    rw [V1.query]
    simp only [Option.bind_eq_bind]
    rw [hfold, Option.some_bind]
    dsimp only
    rw [hen, hel]
    rfl

/-- The freshly initialized first-variant grid satisfies the single-handle
cell model with all chains empty. -/
theorem init_cellAbs (T : Type) (Z : Nat) :
    CellAbs Z (V1.init T Z).cell_nodes (V1.init T Z).free_cell_nodes (fun _ => []) [] := by
  refine ⟨by simp [V1.init], ?_, rfl, ?_, ?_, ?_, ?_, ?_, ?_⟩
  · intro a ha
    refine ⟨{}, ?_, rfl⟩
    show getN (List.replicate (wrapping_bit_mask Z) ({} : Node)) (a : Int) = some {}
    exact getN_replicate (by simpa [V1.init] using ha)
  · intro a _ j hj
    cases hj
  · intro j hj
    cases hj
  · intro a _
    exact List.nodup_nil
  · intro a b _ _ _ j hj
    cases hj
  · intro a _ j hj
    cases hj
  · exact List.nodup_nil

/-- Inserting the first value `V` into a fresh first-variant grid over
in-range cells: the handle is `0`, the grid holds exactly `V`, and each
address's chain length is the multiplicity of that address in the covered
cell rectangle. -/
theorem insert_fresh_abs {T : Type} (Z : Nat) (CellSize : Int) (V : T) (b : Bounds)
    (hL : ∀ p ∈ rectCells (getCellBounds CellSize b), addrN Z p < wrapping_bit_mask Z) :
    ∃ s1, V1.insert CellSize Z (V1.init T Z) V b = some (0, s1) ∧
      ∃ ch fr, CellAbs Z s1.cell_nodes s1.free_cell_nodes ch fr ∧
        (∀ a, a < wrapping_bit_mask Z →
          (ch a).length = cnt Z (rectCells (getCellBounds CellSize b)) a) ∧
        s1.query_set = [false] ∧ s1.query_size = 0 ∧ s1.last_query.length = 1 ∧
        s1.element_nodes = [{ element := 0, next := -1 }] ∧ s1.elements = [V] ∧
        s1.free_element_nodes = -1 ∧ s1.num_elements = 1 := by
  have hstep : V1.elementInsert (V1.init T Z) V
      = some (0, { V1.init T Z with
          element_nodes := [{ element := 0, next := -1 }], elements := [V] }) := rfl
  obtain ⟨s2, hfold, he1, he2, he3, he4, he5, he6, he7, ch', fr', habs', hlen'⟩ :=
    foldInsert_abs (T := T) (Z := Z) (rectCells (getCellBounds CellSize b))
      { V1.init T Z with element_nodes := [{ element := 0, next := -1 }], elements := [V] }
      (fun _ => []) [] (init_cellAbs T Z) hL
  have hq : s2.query_set = [] := he4
  have hnum : s2.num_elements = 0 := he7
  have hlq : s2.last_query = [] := he3
  refine ⟨{ s2 with num_elements := 1, last_query := [0], query_set := [false] },
    ?_, ch', fr', habs', fun a ha => by simpa using hlen' a ha, rfl, ?_, rfl, ?_, ?_, ?_, rfl⟩
  · rw [V1.insert]
    simp only [Option.bind_eq_bind]
    rw [hstep, Option.some_bind, hfold, Option.some_bind]
    rw [hnum]
    rw [if_pos (by rw [hq]; norm_num)]
    rw [hq, hlq]
    rfl
  · exact he5.trans rfl
  · exact he2.trans rfl
  · exact he1.trans rfl
  · exact he6.trans rfl

theorem rect_corner_mem {cb : CellBounds} (hx : cb.x_start ≤ cb.x_end)
    (hy : cb.y_start ≤ cb.y_end) : (cb.x_start, cb.y_start) ∈ rectCells cb := by
  rw [rectCells]
  refine List.mem_flatMap.mpr ⟨cb.y_start, ?_, ?_⟩
  · rw [intRange]
    refine List.mem_map.mpr ⟨0, ?_, by simp⟩
    rw [List.mem_range]
    omega
  · refine List.mem_map.mpr ⟨cb.x_start, ?_, rfl⟩
    rw [intRange]
    refine List.mem_map.mpr ⟨0, ?_, by simp⟩
    rw [List.mem_range]
    omega

/-! ## Claim C8: update preserves handle identity

The claim as stated is false: two *disjoint* bounds can cover the same
cell (or cells aliasing to the same z-order address), in which case the
value remains visible to `query(old_B)` after the update.  The amended
claim requires the covered z-order address sets, not the bounds, to be
disjoint — and the addresses must lie inside the first variant's
head-slot region (`< 2^Z - 1`), since addresses at `2^Z - 1` fault on its
undersized arena (claim C3). -/

/-- C8 counterexample: with `CellSize = 10`, `ZBitWidth = 2`, the bounds
`{0,0,2,2}` and `{5,5,2,2}` are disjoint rectangles (they are separated
in both axes), yet both cover only cell `(0,0)`.  After
`insert(7, old)` and `update(h, old, new)`, `query(old)` still returns
`[7]` — it contains the value, contradicting the claim. -/
theorem C8_update_counterexample :
    ((0 : Int) + 2 < 5 ∧ (0 : Int) + 2 < 5)
    ∧ (do
      let (h, s1) ← V1.insert (T := Int) 10 2 (V1.init Int 2) 7 ⟨0, 0, 2, 2⟩
      let s2 ← V1.update 10 2 s1 h ⟨0, 0, 2, 2⟩ ⟨5, 5, 2, 2⟩
      let (r_old, _) ← V1.query 10 2 s2 ⟨0, 0, 2, 2⟩
      some r_old) = some [7] := by
  exact ⟨by decide, by decide⟩

/-- C8 (amended): on a properly initialized first-variant grid, after
`h = insert(V, old_B)` and `update(h, old_B, new_B)` — with non-negative
new dimensions and all covered z-order addresses inside the head region —
`query(new_B)` returns exactly `[V]` (so it contains `V`), and when the
z-order address sets covered by `old_B` and `new_B` are disjoint,
`query(old_B)` returns `[]` (so it does not contain `V`). -/
theorem C8_update_preserves_handle {T : Type} (Z : Nat) (CellSize : Int) (V : T)
    (oldB newB : Bounds) (hC : 0 < CellSize) (hw : 0 ≤ newB.w) (hh : 0 ≤ newB.h)
    (hA1 : ∀ p ∈ rectCells (getCellBounds CellSize oldB), addrN Z p < wrapping_bit_mask Z)
    (hA2 : ∀ p ∈ rectCells (getCellBounds CellSize newB), addrN Z p < wrapping_bit_mask Z)
    (hdisj : ∀ p ∈ rectCells (getCellBounds CellSize oldB),
      ∀ q ∈ rectCells (getCellBounds CellSize newB), addrN Z p ≠ addrN Z q) :
    (do
      let (h, s1) ← V1.insert CellSize Z (V1.init T Z) V oldB
      let s2 ← V1.update CellSize Z s1 h oldB newB
      let (rnew, _) ← V1.query CellSize Z s2 newB
      let (rold, _) ← V1.query CellSize Z s2 oldB
      some (h, rnew, rold)) = some (0, [V], []) := by
  obtain ⟨s1, hins, ch1, fr1, habs1, hlen1, hqs1, hn1, hlq1, hen1, hel1, hfe1, hnum1⟩ :=
    insert_fresh_abs Z CellSize V oldB hA1
  obtain ⟨s2a, hfoldR, f1, f2, f3, f4, f5, f6, f7, ch2, fr2, habs2, hlen2⟩ :=
    foldRemove_abs (rectCells (getCellBounds CellSize oldB)) s1 ch1 fr1 habs1 hA1
      (fun a ha => le_of_eq (hlen1 a ha).symm)
  obtain ⟨s2, hfoldI, g1, g2, g3, g4, g5, g6, g7, ch3, fr3, habs3, hlen3⟩ :=
    foldInsert_abs (rectCells (getCellBounds CellSize newB)) s2a ch2 fr2 habs2 hA2
  have hupd : V1.update CellSize Z s1 0 oldB newB = some s2 := by
    rw [V1.update]
    simp only [Option.bind_eq_bind]
    rw [hfoldR, Option.some_bind]
    exact hfoldI
  have hch3 : ∀ a, a < wrapping_bit_mask Z →
      (ch3 a).length = cnt Z (rectCells (getCellBounds CellSize newB)) a := by
    intro a ha
    rw [hlen3 a ha, hlen2 a ha, hlen1 a ha]
    omega
  have hqs2 : s2.query_set = [false] := by rw [g4, f4, hqs1]
  have hn2 : s2.query_size = 0 := by rw [g5, f5, hn1]
  have hlq2 : s2.last_query.length = 1 := by rw [g3, f3]; exact hlq1
  have hen2 : s2.element_nodes = [{ element := 0, next := -1 }] := by rw [g2, f2, hen1]
  have hel2 : s2.elements = [V] := by rw [g1, f1, hel1]
  have hp0 : ((getCellBounds CellSize newB).x_start, (getCellBounds CellSize newB).y_start)
      ∈ rectCells (getCellBounds CellSize newB) :=
    rect_corner_mem (tdiv_le_tdiv hC (by omega)) (tdiv_le_tdiv hC (by omega))
  rcases query_abs habs3 hqs2 hn2 hlq2 hen2 hel2 hA2 with ⟨hall, _⟩ | ⟨_, hqnew⟩
  · exfalso
    have h0 := hch3 _ (hA2 _ hp0)
    rw [hall _ hp0] at h0
    have : cnt Z (rectCells (getCellBounds CellSize newB))
        (addrN Z ((getCellBounds CellSize newB).x_start,
          (getCellBounds CellSize newB).y_start)) = 0 := by simpa using h0.symm
    rw [cnt] at this
    exact (List.count_eq_zero.mp this) (List.mem_map.mpr ⟨_, hp0, rfl⟩)
  · rcases query_abs habs3 hqs2 hn2 hlq2 hen2 hel2 hA1 with ⟨_, hqold⟩ | ⟨hex, _⟩
    · rw [hins]
      simp only [Option.bind_eq_bind, Option.some_bind]
      rw [hupd, Option.some_bind, hqnew, Option.some_bind, hqold, Option.some_bind]
    · exfalso
      obtain ⟨q, hq, hqne⟩ := hex
      have h0 := hch3 _ (hA1 _ hq)
      have hpos : cnt Z (rectCells (getCellBounds CellSize newB)) (addrN Z q) ≠ 0 := by
        rw [← h0]
        simpa using hqne
      rw [cnt] at hpos
      have hmem := List.count_pos_iff.mp (Nat.pos_of_ne_zero hpos)
      obtain ⟨p', hp', heq⟩ := List.mem_map.mp hmem
      exact hdisj q hq p' hp' heq.symm

/-- C8 amended-claim witness: `CellSize = 1`, `ZBitWidth = 2`,
`old_B = {0,0,0,0}` (address 0), `new_B = {1,0,0,0}` (address 1). -/
theorem C8_update_preserves_handle_witness :
    ((0 : Int) < 1 ∧ (0 : Int) ≤ 0 ∧ (0 : Int) ≤ 0
      ∧ (∀ p ∈ rectCells (getCellBounds 1 ⟨0, 0, 0, 0⟩), addrN 2 p < wrapping_bit_mask 2)
      ∧ (∀ p ∈ rectCells (getCellBounds 1 ⟨1, 0, 0, 0⟩), addrN 2 p < wrapping_bit_mask 2)
      ∧ (∀ p ∈ rectCells (getCellBounds 1 ⟨0, 0, 0, 0⟩),
          ∀ q ∈ rectCells (getCellBounds 1 ⟨1, 0, 0, 0⟩), addrN 2 p ≠ addrN 2 q))
    ∧ (do
      let (h, s1) ← V1.insert (T := Int) 1 2 (V1.init Int 2) 7 ⟨0, 0, 0, 0⟩
      let s2 ← V1.update 1 2 s1 h ⟨0, 0, 0, 0⟩ ⟨1, 0, 0, 0⟩
      let (rnew, _) ← V1.query 1 2 s2 ⟨1, 0, 0, 0⟩
      let (rold, _) ← V1.query 1 2 s2 ⟨0, 0, 0, 0⟩
      some (h, rnew, rold)) = some (0, [7], []) :=
  ⟨⟨by decide, by decide, by decide, by decide, by decide, by decide⟩,
    C8_update_preserves_handle 2 1 7 ⟨0, 0, 0, 0⟩ ⟨1, 0, 0, 0⟩ (by decide) (by decide)
      (by decide) (by decide) (by decide) (by decide)⟩

/-! ## C10: the implicit scratch-capacity invariant (first variant)

Under correct use — `remove` and `update` are only called with a currently
live handle and the bounds it was last stored under — every reachable
state keeps `last_query` and `query_set` at least as large as
`element_nodes`, every element handle stored in the cell arena is a valid
index into both scratch vectors, and the unguarded indexing inside the
`cellQuery` walk never goes out of range. -/

/-- The element-node free list read as a chain of `Int` handles. -/
def elemChain (nodes : List Node) : Int → List Int → Prop
  | i, [] => i = -1
  | i, g :: rest =>
    i = g ∧ ∃ nd, getN nodes g = some nd ∧ elemChain nodes nd.next rest

theorem elemChain_congr {nodes nodes' : List Node} {i : Int} {l : List Int}
    (hg : ∀ g ∈ l, getN nodes' g = getN nodes g) :
    elemChain nodes i l → elemChain nodes' i l := by
  induction l generalizing i with
  | nil => exact id
  | cons g rest ih =>
    rintro ⟨rfl, nd, hnd, hc⟩
    exact ⟨rfl, nd, (hg i (by simp)).trans hnd, ih (fun k hk => hg k (by simp [hk])) hc⟩

/-- Size and range facts shared by every state the first variant can reach
under correct use: the scratch vectors dominate the element arena, the
dedup scratch is clean between operations, and every cell node's fields
are in range (`element` a valid element-arena index on non-head nodes,
`next` either `-1` or a non-head cell-arena index). -/
structure CoreInv {T : Type} (Z : Nat) (s : GridState T) : Prop where
  qlen : s.element_nodes.length ≤ s.query_set.length
  lqlen : s.last_query.length = s.query_set.length
  elen : s.elements.length = s.element_nodes.length
  qsize : s.query_size = 0
  qfalse : ∀ b ∈ s.query_set, b = false
  cellHi : wrapping_bit_mask Z ≤ s.cell_nodes.length
  cellRange : ∀ (j : Nat), wrapping_bit_mask Z ≤ j → ∀ nd,
    getN s.cell_nodes (j : Int) = some nd →
    (0 ≤ nd.element ∧ nd.element < (s.element_nodes.length : Int)) ∧
    (nd.next = -1 ∨
      ((wrapping_bit_mask Z : Int) ≤ nd.next ∧ nd.next < (s.cell_nodes.length : Int)))
  headRange : ∀ (j : Nat), j < wrapping_bit_mask Z → ∀ nd,
    getN s.cell_nodes (j : Int) = some nd →
    nd.next = -1 ∨
      ((wrapping_bit_mask Z : Int) ≤ nd.next ∧ nd.next < (s.cell_nodes.length : Int))

/-- The element arena relative to the ghost list `live` of currently live
`(handle, bounds)` pairs: the free list is a chain of distinct in-range
handles, the live handles are exactly the non-free slots, and
`num_elements` dominates the live count. -/
structure ElemInv {T : Type} (s : GridState T) (live : List (Int × Bounds)) : Prop where
  hands : (live.map Prod.fst).Nodup
  lrange : ∀ p ∈ live, 0 ≤ p.1 ∧ p.1 < (s.element_nodes.length : Int)
  freeE : ∃ F : List Int, elemChain s.element_nodes s.free_element_nodes F ∧ F.Nodup ∧
      (∀ g ∈ F, 0 ≤ g ∧ g < (s.element_nodes.length : Int)) ∧
      (∀ g : Int, 0 ≤ g → g < (s.element_nodes.length : Int) →
        (g ∈ live.map Prod.fst ↔ g ∉ F))

/-- After `clear`, the element free list head can dangle into the emptied
arena; then nothing is live and the next allocation faults. -/
def ElemStale {T : Type} (s : GridState T) (live : List (Int × Bounds)) : Prop :=
  s.element_nodes = [] ∧ live = [] ∧ 0 ≤ s.free_element_nodes

/-- Good regime for the cell-node free list head. -/
def CellFreeOK {T : Type} (Z : Nat) (s : GridState T) : Prop :=
  s.free_cell_nodes = -1 ∨
    ((wrapping_bit_mask Z : Int) ≤ s.free_cell_nodes ∧
      s.free_cell_nodes < (s.cell_nodes.length : Int))

/-- After `clear`, the cell free list head can dangle past the freshly
rebuilt head region; every covered-cell write then faults, so only
elements whose covered rectangle is empty can be live. -/
def CellStale {T : Type} (C : Int) (Z : Nat) (s : GridState T)
    (live : List (Int × Bounds)) : Prop :=
  s.cell_nodes = List.replicate (wrapping_bit_mask Z) {} ∧
    (wrapping_bit_mask Z : Int) ≤ s.free_cell_nodes ∧
    ∀ p ∈ live, rectCells (getCellBounds C p.2) = []

/-- The full correct-use invariant. -/
def StateOK {T : Type} (C : Int) (Z : Nat) (s : GridState T)
    (live : List (Int × Bounds)) : Prop :=
  CoreInv Z s ∧ (ElemInv s live ∨ ElemStale s live) ∧
    (live.length : Int) ≤ s.num_elements ∧
    (CellFreeOK Z s ∨ CellStale C Z s live)

/-- Mid-query consistency of the dedup scratch: the marked entries of
`query_set` are exactly the distinct handles recorded so far in
`last_query`. -/
structure WInv (sc : V1.Scratch) : Prop where
  len : sc.last_query.length = sc.query_set.length
  size : sc.query_size ≤ sc.last_query.length
  nodup : (sc.last_query.take sc.query_size).Nodup
  marked : ∀ e : Int, getN sc.query_set e = some true ↔
    e ∈ sc.last_query.take sc.query_size

/-! ### Generic list and accessor lemmas for the invariant proofs -/

theorem nodup_int_length_le {l : List Int} {N : Nat} (hd : l.Nodup)
    (hb : ∀ e ∈ l, 0 ≤ e ∧ e.toNat < N) : l.length ≤ N := by
  have hmap : (l.map Int.toNat).Nodup :=
    List.Nodup.map_on (fun x hx y hy hxy => by
      have h1 := (hb x hx).1
      have h2 := (hb y hy).1
      omega) hd
  have hsub : l.map Int.toNat ⊆ List.range N := by
    intro k hk
    obtain ⟨e, he, rfl⟩ := List.mem_map.mp hk
    exact List.mem_range.mpr (hb e he).2
  have hle := (List.subperm_of_subset hmap hsub).length_le
  simpa using hle

theorem take_set_concat {α : Type} {l : List α} {k : Nat} (v : α) (h : k < l.length) :
    (l.set k v).take (k + 1) = l.take k ++ [v] := by
  rw [List.set_eq_take_append_cons_drop, if_pos h]
  have hlt : (l.take k).length = k := by
    rw [List.length_take]; omega
  rw [show k + 1 = (l.take k).length + 1 from by rw [hlt]]
  rw [List.take_append 1]
  simp

theorem getN_set_self_int {α : Type} {l : List α} {e : Int} {v : α}
    (h0 : 0 ≤ e) (h1 : e.toNat < l.length) :
    getN (l.set e.toNat v) e = some v := by
  have h := getN_set_self (l := l) (v := v) h1
  rwa [show ((e.toNat : Nat) : Int) = e from by omega] at h

theorem getN_set_ne_int {α : Type} {l : List α} {e i : Int} {v : α}
    (hne : i ≠ e) (h0 : 0 ≤ e) :
    getN (l.set e.toNat v) i = getN l i := by
  apply getN_set_ne
  omega

theorem getN_mem {α : Type} {l : List α} {i : Int} {a : α} (h : getN l i = some a) :
    a ∈ l := by
  obtain ⟨h0, h1⟩ := getN_pos h
  rw [getN, if_neg (by omega)] at h
  exact List.getElem?_mem h

theorem mem_getN {α : Type} {l : List α} {a : α} (h : a ∈ l) :
    ∃ k : Nat, k < l.length ∧ getN l (k : Int) = some a := by
  obtain ⟨n, hn, rfl⟩ := List.mem_iff_getElem.mp h
  exact ⟨n, hn, getN_of_lt hn⟩

theorem foldM_append {σ α : Type} (f : σ → α → Option σ) (l1 l2 : List α) :
    ∀ s : σ, foldM f s (l1 ++ l2) = (foldM f s l1).bind (fun s' => foldM f s' l2) := by
  induction l1 with
  | nil => intro s; simp [foldM]
  | cons a l ih =>
    intro s
    simp only [List.cons_append, foldM, Option.bind_eq_bind]
    cases f s a with
    | none => simp
    | some s' => simp [ih]

theorem foldM_pres {σ α : Type} {P : σ → Prop} {f : σ → α → Option σ}
    (hstep : ∀ s a s', P s → f s a = some s' → P s') :
    ∀ (L : List α) (s s' : σ), P s → foldM f s L = some s' → P s' := by
  intro L
  induction L with
  | nil =>
    intro s s' hP h
    rw [foldM] at h
    cases h
    exact hP
  | cons a L ih =>
    intro s s' hP h
    rw [foldM] at h
    simp only [Option.bind_eq_bind] at h
    obtain ⟨s1, h1, h2⟩ := Option.bind_eq_some.mp h
    exact ih s1 s' (hstep s a s1 hP h1) h2

/-! ### Safety of the query walk and range facts of the removal walk -/

theorem nodup_append_singleton {α : Type} {l : List α} {a : α}
    (h : l.Nodup) (ha : a ∉ l) : (l ++ [a]).Nodup := by
  rw [List.nodup_append]
  refine ⟨h, by simp, ?_⟩
  simp only [List.Disjoint, List.mem_singleton]
  intro x hx hxa
  subst hxa
  exact ha hx

/-- Under the cell-arena range invariant and a consistent dedup scratch,
the `cellQuery` walk never faults: every node read is in range, every
`query_set` probe is in range, and the unchecked `last_query[query_size]`
write stays in range because the recorded handles are distinct.  On
success the scratch is again consistent and its vectors keep their
lengths. -/
theorem cellQueryWalk_safe {Z : Nat} {nodes : List Node} {E : Nat}
    (hrange : ∀ (j : Nat), wrapping_bit_mask Z ≤ j → ∀ nd,
      getN nodes (j : Int) = some nd →
      (0 ≤ nd.element ∧ nd.element < (E : Int)) ∧
      (nd.next = -1 ∨
        ((wrapping_bit_mask Z : Int) ≤ nd.next ∧ nd.next < (nodes.length : Int)))) :
    ∀ (fuel : Nat) (cur : Int) (sc : V1.Scratch),
      (cur = -1 ∨ ((wrapping_bit_mask Z : Int) ≤ cur ∧ cur < (nodes.length : Int))) →
      WInv sc → E ≤ sc.query_set.length →
      V1.cellQueryWalk nodes fuel cur sc ≠ .fault ∧
      ∀ sc', V1.cellQueryWalk nodes fuel cur sc = .ok sc' →
        WInv sc' ∧ sc'.query_set.length = sc.query_set.length ∧
        sc'.last_query.length = sc.last_query.length := by
  intro fuel
  induction fuel with
  | zero =>
    intro cur sc hcur hW hE
    rw [V1.cellQueryWalk]
    exact ⟨fun h => Res.noConfusion h, fun sc' h => Res.noConfusion h⟩
  | succ fuel ih =>
    intro cur sc hcur hW hE
    rw [V1.cellQueryWalk]
    by_cases hc1 : cur = -1
    · rw [if_pos hc1]
      refine ⟨fun h => Res.noConfusion h, fun sc' h => ?_⟩
      injection h with h'
      subst h'
      exact ⟨hW, rfl, rfl⟩
    · rw [if_neg hc1]
      have hcur' : (wrapping_bit_mask Z : Int) ≤ cur ∧ cur < (nodes.length : Int) :=
        hcur.resolve_left hc1
      obtain ⟨nd, hget⟩ : ∃ nd, getN nodes cur = some nd := by
        rw [getN, if_neg (by omega)]
        rw [List.getElem?_eq_getElem (l := nodes) (n := cur.toNat) (by omega)]
        exact ⟨_, rfl⟩
      have hnd := hrange cur.toNat (by omega) nd
        (by rw [show ((cur.toNat : Nat) : Int) = cur from by omega]; exact hget)
      rw [hget]
      dsimp only
      have hElt : nd.element.toNat < sc.query_set.length := by
        have := hnd.1
        omega
      obtain ⟨b, hbg⟩ : ∃ b, getN sc.query_set nd.element = some b := by
        rw [getN, if_neg (by have := hnd.1; omega)]
        rw [List.getElem?_eq_getElem (l := sc.query_set) (n := nd.element.toNat) hElt]
        exact ⟨_, rfl⟩
      rw [hbg]
      dsimp only
      cases b with
      | true =>
        rw [if_pos rfl]
        exact ih _ sc hnd.2 hW hE
      | false =>
        rw [if_neg (by simp)]
        have hmem : ∀ e ∈ sc.last_query.take sc.query_size,
            0 ≤ e ∧ e.toNat < sc.query_set.length := by
          intro e he
          exact getN_pos ((hW.marked e).mpr he)
        have hnotmem : nd.element ∉ sc.last_query.take sc.query_size := by
          intro hmem'
          have hx := (hW.marked nd.element).mpr hmem'
          rw [hbg] at hx
          exact Bool.false_ne_true (Option.some_inj.mp hx)
        have hlen : sc.query_size < sc.last_query.length := by
          have htk : (sc.last_query.take sc.query_size).length = sc.query_size := by
            rw [List.length_take]
            have := hW.size
            omega
          have hcnt : (nd.element :: sc.last_query.take sc.query_size).length ≤
              sc.query_set.length := by
            refine nodup_int_length_le (List.nodup_cons.mpr ⟨hnotmem, hW.nodup⟩) ?_
            intro e he
            rcases List.mem_cons.mp he with rfl | he'
            · exact ⟨hnd.1.1, hElt⟩
            · exact hmem e he'
          rw [List.length_cons, htk] at hcnt
          have := hW.len
          omega
        rw [setN_of_lt _ hlen]
        rw [show setN sc.query_set nd.element true =
            some (sc.query_set.set nd.element.toNat true) from by
          rw [setN, if_pos ⟨hnd.1.1, hElt⟩]]
        dsimp only
        have hW2 : WInv ⟨sc.last_query.set sc.query_size nd.element,
            sc.query_set.set nd.element.toNat true, sc.query_size + 1⟩ := by
          have htake : (sc.last_query.set sc.query_size nd.element).take
                (sc.query_size + 1) =
              sc.last_query.take sc.query_size ++ [nd.element] :=
            take_set_concat _ hlen
          refine ⟨by simpa using hW.len, by simpa using hlen, ?_, ?_⟩
          · rw [htake]
            exact nodup_append_singleton hW.nodup hnotmem
          · intro e
            rw [htake]
            by_cases he : e = nd.element
            · subst he
              rw [getN_set_self_int hnd.1.1 hElt]
              simp
            · rw [getN_set_ne_int he hnd.1.1]
              rw [hW.marked]
              simp [he]
        have hnext := ih _ _ hnd.2 hW2 (by simpa using hE)
        refine ⟨hnext.1, fun sc' h => ?_⟩
        obtain ⟨hw', hq', hl'⟩ := hnext.2 sc' h
        exact ⟨hw', by simpa using hq', by simpa using hl'⟩

/-- On success, the removal walk returns a valid `prev` index and a valid
non-head `cur` index. -/
theorem cellRemoveWalk_post {Z : Nat} {nodes : List Node} {tgt : Int}
    (hrange : ∀ (j : Nat), wrapping_bit_mask Z ≤ j → ∀ nd,
      getN nodes (j : Int) = some nd →
      nd.next = -1 ∨
        ((wrapping_bit_mask Z : Int) ≤ nd.next ∧ nd.next < (nodes.length : Int))) :
    ∀ (fuel : Nat) (prev cur p c : Int),
      0 ≤ prev → prev < (nodes.length : Int) →
      (cur = -1 ∨ ((wrapping_bit_mask Z : Int) ≤ cur ∧ cur < (nodes.length : Int))) →
      V1.cellRemoveWalk nodes tgt fuel prev cur = .ok (p, c) →
      (0 ≤ p ∧ p < (nodes.length : Int)) ∧
      ((wrapping_bit_mask Z : Int) ≤ c ∧ c < (nodes.length : Int)) := by
  intro fuel
  induction fuel with
  | zero =>
    intro prev cur p c h1 h2 h3 h
    rw [V1.cellRemoveWalk] at h
    exact Res.noConfusion h
  | succ fuel ih =>
    intro prev cur p c h1 h2 h3 h
    rw [V1.cellRemoveWalk] at h
    rcases h3 with rfl | hcur
    · rw [show getN nodes (-1 : Int) = none from by rw [getN, if_pos (by norm_num)]] at h
      exact Res.noConfusion h
    · obtain ⟨nd, hget⟩ : ∃ nd, getN nodes cur = some nd := by
        rw [getN, if_neg (by omega)]
        rw [List.getElem?_eq_getElem (l := nodes) (n := cur.toNat) (by omega)]
        exact ⟨_, rfl⟩
      rw [hget] at h
      dsimp only at h
      by_cases he : nd.element = tgt
      · rw [if_pos he] at h
        injection h with h'
        obtain ⟨rfl, rfl⟩ : prev = p ∧ cur = c := by
          have := Prod.mk.injEq prev cur p c ▸ h'
          exact ⟨congrArg Prod.fst h', congrArg Prod.snd h'⟩
        exact ⟨⟨h1, h2⟩, hcur⟩
      · rw [if_neg he] at h
        have hnx := hrange cur.toNat (by omega) nd
          (by rw [show ((cur.toNat : Nat) : Int) = cur from by omega]; exact hget)
        exact ih cur nd.next p c (by omega) (by omega) hnx h

/-! ### The query scratch through `cellQuery` and `resetQuerySet` -/

/-- From a consistent scratch, `resetQuerySet` unmarks exactly the
recorded handles, leaving `query_set` all-false with its length intact and
`query_size` zero; every other member is untouched. -/
theorem resetQuerySet_ok {T : Type} {s : GridState T}
    (hW : WInv ⟨s.last_query, s.query_set, s.query_size⟩) :
    ∀ s', V1.resetQuerySet s = some s' →
      s'.query_size = 0 ∧ (∀ b ∈ s'.query_set, b = false) ∧
      s'.query_set.length = s.query_set.length ∧
      s'.last_query = s.last_query ∧ s'.elements = s.elements ∧
      s'.element_nodes = s.element_nodes ∧ s'.cell_nodes = s.cell_nodes ∧
      s'.free_element_nodes = s.free_element_nodes ∧
      s'.free_cell_nodes = s.free_cell_nodes ∧
      s'.num_elements = s.num_elements := by
  have hWsize : s.query_size ≤ s.last_query.length := hW.size
  have hWlen : s.last_query.length = s.query_set.length := hW.len
  have key : ∀ n, n ≤ s.query_size →
      ∃ qs', foldM (fun qs (i : Nat) => do
          let e ← getN s.last_query (i : Int)
          setN qs e false) s.query_set (List.range n) = some qs' ∧
        qs'.length = s.query_set.length ∧
        (∀ e : Int, getN qs' e = some true ↔
          e ∈ (s.last_query.take s.query_size).drop n) := by
    intro n
    induction n with
    | zero =>
      intro _
      refine ⟨s.query_set, rfl, rfl, fun e => ?_⟩
      simpa using hW.marked e
    | succ n ih =>
      intro hn
      obtain ⟨qs', hfold, hlen, hiff⟩ := ih (by omega)
      have hni : n < s.last_query.length := by omega
      have hlt : n < (s.last_query.take s.query_size).length := by
        rw [List.length_take]
        omega
      obtain ⟨en, hrec, hglq⟩ : ∃ en,
          (s.last_query.take s.query_size).drop n =
            en :: (s.last_query.take s.query_size).drop (n + 1) ∧
          getN s.last_query (n : Int) = some en := by
        refine ⟨(s.last_query.take s.query_size).get ⟨n, hlt⟩, ?_, ?_⟩
        · exact List.drop_eq_getElem_cons hlt
        · rw [getN_of_lt hni]
          congr 1
          exact (List.getElem_take _).symm
      have hen_rec : en ∈ s.last_query.take s.query_size := by
        have : en ∈ (s.last_query.take s.query_size).drop n := by
          rw [hrec]; simp
        exact List.mem_of_mem_drop this
      have hen_bounds : 0 ≤ en ∧ en.toNat < s.query_set.length :=
        getN_pos ((hW.marked en).mpr hen_rec)
      have hnotail : en ∉ (s.last_query.take s.query_size).drop (n + 1) := by
        have hdup : ((s.last_query.take s.query_size).drop n).Nodup :=
          List.Nodup.sublist (List.drop_sublist _ _) hW.nodup
        rw [hrec] at hdup
        exact (List.nodup_cons.mp hdup).1
      refine ⟨qs'.set en.toNat false, ?_, by simpa using hlen, fun e => ?_⟩
      · rw [List.range_succ, foldM_append, hfold]
        simp only [Option.some_bind]
        rw [foldM]
        simp only [Option.bind_eq_bind]
        rw [hglq]
        simp only [Option.some_bind]
        rw [show setN qs' en false = some (qs'.set en.toNat false) from by
          rw [setN, if_pos ⟨hen_bounds.1, by omega⟩]]
        simp only [Option.some_bind]
        rw [foldM]
      · by_cases he : e = en
        · subst he
          rw [getN_set_self_int hen_bounds.1 (by omega)]
          constructor
          · intro hx
            exact absurd (Option.some_inj.mp hx) (by simp)
          · intro hx
            exact absurd hx hnotail
        · rw [getN_set_ne_int he hen_bounds.1, hiff e, hrec]
          simp [he]
  intro s' h
  rw [V1.resetQuerySet] at h
  simp only [Option.bind_eq_bind] at h
  obtain ⟨qsF, hqsF, h2⟩ := Option.bind_eq_some.mp h
  obtain ⟨qs1, hfold, hlen1, hiff1⟩ := key s.query_size (le_refl _)
  simp only [Option.bind_eq_bind] at hfold
  rw [hfold] at hqsF
  have hq : qs1 = qsF := Option.some_inj.mp hqsF
  subst hq
  have hs' : ({ s with query_set := qs1, query_size := 0 } : GridState T) = s' :=
    Option.some_inj.mp h2
  subst hs'
  refine ⟨rfl, ?_, hlen1, rfl, rfl, rfl, rfl, rfl, rfl, rfl⟩
  intro b hb
  obtain ⟨k, hk, hgk⟩ := mem_getN hb
  cases b with
  | false => rfl
  | true =>
    exfalso
    have hx := (hiff1 (k : Int)).mp hgk
    rw [List.drop_eq_nil_of_le (by rw [List.length_take]; omega)] at hx
    exact absurd hx (List.not_mem_nil _)

/-- `cellQuery` under the invariant: only the scratch changes, and it
stays consistent with unchanged vector lengths. -/
theorem cellQuery_pres {T : Type} {Z : Nat} {E : Nat} {s s' : GridState T} {a : Int}
    (hrange : ∀ (j : Nat), wrapping_bit_mask Z ≤ j → ∀ nd,
      getN s.cell_nodes (j : Int) = some nd →
      (0 ≤ nd.element ∧ nd.element < (E : Int)) ∧
      (nd.next = -1 ∨ ((wrapping_bit_mask Z : Int) ≤ nd.next ∧
        nd.next < (s.cell_nodes.length : Int))))
    (hhead : ∀ (j : Nat), j < wrapping_bit_mask Z → ∀ nd,
      getN s.cell_nodes (j : Int) = some nd →
      nd.next = -1 ∨ ((wrapping_bit_mask Z : Int) ≤ nd.next ∧
        nd.next < (s.cell_nodes.length : Int)))
    (hW : WInv ⟨s.last_query, s.query_set, s.query_size⟩)
    (hE : E ≤ s.query_set.length)
    (h : V1.cellQuery s a = some s') :
    WInv ⟨s'.last_query, s'.query_set, s'.query_size⟩ ∧
    s'.query_set.length = s.query_set.length ∧
    s'.last_query.length = s.last_query.length ∧
    s'.elements = s.elements ∧ s'.element_nodes = s.element_nodes ∧
    s'.cell_nodes = s.cell_nodes ∧ s'.free_element_nodes = s.free_element_nodes ∧
    s'.free_cell_nodes = s.free_cell_nodes ∧ s'.num_elements = s.num_elements := by
  rw [V1.cellQuery] at h
  simp only [Option.bind_eq_bind] at h
  obtain ⟨nc, hnc, h2⟩ := Option.bind_eq_some.mp h
  obtain ⟨h0a, h1a⟩ := getN_pos hnc
  have hnc' : getN s.cell_nodes ((a.toNat : Nat) : Int) = some nc := by
    rw [show ((a.toNat : Nat) : Int) = a from by omega]
    exact hnc
  have hstart : nc.next = -1 ∨ ((wrapping_bit_mask Z : Int) ≤ nc.next ∧
      nc.next < (s.cell_nodes.length : Int)) := by
    by_cases hj : a.toNat < wrapping_bit_mask Z
    · exact hhead a.toNat hj nc hnc'
    · exact (hrange a.toNat (by omega) nc hnc').2
  have hsafe := cellQueryWalk_safe hrange (s.cell_nodes.length + 1) nc.next
      ⟨s.last_query, s.query_set, s.query_size⟩ hstart hW hE
  cases hw : V1.cellQueryWalk s.cell_nodes (s.cell_nodes.length + 1) nc.next
      ⟨s.last_query, s.query_set, s.query_size⟩ with
  | fault => exact absurd hw hsafe.1
  | fuelout =>
    rw [hw] at h2
    exact Option.noConfusion h2
  | ok sc' =>
    rw [hw] at h2
    have hpost := hsafe.2 sc' hw
    have hs' : ({ s with
        last_query := sc'.last_query
        query_set := sc'.query_set
        query_size := sc'.query_size } : GridState T) = s' := Option.some_inj.mp h2
    subst hs'
    exact ⟨hpost.1, hpost.2.1, hpost.2.2, rfl, rfl, rfl, rfl, rfl, rfl⟩

/-! ### The element arena under allocation and release -/

/-- `elementInsert` from a good element arena: the returned handle is
fresh and in range, and the arena stays good once the handle is recorded
in the ghost list (with any bounds).  When the arena grows, every slot was
live, so the arena size was at most the live count. -/
theorem elementInsert_pres {T : Type} {s : GridState T} {live : List (Int × Bounds)}
    (hE : ElemInv s live) (helen : s.elements.length = s.element_nodes.length) (v : T) :
    ∀ g s1, V1.elementInsert s v = some (g, s1) →
      0 ≤ g ∧ g < (s1.element_nodes.length : Int) ∧
      s.element_nodes.length ≤ s1.element_nodes.length ∧
      s1.elements.length = s1.element_nodes.length ∧
      s1.cell_nodes = s.cell_nodes ∧ s1.last_query = s.last_query ∧
      s1.query_set = s.query_set ∧ s1.query_size = s.query_size ∧
      s1.free_cell_nodes = s.free_cell_nodes ∧ s1.num_elements = s.num_elements ∧
      (∀ b : Bounds, ElemInv s1 (live ++ [(g, b)])) ∧
      (s1.element_nodes.length = s.element_nodes.length ∨
        (s1.element_nodes.length = s.element_nodes.length + 1 ∧
          s.element_nodes.length ≤ live.length)) := by
  intro g s1 hins
  obtain ⟨F, hch, hFdup, hFrange, hcompl⟩ := hE.freeE
  rw [V1.elementInsert] at hins
  by_cases hf : s.free_element_nodes ≠ -1
  · rw [if_pos hf] at hins
    simp only [Option.bind_eq_bind] at hins
    obtain ⟨nd, hnd, hins2⟩ := Option.bind_eq_some.mp hins
    obtain ⟨el', hel', hins3⟩ := Option.bind_eq_some.mp hins2
    have hpair := Option.some_inj.mp hins3
    have hg := congrArg Prod.fst hpair
    have hs1 := congrArg Prod.snd hpair
    dsimp only at hg hs1
    subst hg
    subst hs1
    cases F with
    | nil => exact absurd hch hf
    | cons g0 F' =>
      obtain ⟨hg0, nd0, hnd0, hch'⟩ := hch
      subst hg0
      have hnd0' : nd0 = nd := Option.some_inj.mp (hnd0.symm.trans hnd)
      subst hnd0'
      have hgmem : s.free_element_nodes ∈ s.free_element_nodes :: F' :=
        List.mem_cons_self _ _
      have hgrange := hFrange _ hgmem
      have hellen : el'.length = s.elements.length := by
        obtain ⟨-, -, h3⟩ := setN_some hel'
        rw [h3]
        simp
      refine ⟨by omega, by dsimp only; omega, le_refl _, by simpa [hellen] using helen,
        rfl, rfl, rfl, rfl, rfl, rfl, ?_, Or.inl rfl⟩
      intro b
      have hgnotlive : s.free_element_nodes ∉ live.map Prod.fst := fun hmem =>
        ((hcompl _ hgrange.1 hgrange.2).mp hmem) hgmem
      have hgnotF' : s.free_element_nodes ∉ F' := (List.nodup_cons.mp hFdup).1
      refine ⟨?_, ?_, ⟨F', hch', ?_, ?_, ?_⟩⟩
      · rw [List.map_append]
        exact nodup_append_singleton hE.hands (by simpa using hgnotlive)
      · intro p hp
        rcases List.mem_append.mp hp with hp | hp
        · have := hE.lrange p hp
          exact ⟨this.1, by dsimp only; omega⟩
        · rw [List.mem_singleton.mp hp]
          exact ⟨by omega, by dsimp only; omega⟩
      · exact (List.nodup_cons.mp hFdup).2
      · intro x hx
        exact hFrange x (List.mem_cons_of_mem _ hx)
      · intro x hx0 hx1
        rw [List.map_append, List.mem_append]
        by_cases hxg : x = s.free_element_nodes
        · subst hxg
          simp [hgnotF']
        · have hc := hcompl x hx0 (by dsimp only at hx1; simpa using hx1)
          simp only [List.mem_cons] at hc
          constructor
          · intro hmem
            rcases hmem with hmem | hmem
            · exact fun hF2 => (hc.mp hmem) (Or.inr hF2)
            · simp at hmem
              exact absurd hmem hxg
          · intro hnF2
            exact Or.inl (hc.mpr (fun hor => hnF2 (hor.resolve_left hxg)))
  · rw [if_neg hf] at hins
    push_neg at hf
    have hpair := Option.some_inj.mp hins
    have hg := congrArg Prod.fst hpair
    have hs1 := congrArg Prod.snd hpair
    dsimp only at hg hs1
    subst hg
    subst hs1
    -- the free list is empty, so every slot is live
    have hFnil : F = [] := by
      cases F with
      | nil => rfl
      | cons g0 F' =>
        exfalso
        obtain ⟨hg0, nd0, hnd0, -⟩ := hch
        rw [hf] at hg0
        rw [← hg0] at hnd0
        rw [getN, if_pos (by norm_num)] at hnd0
        exact Option.noConfusion hnd0
    subst hFnil
    have hfull : s.element_nodes.length ≤ live.length := by
      have hsub : ((List.range s.element_nodes.length).map
          (fun k : Nat => (k : Int))).Subperm (live.map Prod.fst) := by
        refine List.subperm_of_subset ?_ ?_
        · exact List.Nodup.map_on
            (fun x hx y hy hxy => by omega) (List.nodup_range _)
        · intro x hx
          obtain ⟨k, hk, rfl⟩ := List.mem_map.mp hx
          rw [List.mem_range] at hk
          exact (hcompl (k : Int) (by omega) (by omega)).mpr (List.not_mem_nil _)
      have := hsub.length_le
      simpa using this
    have hEnotlive : (s.element_nodes.length : Int) ∉ live.map Prod.fst := by
      intro hmem
      obtain ⟨p, hp, hfst⟩ := List.mem_map.mp hmem
      have := hE.lrange p hp
      omega
    refine ⟨by omega, by simp, by simp, by simp [helen], rfl, rfl, rfl, rfl, rfl, rfl,
      ?_, Or.inr ⟨by simp, hfull⟩⟩
    intro b
    refine ⟨?_, ?_, ⟨[], hf, List.nodup_nil, by simp, ?_⟩⟩
    · rw [List.map_append]
      exact nodup_append_singleton hE.hands (by simpa using hEnotlive)
    · intro p hp
      rcases List.mem_append.mp hp with hp | hp
      · have := hE.lrange p hp
        refine ⟨this.1, ?_⟩
        dsimp only
        rw [List.length_append]
        push_cast
        omega
      · rw [List.mem_singleton.mp hp]
        refine ⟨by omega, ?_⟩
        dsimp only
        simp
    · intro x hx0 hx1
      simp only [List.not_mem_nil, not_false_iff, iff_true]
      rw [List.map_append, List.mem_append]
      by_cases hxE : x = (s.element_nodes.length : Int)
      · subst hxE
        simp
      · refine Or.inl ?_
        have hx1' : x < (s.element_nodes.length : Int) := by
          dsimp only at hx1
          simp only [List.length_append, List.length_cons, List.length_nil] at hx1
          omega
        exact (hcompl x hx0 hx1').mpr (List.not_mem_nil _)

/-- `elementRemove` of a live handle: the handle moves from the ghost
list to the free list and the arena stays good. -/
theorem elementRemove_pres {T : Type} {s : GridState T} {live : List (Int × Bounds)}
    {g : Int} {b : Bounds}
    (hE : ElemInv s live) (hmem : (g, b) ∈ live) :
    ∀ s1, V1.elementRemove s g = some s1 →
      s1.element_nodes.length = s.element_nodes.length ∧
      s1.elements = s.elements ∧ s1.cell_nodes = s.cell_nodes ∧
      s1.last_query = s.last_query ∧ s1.query_set = s.query_set ∧
      s1.query_size = s.query_size ∧ s1.free_cell_nodes = s.free_cell_nodes ∧
      s1.num_elements = s.num_elements ∧
      ElemInv s1 (live.erase (g, b)) := by
  intro s1 h
  obtain ⟨F, hch, hFdup, hFrange, hcompl⟩ := hE.freeE
  have hlivedup : live.Nodup := List.Nodup.of_map _ hE.hands
  have hgb := hE.lrange (g, b) hmem
  have hgmap : g ∈ live.map Prod.fst := List.mem_map.mpr ⟨(g, b), hmem, rfl⟩
  have hgnotF : g ∉ F := (hcompl g hgb.1 hgb.2).mp hgmap
  rw [V1.elementRemove] at h
  simp only [Option.bind_eq_bind] at h
  obtain ⟨nd, hnd, h2⟩ := Option.bind_eq_some.mp h
  obtain ⟨en', hen', h3⟩ := Option.bind_eq_some.mp h2
  obtain ⟨-, hlt, hset⟩ := setN_some hen'
  have hs1 : ({ s with element_nodes := en', free_element_nodes := g } : GridState T) = s1 :=
    Option.some_inj.mp h3
  subst hs1
  have hglen : en'.length = s.element_nodes.length := by
    rw [hset]
    simp
  refine ⟨hglen, rfl, rfl, rfl, rfl, rfl, rfl, rfl, ?_⟩
  -- membership in the erased ghost list
  have herased : ∀ x : Int, x ≠ g →
      (x ∈ (live.erase (g, b)).map Prod.fst ↔ x ∈ live.map Prod.fst) := by
    intro x hxg
    constructor
    · intro hx
      obtain ⟨p, hp, rfl⟩ := List.mem_map.mp hx
      exact List.mem_map.mpr ⟨p, ((hlivedup.mem_erase_iff).mp hp).2, rfl⟩
    · intro hx
      obtain ⟨p, hp, rfl⟩ := List.mem_map.mp hx
      refine List.mem_map.mpr ⟨p, (hlivedup.mem_erase_iff).mpr ⟨?_, hp⟩, rfl⟩
      intro hpe
      rw [hpe] at hxg
      exact hxg rfl
  have hgone : g ∉ (live.erase (g, b)).map Prod.fst := by
    intro hx
    obtain ⟨p, hp, hfst⟩ := List.mem_map.mp hx
    obtain ⟨hpne, hpmem⟩ := (hlivedup.mem_erase_iff).mp hp
    exact hpne (List.inj_on_of_nodup_map hE.hands hpmem hmem hfst)
  refine ⟨?_, ?_, ⟨g :: F, ?_, ?_, ?_, ?_⟩⟩
  · exact List.Nodup.sublist
      (List.Sublist.map _ (List.erase_sublist _ _)) hE.hands
  · intro p hp
    have := hE.lrange p (List.mem_of_mem_erase hp)
    dsimp only
    omega
  · refine ⟨rfl, { nd with next := s.free_element_nodes }, ?_, ?_⟩
    · dsimp only
      rw [hset]
      exact getN_set_self_int hgb.1 hlt
    · dsimp only
      refine elemChain_congr ?_ hch
      intro k hk
      rw [hset]
      exact getN_set_ne_int (fun hkg => hgnotF (hkg ▸ hk)) hgb.1
  · exact List.nodup_cons.mpr ⟨hgnotF, hFdup⟩
  · intro x hx
    rcases List.mem_cons.mp hx with rfl | hx
    · dsimp only
      omega
    · have := hFrange x hx
      dsimp only
      omega
  · intro x hx0 hx1
    dsimp only at hx1
    rw [hglen] at hx1
    by_cases hxg : x = g
    · subst hxg
      simp only [List.mem_cons, not_or]
      constructor
      · intro hx
        exact absurd hx hgone
      · intro hx
        exact absurd trivial hx.1
    · rw [herased x hxg, hcompl x hx0 hx1]
      simp [hxg]

/-- After a `clear` that leaves a stale element free list, `insert`
faults on its first element-arena read. -/
theorem insert_elem_stale {T : Type} {C : Int} {Z : Nat} {s : GridState T}
    (h1 : s.element_nodes = []) (h2 : 0 ≤ s.free_element_nodes) (v : T) (b : Bounds) :
    V1.insert C Z s v b = none := by
  rw [V1.insert]
  simp only [Option.bind_eq_bind]
  rw [show V1.elementInsert s v = none from ?_]
  · rfl
  · rw [V1.elementInsert, if_pos (by omega)]
    simp only [Option.bind_eq_bind]
    rw [show getN s.element_nodes s.free_element_nodes = none from by
      rw [getN, h1]
      by_cases hneg : s.free_element_nodes < 0
      · rw [if_pos hneg]
      · rw [if_neg hneg]
        rfl]
    rfl

/-- With a stale cell free list over the freshly rebuilt head region,
`cellInsert` faults on its first arena read. -/
theorem cellInsert_cell_stale {T : Type} {Z : Nat} {s : GridState T}
    (h1 : s.cell_nodes.length = wrapping_bit_mask Z)
    (h2 : (wrapping_bit_mask Z : Int) ≤ s.free_cell_nodes) (a e0 : Int) :
    V1.cellInsert s a e0 = none := by
  rw [V1.cellInsert, if_pos (by omega)]
  simp only [Option.bind_eq_bind]
  rw [show getN s.cell_nodes s.free_cell_nodes = none from by
    rw [getN, if_neg (by omega)]
    exact List.getElem?_eq_none (by omega)]
  rfl

/-! ### The cell arena under `cellInsert` and `cellRemove` -/

/-- `cellInsert` under the invariant: only the cell arena and its free
list change, the arena grows by at most one node, and every range fact is
preserved (with the element bound `E` fixed). -/
theorem cellInsert_core {T : Type} {Z : Nat} {E : Nat} {s s' : GridState T} {a e0 : Int}
    (hcr : ∀ (j : Nat), wrapping_bit_mask Z ≤ j → ∀ nd,
      getN s.cell_nodes (j : Int) = some nd →
      (0 ≤ nd.element ∧ nd.element < (E : Int)) ∧
      (nd.next = -1 ∨ ((wrapping_bit_mask Z : Int) ≤ nd.next ∧
        nd.next < (s.cell_nodes.length : Int))))
    (hhr : ∀ (j : Nat), j < wrapping_bit_mask Z → ∀ nd,
      getN s.cell_nodes (j : Int) = some nd →
      nd.next = -1 ∨ ((wrapping_bit_mask Z : Int) ≤ nd.next ∧
        nd.next < (s.cell_nodes.length : Int)))
    (hfc : s.free_cell_nodes = -1 ∨ ((wrapping_bit_mask Z : Int) ≤ s.free_cell_nodes ∧
      s.free_cell_nodes < (s.cell_nodes.length : Int)))
    (hHi : wrapping_bit_mask Z ≤ s.cell_nodes.length)
    (he : 0 ≤ e0 ∧ e0 < (E : Int))
    (h : V1.cellInsert s a e0 = some s') :
    s'.elements = s.elements ∧ s'.element_nodes = s.element_nodes ∧
    s'.last_query = s.last_query ∧ s'.query_set = s.query_set ∧
    s'.query_size = s.query_size ∧ s'.free_element_nodes = s.free_element_nodes ∧
    s'.num_elements = s.num_elements ∧
    s.cell_nodes.length ≤ s'.cell_nodes.length ∧
    wrapping_bit_mask Z ≤ s'.cell_nodes.length ∧
    (∀ (j : Nat), wrapping_bit_mask Z ≤ j → ∀ nd,
      getN s'.cell_nodes (j : Int) = some nd →
      (0 ≤ nd.element ∧ nd.element < (E : Int)) ∧
      (nd.next = -1 ∨ ((wrapping_bit_mask Z : Int) ≤ nd.next ∧
        nd.next < (s'.cell_nodes.length : Int)))) ∧
    (∀ (j : Nat), j < wrapping_bit_mask Z → ∀ nd,
      getN s'.cell_nodes (j : Int) = some nd →
      nd.next = -1 ∨ ((wrapping_bit_mask Z : Int) ≤ nd.next ∧
        nd.next < (s'.cell_nodes.length : Int))) ∧
    (s'.free_cell_nodes = -1 ∨ ((wrapping_bit_mask Z : Int) ≤ s'.free_cell_nodes ∧
      s'.free_cell_nodes < (s'.cell_nodes.length : Int))) := by
  rw [V1.cellInsert] at h
  by_cases hfree : s.free_cell_nodes ≠ -1
  · -- reuse a node from the cell free list via the scratchpad trick
    rw [if_pos hfree] at h
    simp only [Option.bind_eq_bind] at h
    obtain ⟨hfH, hflen⟩ := hfc.resolve_left hfree
    have hf0 : (0 : Int) ≤ s.free_cell_nodes := by omega
    obtain ⟨nf, hnf, h⟩ := Option.bind_eq_some.mp h
    obtain ⟨cn1, hcn1, h⟩ := Option.bind_eq_some.mp h
    obtain ⟨nc1, hnc1, h⟩ := Option.bind_eq_some.mp h
    obtain ⟨nf1, hnf1, h⟩ := Option.bind_eq_some.mp h
    obtain ⟨cn2, hcn2, h⟩ := Option.bind_eq_some.mp h
    obtain ⟨nc2, hnc2, h⟩ := Option.bind_eq_some.mp h
    obtain ⟨cn3, hcn3, h⟩ := Option.bind_eq_some.mp h
    obtain ⟨nf3, hnf3, h⟩ := Option.bind_eq_some.mp h
    obtain ⟨nc3, hnc3, h⟩ := Option.bind_eq_some.mp h
    obtain ⟨ntgt, hntgt, h⟩ := Option.bind_eq_some.mp h
    obtain ⟨cn4, hcn4, h⟩ := Option.bind_eq_some.mp h
    have hs' := Option.some_inj.mp h
    subst hs'
    obtain ⟨-, hflt1, hcn1v⟩ := setN_some hcn1
    have hlen1 : cn1.length = s.cell_nodes.length := by rw [hcn1v]; simp
    obtain ⟨ha0, halt1⟩ := getN_pos hnc1
    have halt : a.toNat < s.cell_nodes.length := by omega
    have hnf1v : nf1 = { nf with element := nf.next } := by
      rw [hcn1v, getN_set_self_int hf0 (by omega)] at hnf1
      exact (Option.some_inj.mp hnf1).symm
    obtain ⟨-, hflt2, hcn2v⟩ := setN_some hcn2
    have hlen2 : cn2.length = s.cell_nodes.length := by rw [hcn2v]; simp [hlen1]
    obtain ⟨-, halt3, hcn3v⟩ := setN_some hcn3
    have hlen3 : cn3.length = s.cell_nodes.length := by rw [hcn3v]; simp [hlen2]
    have hnc3v : nc3 = { nc2 with next := s.free_cell_nodes } := by
      rw [hcn3v, getN_set_self_int ha0 (by omega)] at hnc3
      exact (Option.some_inj.mp hnc3).symm
    have hnc3next : nc3.next = s.free_cell_nodes := by rw [hnc3v]
    rw [hnc3next] at hntgt hcn4
    obtain ⟨-, -, hcn4v⟩ := setN_some hcn4
    have hlen4 : cn4.length = s.cell_nodes.length := by rw [hcn4v]; simp [hlen3]
    -- the scratch value read back: `ntgt` and `nf3` both live at the free head
    have hntgt3 : getN cn3 s.free_cell_nodes = some ntgt := hntgt
    have hnf3v : nf3 = ntgt := by
      rw [hntgt3] at hnf3
      exact (Option.some_inj.mp hnf3).symm
    -- node at the free head inside `cn2`
    have hcn2F : getN cn2 s.free_cell_nodes =
        some { nf1 with next := nc1.next } := by
      rw [hcn2v]
      exact getN_set_self_int hf0 (by omega)
    -- description of `ntgt`
    have hntgtv : ntgt.element = nf.next ∧
        (ntgt.next = -1 ∨ ((wrapping_bit_mask Z : Int) ≤ ntgt.next ∧
          ntgt.next < (s.cell_nodes.length : Int))) := by
      by_cases halias : a = s.free_cell_nodes
      · -- the cell head aliases the free head
        rw [hcn3v, halias, getN_set_self_int hf0 (by omega)] at hntgt3
        have hv := (Option.some_inj.mp hntgt3).symm
        have hnc2v : nc2 = { nf1 with next := nc1.next } := by
          rw [halias, hcn2F] at hnc2
          exact (Option.some_inj.mp hnc2).symm
        rw [hv, hnc2v, hnf1v]
        exact ⟨rfl, Or.inr ⟨hfH, hflen⟩⟩
      · rw [hcn3v, getN_set_ne_int (fun hh => halias hh.symm) ha0, hcn2F] at hntgt3
        have hv := (Option.some_inj.mp hntgt3).symm
        have hnc1o : getN s.cell_nodes a = some nc1 := by
          rw [hcn1v, getN_set_ne_int halias hf0] at hnc1
          exact hnc1
        have hnc1next : nc1.next = -1 ∨ ((wrapping_bit_mask Z : Int) ≤ nc1.next ∧
            nc1.next < (s.cell_nodes.length : Int)) := by
          have hget : getN s.cell_nodes ((a.toNat : Nat) : Int) = some nc1 := by
            rw [show ((a.toNat : Nat) : Int) = a from by omega]
            exact hnc1o
          by_cases hja : a.toNat < wrapping_bit_mask Z
          · exact hhr a.toNat hja nc1 hget
          · exact (hcr a.toNat (by omega) nc1 hget).2
        rw [hv, hnf1v]
        exact ⟨rfl, hnc1next⟩
    -- final value at the free head
    have hfinF : getN cn4 s.free_cell_nodes = some { ntgt with element := e0 } := by
      rw [hcn4v]
      exact getN_set_self_int hf0 (by omega)
    -- final value at the cell head when it does not alias the free head
    have hfinA : a ≠ s.free_cell_nodes → ∃ nc0, getN s.cell_nodes a = some nc0 ∧
        getN cn4 a = some { nc0 with next := s.free_cell_nodes } := by
      intro hne
      have hnc1o : getN s.cell_nodes a = some nc1 := by
        rw [hcn1v, getN_set_ne_int hne hf0] at hnc1
        exact hnc1
      refine ⟨nc1, hnc1o, ?_⟩
      have hnc2v : nc2 = nc1 := by
        rw [hcn2v, getN_set_ne_int hne hf0, hcn1v, getN_set_ne_int hne hf0] at hnc2
        exact (Option.some_inj.mp (hnc1o.symm.trans hnc2)).symm
      rw [hcn4v, getN_set_ne_int hne hf0, hcn3v, getN_set_self_int ha0 (by omega), hnc2v]
    -- untouched nodes
    have hfinO : ∀ i : Int, i ≠ s.free_cell_nodes → i ≠ a →
        getN cn4 i = getN s.cell_nodes i := by
      intro i hif hia
      rw [hcn4v, getN_set_ne_int hif hf0, hcn3v, getN_set_ne_int hia ha0,
        hcn2v, getN_set_ne_int hif hf0, hcn1v, getN_set_ne_int hif hf0]
    -- the new free head is the saved next pointer of the popped node
    have hnf3e : nf3.element = nf.next := by rw [hnf3v]; exact hntgtv.1
    have hnfnext : nf.next = -1 ∨ ((wrapping_bit_mask Z : Int) ≤ nf.next ∧
        nf.next < (s.cell_nodes.length : Int)) := by
      have hget : getN s.cell_nodes ((s.free_cell_nodes.toNat : Nat) : Int) = some nf := by
        rw [show ((s.free_cell_nodes.toNat : Nat) : Int) = s.free_cell_nodes from by omega]
        exact hnf
      exact (hcr s.free_cell_nodes.toNat (by omega) nf hget).2
    refine ⟨rfl, rfl, rfl, rfl, rfl, rfl, rfl, by dsimp only; omega, by dsimp only; omega,
      ?_, ?_, ?_⟩
    · dsimp only
      intro j hj nd hnd
      by_cases hjf : (j : Int) = s.free_cell_nodes
      · rw [hjf, hfinF] at hnd
        have hv := (Option.some_inj.mp hnd).symm
        subst hv
        refine ⟨⟨he.1, he.2⟩, ?_⟩
        dsimp only
        rcases hntgtv.2 with hh | hh
        · exact Or.inl hh
        · exact Or.inr ⟨hh.1, by omega⟩
      · by_cases hja : (j : Int) = a
        · obtain ⟨nc0, hnc0, hfa⟩ := hfinA (fun hh => hjf (hja.symm ▸ hh))
          rw [hja, hfa] at hnd
          have hv := (Option.some_inj.mp hnd).symm
          subst hv
          have hnc0o : getN s.cell_nodes ((j : Nat) : Int) = some nc0 := by
            rw [hja]
            exact hnc0
          refine ⟨(hcr j hj nc0 hnc0o).1, ?_⟩
          dsimp only
          exact Or.inr ⟨hfH, by omega⟩
        · rw [hfinO _ hjf hja] at hnd
          obtain ⟨h1, h2⟩ := hcr j hj nd hnd
          refine ⟨h1, ?_⟩
          rcases h2 with hh | hh
          · exact Or.inl hh
          · exact Or.inr ⟨hh.1, by omega⟩
    · dsimp only
      intro j hj nd hnd
      have hjf : (j : Int) ≠ s.free_cell_nodes := by omega
      by_cases hja : (j : Int) = a
      · obtain ⟨nc0, hnc0, hfa⟩ := hfinA (fun hh => hjf (hja.symm ▸ hh))
        rw [hja, hfa] at hnd
        have hv := (Option.some_inj.mp hnd).symm
        subst hv
        dsimp only
        exact Or.inr ⟨hfH, by omega⟩
      · rw [hfinO _ hjf hja] at hnd
        rcases hhr j hj nd hnd with hh | hh
        · exact Or.inl hh
        · exact Or.inr ⟨hh.1, by omega⟩
    · dsimp only
      rw [hnf3e]
      rcases hnfnext with hh | hh
      · exact Or.inl hh
      · exact Or.inr ⟨hh.1, by omega⟩
  · -- append a fresh node
    rw [if_neg hfree] at h
    push_neg at hfree
    simp only [Option.bind_eq_bind] at h
    obtain ⟨nc, hnc, h⟩ := Option.bind_eq_some.mp h
    obtain ⟨nc1, hnc1, h⟩ := Option.bind_eq_some.mp h
    obtain ⟨cn2, hcn2, h⟩ := Option.bind_eq_some.mp h
    have hs' := Option.some_inj.mp h
    subst hs'
    obtain ⟨ha0, halt⟩ := getN_pos hnc
    have hnc1v : nc = nc1 := by
      rw [getN_append_left ha0 halt] at hnc1
      exact Option.some_inj.mp (hnc.symm.trans hnc1)
    subst hnc1v
    obtain ⟨-, halt2, hcn2v⟩ := setN_some hcn2
    have hlen2 : cn2.length = s.cell_nodes.length + 1 := by rw [hcn2v]; simp
    have hncnext : nc.next = -1 ∨ ((wrapping_bit_mask Z : Int) ≤ nc.next ∧
        nc.next < (s.cell_nodes.length : Int)) := by
      have hget : getN s.cell_nodes ((a.toNat : Nat) : Int) = some nc := by
        rw [show ((a.toNat : Nat) : Int) = a from by omega]
        exact hnc
      by_cases hja : a.toNat < wrapping_bit_mask Z
      · exact hhr a.toNat hja nc hget
      · exact (hcr a.toNat (by omega) nc hget).2
    have hnewlen : ((s.cell_nodes ++
        [({ element := e0, next := nc.next } : Node)]).length : Int) - 1 =
        (s.cell_nodes.length : Int) := by simp
    have hfinA : getN cn2 a = some { nc with
        next := ((s.cell_nodes ++
          [({ element := e0, next := nc.next } : Node)]).length : Int) - 1 } := by
      rw [hcn2v]
      exact getN_set_self_int ha0 (by simp; omega)
    have hfinNew : getN cn2 (s.cell_nodes.length : Int) =
        some { element := e0, next := nc.next } := by
      have hne : (s.cell_nodes.length : Int) ≠ a := by omega
      rw [hcn2v, getN_set_ne_int hne ha0]
      exact getN_concat_last
    have hfinO : ∀ i : Int, i ≠ a → 0 ≤ i → i.toNat < s.cell_nodes.length →
        getN cn2 i = getN s.cell_nodes i := by
      intro i hia hi0 hilen
      rw [hcn2v, getN_set_ne_int hia ha0, getN_append_left hi0 hilen]
    refine ⟨rfl, rfl, rfl, rfl, rfl, rfl, rfl, by dsimp only; omega, by dsimp only; omega,
      ?_, ?_, ?_⟩
    · dsimp only
      intro j hj nd hnd
      have hjlen : j < s.cell_nodes.length + 1 := by
        have := (getN_pos hnd).2
        omega
      by_cases hja : (j : Int) = a
      · rw [hja, hfinA] at hnd
        have hv := (Option.some_inj.mp hnd).symm
        subst hv
        have hnco : getN s.cell_nodes ((j : Nat) : Int) = some nc := by
          rw [hja]
          exact hnc
        refine ⟨(hcr j hj nc hnco).1, ?_⟩
        dsimp only
        rw [hnewlen]
        exact Or.inr ⟨by omega, by omega⟩
      · by_cases hjn : j = s.cell_nodes.length
        · rw [hjn, hfinNew] at hnd
          have hv := (Option.some_inj.mp hnd).symm
          subst hv
          refine ⟨⟨he.1, he.2⟩, ?_⟩
          dsimp only
          rcases hncnext with hh | hh
          · exact Or.inl hh
          · exact Or.inr ⟨hh.1, by omega⟩
        · rw [hfinO _ hja (by omega) (by omega)] at hnd
          obtain ⟨h1, h2⟩ := hcr j hj nd hnd
          refine ⟨h1, ?_⟩
          rcases h2 with hh | hh
          · exact Or.inl hh
          · exact Or.inr ⟨hh.1, by omega⟩
    · dsimp only
      intro j hj nd hnd
      by_cases hja : (j : Int) = a
      · rw [hja, hfinA] at hnd
        have hv := (Option.some_inj.mp hnd).symm
        subst hv
        dsimp only
        rw [hnewlen]
        exact Or.inr ⟨by omega, by omega⟩
      · have hjn : j ≠ s.cell_nodes.length := by omega
        rw [hfinO _ hja (by omega) (by omega)] at hnd
        rcases hhr j hj nd hnd with hh | hh
        · exact Or.inl hh
        · exact Or.inr ⟨hh.1, by omega⟩
    · exact Or.inl hfree

/-- `cellRemove` under the invariant: only the cell arena and its free
list change, the arena length is unchanged, and every range fact is
preserved (with the element bound `E` fixed). -/
theorem cellRemove_core {T : Type} {Z : Nat} {E : Nat} {s s' : GridState T} {a e0 : Int}
    (hcr : ∀ (j : Nat), wrapping_bit_mask Z ≤ j → ∀ nd,
      getN s.cell_nodes (j : Int) = some nd →
      (0 ≤ nd.element ∧ nd.element < (E : Int)) ∧
      (nd.next = -1 ∨ ((wrapping_bit_mask Z : Int) ≤ nd.next ∧
        nd.next < (s.cell_nodes.length : Int))))
    (hhr : ∀ (j : Nat), j < wrapping_bit_mask Z → ∀ nd,
      getN s.cell_nodes (j : Int) = some nd →
      nd.next = -1 ∨ ((wrapping_bit_mask Z : Int) ≤ nd.next ∧
        nd.next < (s.cell_nodes.length : Int)))
    (hfc : s.free_cell_nodes = -1 ∨ ((wrapping_bit_mask Z : Int) ≤ s.free_cell_nodes ∧
      s.free_cell_nodes < (s.cell_nodes.length : Int)))
    (h : V1.cellRemove s a e0 = some s') :
    s'.elements = s.elements ∧ s'.element_nodes = s.element_nodes ∧
    s'.last_query = s.last_query ∧ s'.query_set = s.query_set ∧
    s'.query_size = s.query_size ∧ s'.free_element_nodes = s.free_element_nodes ∧
    s'.num_elements = s.num_elements ∧
    s'.cell_nodes.length = s.cell_nodes.length ∧
    (∀ (j : Nat), wrapping_bit_mask Z ≤ j → ∀ nd,
      getN s'.cell_nodes (j : Int) = some nd →
      (0 ≤ nd.element ∧ nd.element < (E : Int)) ∧
      (nd.next = -1 ∨ ((wrapping_bit_mask Z : Int) ≤ nd.next ∧
        nd.next < (s'.cell_nodes.length : Int)))) ∧
    (∀ (j : Nat), j < wrapping_bit_mask Z → ∀ nd,
      getN s'.cell_nodes (j : Int) = some nd →
      nd.next = -1 ∨ ((wrapping_bit_mask Z : Int) ≤ nd.next ∧
        nd.next < (s'.cell_nodes.length : Int))) ∧
    (s'.free_cell_nodes = -1 ∨ ((wrapping_bit_mask Z : Int) ≤ s'.free_cell_nodes ∧
      s'.free_cell_nodes < (s'.cell_nodes.length : Int))) := by
  rw [V1.cellRemove] at h
  simp only [Option.bind_eq_bind] at h
  obtain ⟨nc, hnc, h⟩ := Option.bind_eq_some.mp h
  obtain ⟨ha0, halt⟩ := getN_pos hnc
  have hnc' : getN s.cell_nodes ((a.toNat : Nat) : Int) = some nc := by
    rw [show ((a.toNat : Nat) : Int) = a from by omega]
    exact hnc
  have hstart : nc.next = -1 ∨ ((wrapping_bit_mask Z : Int) ≤ nc.next ∧
      nc.next < (s.cell_nodes.length : Int)) := by
    by_cases hj : a.toNat < wrapping_bit_mask Z
    · exact hhr a.toNat hj nc hnc'
    · exact (hcr a.toNat (by omega) nc hnc').2
  cases hw : V1.cellRemoveWalk s.cell_nodes e0 (s.cell_nodes.length + 1) a nc.next with
  | fault =>
    rw [hw] at h
    exact Option.noConfusion h
  | fuelout =>
    rw [hw] at h
    exact Option.noConfusion h
  | ok pr =>
    obtain ⟨prev, cur⟩ := pr
    rw [hw] at h
    dsimp only at h
    have hpost := cellRemoveWalk_post (fun j hj nd hnd => (hcr j hj nd hnd).2)
      (s.cell_nodes.length + 1) a nc.next prev cur ha0 (by omega) hstart hw
    obtain ⟨⟨hp0, hplen⟩, ⟨hcH, hclen⟩⟩ := hpost
    have hc0 : (0 : Int) ≤ cur := by
      have : (0 : Int) ≤ (wrapping_bit_mask Z : Int) := by omega
      omega
    obtain ⟨ncur, hncur, h⟩ := Option.bind_eq_some.mp h
    obtain ⟨np, hnp, h⟩ := Option.bind_eq_some.mp h
    obtain ⟨cn1, hcn1, h⟩ := Option.bind_eq_some.mp h
    obtain ⟨ncur1, hncur1, h⟩ := Option.bind_eq_some.mp h
    obtain ⟨cn2, hcn2, h⟩ := Option.bind_eq_some.mp h
    have hs' := Option.some_inj.mp h
    subst hs'
    obtain ⟨-, hplt, hcn1v⟩ := setN_some hcn1
    have hlen1 : cn1.length = s.cell_nodes.length := by rw [hcn1v]; simp
    obtain ⟨-, hclt, hcn2v⟩ := setN_some hcn2
    have hlen2 : cn2.length = s.cell_nodes.length := by rw [hcn2v]; simp [hlen1]
    -- range facts about the nodes read
    have hncur' : getN s.cell_nodes ((cur.toNat : Nat) : Int) = some ncur := by
      rw [show ((cur.toNat : Nat) : Int) = cur from by omega]
      exact hncur
    have hcurrange := hcr cur.toNat (by omega) ncur hncur'
    -- final node at `cur`
    have hfinC : ∃ ex, getN cn2 cur = some { element := ex, next := s.free_cell_nodes } ∧
        0 ≤ ex ∧ ex < (E : Int) := by
      by_cases hpc : cur = prev
      · have hncur1v : ncur1 = { np with next := ncur.next } := by
          rw [hcn1v, ← hpc, getN_set_self_int hc0 (by omega)] at hncur1
          exact (Option.some_inj.mp hncur1).symm
        have hnpv : np = ncur := by
          rw [← hpc] at hnp
          exact (Option.some_inj.mp (hncur.symm.trans hnp)).symm
        refine ⟨np.element, ?_, ?_⟩
        · rw [hcn2v, getN_set_self_int hc0 (by omega), hncur1v]
        · rw [hnpv]
          exact hcurrange.1
      · have hncur1v : ncur1 = ncur := by
          rw [hcn1v, getN_set_ne_int (fun hh => hpc hh) hp0] at hncur1
          exact (Option.some_inj.mp (hncur.symm.trans hncur1)).symm
        refine ⟨ncur.element, ?_, hcurrange.1.1, hcurrange.1.2⟩
        rw [hcn2v, getN_set_self_int hc0 (by omega), hncur1v]
    -- final node at `prev` when distinct from `cur`
    have hfinP : cur ≠ prev → getN cn2 prev = some { np with next := ncur.next } := by
      intro hpc
      rw [hcn2v, getN_set_ne_int (fun hh => hpc hh.symm) hc0, hcn1v,
        getN_set_self_int hp0 (by omega)]
    -- untouched nodes
    have hfinO : ∀ i : Int, i ≠ cur → i ≠ prev → getN cn2 i = getN s.cell_nodes i := by
      intro i hic hip
      rw [hcn2v, getN_set_ne_int hic hc0, hcn1v, getN_set_ne_int hip hp0]
    have hnprange : prev.toNat ≥ wrapping_bit_mask Z → 0 ≤ np.element ∧ np.element < (E : Int) := by
      intro hpH
      have hnp' : getN s.cell_nodes ((prev.toNat : Nat) : Int) = some np := by
        rw [show ((prev.toNat : Nat) : Int) = prev from by omega]
        exact hnp
      exact (hcr prev.toNat hpH np hnp').1
    refine ⟨rfl, rfl, rfl, rfl, rfl, rfl, rfl, by dsimp only; omega, ?_, ?_, ?_⟩
    · dsimp only
      intro j hj nd hnd
      by_cases hjc : (j : Int) = cur
      · obtain ⟨ex, hfc2, hex0, hex1⟩ := hfinC
        rw [hjc, hfc2] at hnd
        have hv := (Option.some_inj.mp hnd).symm
        subst hv
        refine ⟨⟨hex0, hex1⟩, ?_⟩
        dsimp only
        rcases hfc with hh | hh
        · exact Or.inl hh
        · exact Or.inr ⟨hh.1, by omega⟩
      · by_cases hjp : (j : Int) = prev
        · rw [hjp, hfinP (fun hh => hjc (hjp.symm ▸ hh.symm))] at hnd
          have hv := (Option.some_inj.mp hnd).symm
          subst hv
          have hpH : prev.toNat ≥ wrapping_bit_mask Z := by omega
          refine ⟨hnprange hpH, ?_⟩
          dsimp only
          rcases hcurrange.2 with hh | hh
          · exact Or.inl hh
          · exact Or.inr ⟨hh.1, by omega⟩
        · rw [hfinO _ hjc hjp] at hnd
          obtain ⟨h1, h2⟩ := hcr j hj nd hnd
          refine ⟨h1, ?_⟩
          rcases h2 with hh | hh
          · exact Or.inl hh
          · exact Or.inr ⟨hh.1, by omega⟩
    · dsimp only
      intro j hj nd hnd
      have hjc : (j : Int) ≠ cur := by omega
      by_cases hjp : (j : Int) = prev
      · rw [hjp, hfinP (fun hh => hjc (hjp.symm ▸ hh.symm))] at hnd
        have hv := (Option.some_inj.mp hnd).symm
        subst hv
        dsimp only
        rcases hcurrange.2 with hh | hh
        · exact Or.inl hh
        · exact Or.inr ⟨hh.1, by omega⟩
      · rw [hfinO _ hjc hjp] at hnd
        rcases hhr j hj nd hnd with hh | hh
        · exact Or.inl hh
        · exact Or.inr ⟨hh.1, by omega⟩
    · dsimp only
      exact Or.inr ⟨hcH, by omega⟩

/-! ### Folding the cell operations over a covered rectangle -/

/-- The cell-arena range bundle with element bound `E`. -/
def cellsOK {T : Type} (Z E : Nat) (s : GridState T) : Prop :=
  wrapping_bit_mask Z ≤ s.cell_nodes.length ∧
  (∀ (j : Nat), wrapping_bit_mask Z ≤ j → ∀ nd,
    getN s.cell_nodes (j : Int) = some nd →
    (0 ≤ nd.element ∧ nd.element < (E : Int)) ∧
    (nd.next = -1 ∨ ((wrapping_bit_mask Z : Int) ≤ nd.next ∧
      nd.next < (s.cell_nodes.length : Int)))) ∧
  (∀ (j : Nat), j < wrapping_bit_mask Z → ∀ nd,
    getN s.cell_nodes (j : Int) = some nd →
    nd.next = -1 ∨ ((wrapping_bit_mask Z : Int) ≤ nd.next ∧
      nd.next < (s.cell_nodes.length : Int))) ∧
  (s.free_cell_nodes = -1 ∨ ((wrapping_bit_mask Z : Int) ≤ s.free_cell_nodes ∧
    s.free_cell_nodes < (s.cell_nodes.length : Int)))

/-- Everything a cell operation must not touch. -/
def sameElemSide {T : Type} (s t : GridState T) : Prop :=
  t.elements = s.elements ∧ t.element_nodes = s.element_nodes ∧
  t.last_query = s.last_query ∧ t.query_set = s.query_set ∧
  t.query_size = s.query_size ∧ t.free_element_nodes = s.free_element_nodes ∧
  t.num_elements = s.num_elements

theorem sameElemSide_refl {T : Type} (s : GridState T) : sameElemSide s s :=
  ⟨rfl, rfl, rfl, rfl, rfl, rfl, rfl⟩

theorem sameElemSide_trans {T : Type} {s t u : GridState T}
    (h1 : sameElemSide s t) (h2 : sameElemSide t u) : sameElemSide s u := by
  obtain ⟨a1, a2, a3, a4, a5, a6, a7⟩ := h1
  obtain ⟨b1, b2, b3, b4, b5, b6, b7⟩ := h2
  exact ⟨b1.trans a1, b2.trans a2, b3.trans a3, b4.trans a4, b5.trans a5,
    b6.trans a6, b7.trans a7⟩

theorem cellInsert_ok {T : Type} {Z E : Nat} {s s' : GridState T} {a e0 : Int}
    (hC : cellsOK Z E s) (he : 0 ≤ e0 ∧ e0 < (E : Int))
    (h : V1.cellInsert s a e0 = some s') :
    cellsOK Z E s' ∧ sameElemSide s s' := by
  obtain ⟨h1, h2, h3, h4⟩ := hC
  obtain ⟨c1, c2, c3, c4, c5, c6, c7, c8, c9, c10, c11, c12⟩ :=
    cellInsert_core h2 h3 h4 h1 he h
  exact ⟨⟨c9, c10, c11, c12⟩, ⟨c1, c2, c3, c4, c5, c6, c7⟩⟩

theorem cellRemove_ok {T : Type} {Z E : Nat} {s s' : GridState T} {a e0 : Int}
    (hC : cellsOK Z E s) (h : V1.cellRemove s a e0 = some s') :
    cellsOK Z E s' ∧ sameElemSide s s' := by
  obtain ⟨h1, h2, h3, h4⟩ := hC
  obtain ⟨c1, c2, c3, c4, c5, c6, c7, c8, c9, c10, c11⟩ :=
    cellRemove_core h2 h3 h4 h
  refine ⟨⟨by omega, c9, c10, c11⟩, ⟨c1, c2, c3, c4, c5, c6, c7⟩⟩

theorem cellInsert_fold {T : Type} {Z E : Nat} {g : Int}
    (he : 0 ≤ g ∧ g < (E : Int)) :
    ∀ (L : List (Int × Int)) (s s' : GridState T), cellsOK Z E s →
    foldM (fun st xy => V1.cellInsert st (cellAddr Z xy) g) s L = some s' →
    cellsOK Z E s' ∧ sameElemSide s s' := by
  intro L
  induction L with
  | nil =>
    intro s s' hC h
    rw [foldM] at h
    cases h
    exact ⟨hC, sameElemSide_refl s⟩
  | cons p L ih =>
    intro s s' hC h
    rw [foldM] at h
    simp only [Option.bind_eq_bind] at h
    obtain ⟨s1, h1, h2⟩ := Option.bind_eq_some.mp h
    obtain ⟨hC1, hS1⟩ := cellInsert_ok hC he h1
    obtain ⟨hC2, hS2⟩ := ih s1 s' hC1 h2
    exact ⟨hC2, sameElemSide_trans hS1 hS2⟩

theorem cellRemove_fold {T : Type} {Z E : Nat} {g : Int} :
    ∀ (L : List (Int × Int)) (s s' : GridState T), cellsOK Z E s →
    foldM (fun st xy => V1.cellRemove st (cellAddr Z xy) g) s L = some s' →
    cellsOK Z E s' ∧ sameElemSide s s' := by
  intro L
  induction L with
  | nil =>
    intro s s' hC h
    rw [foldM] at h
    cases h
    exact ⟨hC, sameElemSide_refl s⟩
  | cons p L ih =>
    intro s s' hC h
    rw [foldM] at h
    simp only [Option.bind_eq_bind] at h
    obtain ⟨s1, h1, h2⟩ := Option.bind_eq_some.mp h
    obtain ⟨hC1, hS1⟩ := cellRemove_ok hC h1
    obtain ⟨hC2, hS2⟩ := ih s1 s' hC1 h2
    exact ⟨hC2, sameElemSide_trans hS1 hS2⟩

theorem cellQuery_fold {T : Type} {Z E : Nat} :
    ∀ (L : List (Int × Int)) (s s' : GridState T),
    (∀ (j : Nat), wrapping_bit_mask Z ≤ j → ∀ nd,
      getN s.cell_nodes (j : Int) = some nd →
      (0 ≤ nd.element ∧ nd.element < (E : Int)) ∧
      (nd.next = -1 ∨ ((wrapping_bit_mask Z : Int) ≤ nd.next ∧
        nd.next < (s.cell_nodes.length : Int)))) →
    (∀ (j : Nat), j < wrapping_bit_mask Z → ∀ nd,
      getN s.cell_nodes (j : Int) = some nd →
      nd.next = -1 ∨ ((wrapping_bit_mask Z : Int) ≤ nd.next ∧
        nd.next < (s.cell_nodes.length : Int))) →
    WInv ⟨s.last_query, s.query_set, s.query_size⟩ → E ≤ s.query_set.length →
    foldM (fun st xy => V1.cellQuery st (cellAddr Z xy)) s L = some s' →
    WInv ⟨s'.last_query, s'.query_set, s'.query_size⟩ ∧
    s'.query_set.length = s.query_set.length ∧
    s'.last_query.length = s.last_query.length ∧
    s'.elements = s.elements ∧ s'.element_nodes = s.element_nodes ∧
    s'.cell_nodes = s.cell_nodes ∧ s'.free_element_nodes = s.free_element_nodes ∧
    s'.free_cell_nodes = s.free_cell_nodes ∧ s'.num_elements = s.num_elements := by
  intro L
  induction L with
  | nil =>
    intro s s' hcr hhr hW hE h
    rw [foldM] at h
    cases h
    exact ⟨hW, rfl, rfl, rfl, rfl, rfl, rfl, rfl, rfl⟩
  | cons p L ih =>
    intro s s' hcr hhr hW hE h
    rw [foldM] at h
    simp only [Option.bind_eq_bind] at h
    obtain ⟨s1, h1, h2⟩ := Option.bind_eq_some.mp h
    obtain ⟨hW1, q1, q2, q3, q4, q5, q6, q7, q8⟩ :=
      cellQuery_pres hcr hhr hW hE h1
    obtain ⟨hW2, r1, r2, r3, r4, r5, r6, r7, r8⟩ :=
      ih s1 s' (by rw [q5]; exact hcr) (by rw [q5]; exact hhr) hW1 (by omega) h2
    exact ⟨hW2, r1.trans q1, r2.trans q2, r3.trans q3, r4.trans q4, r5.trans q5,
      r6.trans q6, r7.trans q7, r8.trans q8⟩

/-- `ElemInv` only depends on the element arena and its free list head. -/
theorem ElemInv_congr {T : Type} {s t : GridState T} {live : List (Int × Bounds)}
    (h1 : t.element_nodes = s.element_nodes)
    (h2 : t.free_element_nodes = s.free_element_nodes)
    (hE : ElemInv s live) : ElemInv t live := by
  obtain ⟨F, hch, hFdup, hFrange, hcompl⟩ := hE.freeE
  refine ⟨hE.hands, ?_, ⟨F, ?_, hFdup, ?_, ?_⟩⟩
  · intro p hp
    rw [h1]
    exact hE.lrange p hp
  · rw [h1, h2]
    exact hch
  · intro x hx
    rw [h1]
    exact hFrange x hx
  · intro x hx0 hx1
    rw [h1] at hx1
    exact hcompl x hx0 hx1

/-! ### The public operations preserve the correct-use invariant -/

theorem resizeL_length {α : Type} (l : List α) (n : Nat) (d : α) :
    (resizeL l n d).length = n := by
  rw [resizeL, List.length_append, List.length_take, List.length_replicate]
  omega

theorem resizeL_false {l : List Bool} (hall : ∀ x ∈ l, x = false) (n : Nat) :
    ∀ x ∈ resizeL l n false, x = false := by
  intro x hx
  rw [resizeL] at hx
  rcases List.mem_append.mp hx with hx | hx
  · exact hall x (List.mem_of_mem_take hx)
  · exact List.eq_of_mem_replicate hx

/-- The freshly rebuilt head region satisfies both range bundles for any
element bound and any length bound. -/
theorem replicate_range (Z E L : Nat) :
    (∀ (j : Nat), wrapping_bit_mask Z ≤ j → ∀ nd,
      getN (List.replicate (wrapping_bit_mask Z) ({} : Node)) (j : Int) = some nd →
      (0 ≤ nd.element ∧ nd.element < (E : Int)) ∧
      (nd.next = -1 ∨ ((wrapping_bit_mask Z : Int) ≤ nd.next ∧ nd.next < (L : Int)))) ∧
    (∀ (j : Nat), j < wrapping_bit_mask Z → ∀ nd,
      getN (List.replicate (wrapping_bit_mask Z) ({} : Node)) (j : Int) = some nd →
      nd.next = -1 ∨ ((wrapping_bit_mask Z : Int) ≤ nd.next ∧ nd.next < (L : Int))) := by
  constructor
  · intro j hj nd hnd
    exfalso
    rw [getN, if_neg (by omega)] at hnd
    rw [List.getElem?_eq_none (by simp; omega)] at hnd
    exact Option.noConfusion hnd
  · intro j hj nd hnd
    rw [getN_replicate hj] at hnd
    have hv := (Option.some_inj.mp hnd).symm
    subst hv
    exact Or.inl rfl

/-- `insert` preserves the invariant; the new handle joins the ghost list
with the bounds it was inserted under. -/
theorem insert_ok {T : Type} {C : Int} {Z : Nat} {s s' : GridState T}
    {live : List (Int × Bounds)} {v : T} {b : Bounds} {g : Int}
    (hok : StateOK C Z s live) (h : V1.insert C Z s v b = some (g, s')) :
    StateOK C Z s' (live ++ [(g, b)]) := by
  obtain ⟨hcore, helem, hnum, hcell⟩ := hok
  rcases helem with hE | hstale
  swap
  · rw [insert_elem_stale hstale.1 hstale.2.2 v b] at h
    exact Option.noConfusion h
  rw [V1.insert] at h
  simp only [Option.bind_eq_bind] at h
  obtain ⟨x, hei, h⟩ := Option.bind_eq_some.mp h
  obtain ⟨g1, s1⟩ := x
  dsimp only at h
  obtain ⟨s2, hfold, h⟩ := Option.bind_eq_some.mp h
  have hpair := Option.some_inj.mp h
  have hg : g1 = g := congrArg Prod.fst hpair
  subst hg
  have hs4 := congrArg Prod.snd hpair
  dsimp only at hs4
  obtain ⟨hg0, hg1b, hlenS, helen1, hcells1, hlq1, hqs1, hqsz1, hfc1, hnum1, hEI1, hgrow⟩ :=
    elementInsert_pres hE hcore.elen v g1 s1 hei
  -- the covered rectangle: either run through the good arena or be empty
  have hcase : (cellsOK Z s1.element_nodes.length s2 ∧ sameElemSide s1 s2) ∨
      (s2 = s1 ∧ s.cell_nodes = List.replicate (wrapping_bit_mask Z) {} ∧
        (wrapping_bit_mask Z : Int) ≤ s.free_cell_nodes ∧
        (∀ p ∈ live, rectCells (getCellBounds C p.2) = []) ∧
        rectCells (getCellBounds C b) = []) := by
    rcases hcell with hgood | hstale2
    · refine Or.inl (cellInsert_fold ⟨hg0, hg1b⟩ _ s1 s2 ?_ hfold)
      refine ⟨?_, ?_, ?_, ?_⟩
      · rw [hcells1]
        exact hcore.cellHi
      · intro j hj nd hnd
        rw [hcells1] at hnd ⊢
        obtain ⟨he1, he2⟩ := hcore.cellRange j hj nd hnd
        exact ⟨⟨he1.1, by omega⟩, he2⟩
      · intro j hj nd hnd
        rw [hcells1] at hnd ⊢
        exact hcore.headRange j hj nd hnd
      · rw [hcells1, hfc1]
        exact hgood
    · obtain ⟨hrepl, hfH, hempty⟩ := hstale2
      cases hrect : rectCells (getCellBounds C b) with
      | cons p ps =>
        exfalso
        rw [hrect, foldM] at hfold
        simp only [Option.bind_eq_bind] at hfold
        rw [@cellInsert_cell_stale T Z s1 (by rw [hcells1, hrepl]; simp)
          (by rw [hfc1]; exact hfH) (cellAddr Z p) g1] at hfold
        simp at hfold
      | nil =>
        rw [hrect, foldM] at hfold
        exact Or.inr ⟨(Option.some_inj.mp hfold).symm, hrepl, hfH, hempty, rfl⟩
  -- field equalities of the post-fold state
  have hfields : s2.elements = s1.elements ∧ s2.element_nodes = s1.element_nodes ∧
      s2.last_query = s1.last_query ∧ s2.query_set = s1.query_set ∧
      s2.query_size = s1.query_size ∧ s2.free_element_nodes = s1.free_element_nodes ∧
      s2.num_elements = s1.num_elements := by
    rcases hcase with ⟨-, hS⟩ | ⟨heq, -⟩
    · exact hS
    · rw [heq]
      exact sameElemSide_refl s1
  obtain ⟨hel2, hen2, hlq2, hqs2, hqsz2, hfe2, hnm2⟩ := hfields
  have hqs2s : s2.query_set = s.query_set := hqs2.trans hqs1
  have hlq2s : s2.last_query = s.last_query := hlq2.trans hlq1
  have hnm2s : s2.num_elements = s.num_elements := hnm2.trans hnum1
  have hqsz2s : s2.query_size = s.query_size := hqsz2.trans hqsz1
  have hE2 : s2.element_nodes.length = s1.element_nodes.length := by rw [hen2]
  have hnum0 : (0 : Int) ≤ s2.num_elements := by
    have := hnum
    have hl : (0 : Int) ≤ (live.length : Int) := by positivity
    omega
  have hqlen_old : s.element_nodes.length ≤ s.query_set.length := hcore.qlen
  have hlqlen_old : s.last_query.length = s.query_set.length := hcore.lqlen
  -- the two range bundles for the post-fold arena
  have hranges2 : (∀ (j : Nat), wrapping_bit_mask Z ≤ j → ∀ nd,
      getN s2.cell_nodes (j : Int) = some nd →
      (0 ≤ nd.element ∧ nd.element < (s1.element_nodes.length : Int)) ∧
      (nd.next = -1 ∨ ((wrapping_bit_mask Z : Int) ≤ nd.next ∧
        nd.next < (s2.cell_nodes.length : Int)))) ∧
      (∀ (j : Nat), j < wrapping_bit_mask Z → ∀ nd,
        getN s2.cell_nodes (j : Int) = some nd →
        nd.next = -1 ∨ ((wrapping_bit_mask Z : Int) ≤ nd.next ∧
          nd.next < (s2.cell_nodes.length : Int))) ∧
      wrapping_bit_mask Z ≤ s2.cell_nodes.length := by
    rcases hcase with ⟨hC2, -⟩ | ⟨heq, hrepl, -⟩
    · exact ⟨hC2.2.1, hC2.2.2.1, hC2.1⟩
    · rw [heq, hcells1, hrepl]
      refine ⟨(replicate_range Z s1.element_nodes.length
          (List.replicate (wrapping_bit_mask Z) ({} : Node)).length).1,
        (replicate_range Z s1.element_nodes.length
          (List.replicate (wrapping_bit_mask Z) ({} : Node)).length).2, by simp⟩
  -- the scratch-capacity arithmetic
  have harith : (s1.element_nodes.length : Int) ≤ s2.num_elements + 1 ∨
      s1.element_nodes.length ≤ s.query_set.length := by
    rcases hgrow with hh | ⟨hh1, hh2⟩
    · right
      omega
    · left
      rw [hnm2s]
      have := hnum
      omega
  by_cases hrsz : (s2.query_set.length : Int) < s2.num_elements + 1
  · rw [if_pos hrsz] at hs4
    subst hs4
    have hqlen' : s1.element_nodes.length ≤ (s2.num_elements + 1).toNat := by
      rcases harith with hh | hh
      · omega
      · rw [hqs2s] at hrsz
        omega
    refine ⟨⟨?_, ?_, ?_, ?_, ?_, ?_, ?_, ?_⟩, Or.inl ?_, ?_, ?_⟩
    · dsimp only
      rw [resizeL_length, hen2]
      exact hqlen'
    · dsimp only
      rw [resizeL_length, resizeL_length]
    · dsimp only
      rw [hel2, hen2, helen1]
    · dsimp only
      rw [hqsz2s]
      exact hcore.qsize
    · dsimp only
      refine resizeL_false ?_ _
      rw [hqs2s]
      exact hcore.qfalse
    · dsimp only
      exact hranges2.2.2
    · dsimp only
      intro j hj nd hnd
      obtain ⟨ha1, ha2⟩ := hranges2.1 j hj nd hnd
      exact ⟨⟨ha1.1, by omega⟩, ha2⟩
    · dsimp only
      exact hranges2.2.1
    · refine ElemInv_congr (s := s1) ?_ ?_ (hEI1 b)
      · dsimp only
        exact hen2
      · dsimp only
        exact hfe2
    · dsimp only
      rw [List.length_append, hnm2s]
      simp only [List.length_cons, List.length_nil]
      have := hnum
      push_cast
      omega
    · rcases hcase with ⟨hC2, -⟩ | ⟨heq, hrepl, hfH, hempty, hrect⟩
      · refine Or.inl ?_
        rcases hC2.2.2.2 with hh | hh
        · exact Or.inl hh
        · exact Or.inr ⟨hh.1, hh.2⟩
      · refine Or.inr ⟨?_, ?_, ?_⟩
        · dsimp only
          rw [heq, hcells1, hrepl]
        · dsimp only
          rw [heq, hfc1]
          exact hfH
        · intro p hp
          rcases List.mem_append.mp hp with hp | hp
          · exact hempty p hp
          · rw [List.mem_singleton.mp hp]
            exact hrect
  · rw [if_neg hrsz] at hs4
    subst hs4
    have hqlen' : s1.element_nodes.length ≤ s2.query_set.length := by
      rcases harith with hh | hh
      · omega
      · rw [hqs2s]
        omega
    refine ⟨⟨?_, ?_, ?_, ?_, ?_, ?_, ?_, ?_⟩, Or.inl ?_, ?_, ?_⟩
    · dsimp only
      rw [hen2]
      exact hqlen'
    · dsimp only
      rw [hlq2s, hqs2s]
      exact hlqlen_old
    · dsimp only
      rw [hel2, hen2, helen1]
    · dsimp only
      rw [hqsz2s]
      exact hcore.qsize
    · dsimp only
      rw [hqs2s]
      exact hcore.qfalse
    · dsimp only
      exact hranges2.2.2
    · dsimp only
      intro j hj nd hnd
      obtain ⟨ha1, ha2⟩ := hranges2.1 j hj nd hnd
      exact ⟨⟨ha1.1, by omega⟩, ha2⟩
    · dsimp only
      exact hranges2.2.1
    · refine ElemInv_congr (s := s1) ?_ ?_ (hEI1 b)
      · dsimp only
        exact hen2
      · dsimp only
        exact hfe2
    · dsimp only
      rw [List.length_append, hnm2s]
      simp only [List.length_cons, List.length_nil]
      have := hnum
      push_cast
      omega
    · rcases hcase with ⟨hC2, -⟩ | ⟨heq, hrepl, hfH, hempty, hrect⟩
      · refine Or.inl ?_
        rcases hC2.2.2.2 with hh | hh
        · exact Or.inl hh
        · exact Or.inr ⟨hh.1, hh.2⟩
      · refine Or.inr ⟨?_, ?_, ?_⟩
        · dsimp only
          rw [heq, hcells1, hrepl]
        · dsimp only
          rw [heq, hfc1]
          exact hfH
        · intro p hp
          rcases List.mem_append.mp hp with hp | hp
          · exact hempty p hp
          · rw [List.mem_singleton.mp hp]
            exact hrect

/-- A live handle is not hit by the map-fst of the erased list. -/
theorem erase_fst_not_mem {live : List (Int × Bounds)} {g : Int} {b : Bounds}
    (hands : (live.map Prod.fst).Nodup) (hmem : (g, b) ∈ live) :
    g ∉ (live.erase (g, b)).map Prod.fst := by
  intro hx
  obtain ⟨p, hp, hfst⟩ := List.mem_map.mp hx
  have hlivedup : live.Nodup := List.Nodup.of_map _ hands
  obtain ⟨hpne, hpmem⟩ := (hlivedup.mem_erase_iff).mp hp
  exact hpne (List.inj_on_of_nodup_map hands hpmem hmem hfst)

/-- Rebinding a live handle to new bounds keeps the element arena good. -/
theorem ElemInv_rebind {T : Type} {s : GridState T} {live : List (Int × Bounds)}
    {g : Int} {bOld bNew : Bounds}
    (hE : ElemInv s live) (hmem : (g, bOld) ∈ live) :
    ElemInv s (live.erase (g, bOld) ++ [(g, bNew)]) := by
  obtain ⟨F, hch, hFdup, hFrange, hcompl⟩ := hE.freeE
  have hlivedup : live.Nodup := List.Nodup.of_map _ hE.hands
  have hgone := erase_fst_not_mem hE.hands hmem
  have herased : ∀ x : Int, x ≠ g →
      (x ∈ (live.erase (g, bOld)).map Prod.fst ↔ x ∈ live.map Prod.fst) := by
    intro x hxg
    constructor
    · intro hx
      obtain ⟨p, hp, rfl⟩ := List.mem_map.mp hx
      exact List.mem_map.mpr ⟨p, ((hlivedup.mem_erase_iff).mp hp).2, rfl⟩
    · intro hx
      obtain ⟨p, hp, rfl⟩ := List.mem_map.mp hx
      refine List.mem_map.mpr ⟨p, (hlivedup.mem_erase_iff).mpr ⟨?_, hp⟩, rfl⟩
      intro hpe
      rw [hpe] at hxg
      exact hxg rfl
  refine ⟨?_, ?_, ⟨F, hch, hFdup, hFrange, ?_⟩⟩
  · rw [List.map_append]
    exact nodup_append_singleton
      (List.Nodup.sublist (List.Sublist.map _ (List.erase_sublist _ _)) hE.hands)
      (by simpa using hgone)
  · intro p hp
    rcases List.mem_append.mp hp with hp | hp
    · exact hE.lrange p (List.mem_of_mem_erase hp)
    · rw [List.mem_singleton.mp hp]
      exact hE.lrange (g, bOld) hmem
  · intro x hx0 hx1
    rw [List.map_append, List.mem_append]
    by_cases hxg : x = g
    · subst hxg
      have hxin : x ∈ live.map Prod.fst := List.mem_map.mpr ⟨(x, bOld), hmem, rfl⟩
      have hF : x ∉ F := (hcompl x hx0 hx1).mp hxin
      constructor
      · intro _
        exact hF
      · intro _
        refine Or.inr ?_
        simp
    · rw [herased x hxg]
      rw [hcompl x hx0 hx1]
      simp [hxg]

/-- `remove` of a live handle with its stored bounds preserves the
invariant; the handle leaves the ghost list. -/
theorem remove_ok {T : Type} {C : Int} {Z : Nat} {s s' : GridState T}
    {live : List (Int × Bounds)} {g : Int} {b : Bounds}
    (hok : StateOK C Z s live) (hmem : (g, b) ∈ live)
    (h : V1.remove C Z s g b = some s') :
    StateOK C Z s' (live.erase (g, b)) := by
  obtain ⟨hcore, helem, hnum, hcell⟩ := hok
  rcases helem with hE | hstale
  swap
  · rw [hstale.2.1] at hmem
    exact absurd hmem (List.not_mem_nil _)
  rw [V1.remove] at h
  simp only [Option.bind_eq_bind] at h
  obtain ⟨s1, hfold, h⟩ := Option.bind_eq_some.mp h
  obtain ⟨s2, her, h⟩ := Option.bind_eq_some.mp h
  have hs' := Option.some_inj.mp h
  subst hs'
  have hcase : (cellsOK Z s.element_nodes.length s1 ∧ sameElemSide s s1) ∨
      (s1 = s ∧ s.cell_nodes = List.replicate (wrapping_bit_mask Z) {} ∧
        (wrapping_bit_mask Z : Int) ≤ s.free_cell_nodes ∧
        (∀ p ∈ live, rectCells (getCellBounds C p.2) = [])) := by
    rcases hcell with hgood | hstale2
    · exact Or.inl (cellRemove_fold _ s s1
        ⟨hcore.cellHi, hcore.cellRange, hcore.headRange, hgood⟩ hfold)
    · obtain ⟨hrepl, hfH, hempty⟩ := hstale2
      rw [hempty (g, b) hmem, foldM] at hfold
      exact Or.inr ⟨(Option.some_inj.mp hfold).symm, hrepl, hfH, hempty⟩
  have hfields : s1.elements = s.elements ∧ s1.element_nodes = s.element_nodes ∧
      s1.last_query = s.last_query ∧ s1.query_set = s.query_set ∧
      s1.query_size = s.query_size ∧ s1.free_element_nodes = s.free_element_nodes ∧
      s1.num_elements = s.num_elements := by
    rcases hcase with ⟨-, hS⟩ | ⟨heq, -⟩
    · exact hS
    · rw [heq]
      exact sameElemSide_refl s
  obtain ⟨hel1, hen1, hlq1, hqs1, hqsz1, hfe1, hnm1⟩ := hfields
  have hE1 : ElemInv s1 live := ElemInv_congr hen1 hfe1 hE
  obtain ⟨hlen2, hel2, hcells2, hlq2, hqs2, hqsz2, hfc2, hnm2, hEI2⟩ :=
    elementRemove_pres hE1 hmem s2 her
  have hlivepos : 0 < live.length := List.length_pos.mpr (List.ne_nil_of_mem hmem)
  refine ⟨⟨?_, ?_, ?_, ?_, ?_, ?_, ?_, ?_⟩, Or.inl ?_, ?_, ?_⟩
  · dsimp only
    rw [hqs2, hqs1]
    have h1 : s2.element_nodes.length = s.element_nodes.length := by rw [hlen2, hen1]
    rw [h1]
    exact hcore.qlen
  · dsimp only
    rw [hqs2, hqs1, hlq2, hlq1]
    exact hcore.lqlen
  · dsimp only
    rw [hel2, hel1, hlen2, hen1]
    exact hcore.elen
  · dsimp only
    rw [hqsz2, hqsz1]
    exact hcore.qsize
  · dsimp only
    rw [hqs2, hqs1]
    exact hcore.qfalse
  · dsimp only
    rw [hcells2]
    rcases hcase with ⟨hC1, -⟩ | ⟨heq, hrepl, -⟩
    · exact hC1.1
    · rw [heq, hrepl]
      simp
  · dsimp only
    intro j hj nd hnd
    rw [hcells2] at hnd ⊢
    rw [hlen2, hen1]
    rcases hcase with ⟨hC1, -⟩ | ⟨heq, hrepl, -⟩
    · exact hC1.2.1 j hj nd hnd
    · rw [heq, hrepl] at hnd ⊢
      exact (replicate_range Z s.element_nodes.length
        (List.replicate (wrapping_bit_mask Z) ({} : Node)).length).1 j hj nd hnd
  · dsimp only
    intro j hj nd hnd
    rw [hcells2] at hnd ⊢
    rcases hcase with ⟨hC1, -⟩ | ⟨heq, hrepl, -⟩
    · exact hC1.2.2.1 j hj nd hnd
    · rw [heq, hrepl] at hnd ⊢
      exact (replicate_range Z s.element_nodes.length
        (List.replicate (wrapping_bit_mask Z) ({} : Node)).length).2 j hj nd hnd
  · exact ElemInv_congr (s := s2) rfl rfl hEI2
  · dsimp only
    rw [List.length_erase_of_mem hmem, hnm2, hnm1]
    have := hnum
    omega
  · rcases hcase with ⟨hC1, -⟩ | ⟨heq, hrepl, hfH, hempty⟩
    · refine Or.inl ?_
      dsimp only
      rw [hfc2, hcells2]
      exact hC1.2.2.2
    · refine Or.inr ⟨?_, ?_, ?_⟩
      · dsimp only
        rw [hcells2, heq, hrepl]
      · dsimp only
        rw [hfc2, heq]
        exact hfH
      · intro p hp
        exact hempty p (List.mem_of_mem_erase hp)

/-- `update` of a live handle with its stored bounds preserves the
invariant; the ghost entry is rebound to the new bounds. -/
theorem update_ok {T : Type} {C : Int} {Z : Nat} {s s' : GridState T}
    {live : List (Int × Bounds)} {g : Int} {bOld bNew : Bounds}
    (hok : StateOK C Z s live) (hmem : (g, bOld) ∈ live)
    (h : V1.update C Z s g bOld bNew = some s') :
    StateOK C Z s' (live.erase (g, bOld) ++ [(g, bNew)]) := by
  obtain ⟨hcore, helem, hnum, hcell⟩ := hok
  rcases helem with hE | hstale
  swap
  · rw [hstale.2.1] at hmem
    exact absurd hmem (List.not_mem_nil _)
  rw [V1.update] at h
  simp only [Option.bind_eq_bind] at h
  obtain ⟨s1, hfoldR, hfoldI⟩ := Option.bind_eq_some.mp h
  have hgb := hE.lrange (g, bOld) hmem
  have hcase : (cellsOK Z s.element_nodes.length s' ∧ sameElemSide s s') ∨
      (s' = s ∧ s.cell_nodes = List.replicate (wrapping_bit_mask Z) {} ∧
        (wrapping_bit_mask Z : Int) ≤ s.free_cell_nodes ∧
        (∀ p ∈ live, rectCells (getCellBounds C p.2) = []) ∧
        rectCells (getCellBounds C bNew) = []) := by
    rcases hcell with hgood | hstale2
    · obtain ⟨hC1, hS1⟩ := cellRemove_fold _ s s1
        ⟨hcore.cellHi, hcore.cellRange, hcore.headRange, hgood⟩ hfoldR
      obtain ⟨hC2, hS2⟩ := cellInsert_fold ⟨hgb.1, hgb.2⟩ _ s1 s' hC1 hfoldI
      exact Or.inl ⟨hC2, sameElemSide_trans hS1 hS2⟩
    · obtain ⟨hrepl, hfH, hempty⟩ := hstale2
      rw [hempty (g, bOld) hmem, foldM] at hfoldR
      have hs1 : s1 = s := (Option.some_inj.mp hfoldR).symm
      subst hs1
      cases hrect : rectCells (getCellBounds C bNew) with
      | cons p ps =>
        exfalso
        rw [hrect, foldM] at hfoldI
        simp only [Option.bind_eq_bind] at hfoldI
        rw [@cellInsert_cell_stale T Z s1 (by rw [hrepl]; simp)
          hfH (cellAddr Z p) g] at hfoldI
        simp at hfoldI
      | nil =>
        rw [hrect, foldM] at hfoldI
        exact Or.inr ⟨(Option.some_inj.mp hfoldI).symm, hrepl, hfH, hempty, rfl⟩
  have hfields : s'.elements = s.elements ∧ s'.element_nodes = s.element_nodes ∧
      s'.last_query = s.last_query ∧ s'.query_set = s.query_set ∧
      s'.query_size = s.query_size ∧ s'.free_element_nodes = s.free_element_nodes ∧
      s'.num_elements = s.num_elements := by
    rcases hcase with ⟨-, hS⟩ | ⟨heq, -⟩
    · exact hS
    · rw [heq]
      exact sameElemSide_refl s
  obtain ⟨hel1, hen1, hlq1, hqs1, hqsz1, hfe1, hnm1⟩ := hfields
  have hlivepos : 0 < live.length := List.length_pos.mpr (List.ne_nil_of_mem hmem)
  refine ⟨⟨?_, ?_, ?_, ?_, ?_, ?_, ?_, ?_⟩, Or.inl ?_, ?_, ?_⟩
  · rw [hqs1, hen1]
    exact hcore.qlen
  · rw [hqs1, hlq1]
    exact hcore.lqlen
  · rw [hel1, hen1]
    exact hcore.elen
  · rw [hqsz1]
    exact hcore.qsize
  · rw [hqs1]
    exact hcore.qfalse
  · rcases hcase with ⟨hC1, -⟩ | ⟨heq, hrepl, -⟩
    · exact hC1.1
    · rw [heq, hrepl]
      simp
  · intro j hj nd hnd
    rw [hen1]
    rcases hcase with ⟨hC1, -⟩ | ⟨heq, hrepl, -⟩
    · exact hC1.2.1 j hj nd hnd
    · rw [heq, hrepl] at hnd ⊢
      exact (replicate_range Z s.element_nodes.length
        (List.replicate (wrapping_bit_mask Z) ({} : Node)).length).1 j hj nd hnd
  · intro j hj nd hnd
    rcases hcase with ⟨hC1, -⟩ | ⟨heq, hrepl, -⟩
    · exact hC1.2.2.1 j hj nd hnd
    · rw [heq, hrepl] at hnd ⊢
      exact (replicate_range Z s.element_nodes.length
        (List.replicate (wrapping_bit_mask Z) ({} : Node)).length).2 j hj nd hnd
  · exact ElemInv_congr hen1 hfe1 (ElemInv_rebind hE hmem)
  · rw [List.length_append, List.length_erase_of_mem hmem, hnm1]
    simp only [List.length_cons, List.length_nil]
    have := hnum
    push_cast
    omega
  · rcases hcase with ⟨hC1, -⟩ | ⟨heq, hrepl, hfH, hempty, hrect⟩
    · exact Or.inl hC1.2.2.2
    · refine Or.inr ⟨?_, ?_, ?_⟩
      · rw [heq, hrepl]
      · rw [heq]
        exact hfH
      · intro p hp
        rcases List.mem_append.mp hp with hp | hp
        · exact hempty p (List.mem_of_mem_erase hp)
        · rw [List.mem_singleton.mp hp]
          exact hrect

/-- `query` preserves the invariant: the dedup scratch is used and then
restored to its all-clear state, and nothing else changes. -/
theorem query_ok {T : Type} {C : Int} {Z : Nat} {s s' : GridState T}
    {live : List (Int × Bounds)} {b : Bounds} {r : List T}
    (hok : StateOK C Z s live) (h : V1.query C Z s b = some (r, s')) :
    StateOK C Z s' live := by
  obtain ⟨hcore, helem, hnum, hcell⟩ := hok
  rw [V1.query] at h
  simp only [Option.bind_eq_bind] at h
  obtain ⟨s1, hfold, h⟩ := Option.bind_eq_some.mp h
  obtain ⟨res, hres, h⟩ := Option.bind_eq_some.mp h
  obtain ⟨s2, hrst, h⟩ := Option.bind_eq_some.mp h
  have hpair := Option.some_inj.mp h
  have hs2 : s2 = s' := congrArg Prod.snd hpair
  subst hs2
  -- the scratch is all-clear at the start
  have hW0 : WInv ⟨s.last_query, s.query_set, s.query_size⟩ := by
    refine ⟨hcore.lqlen, ?_, ?_, ?_⟩
    · dsimp only
      rw [hcore.qsize]
      omega
    · dsimp only
      rw [hcore.qsize]
      simp
    · intro e
      dsimp only
      rw [hcore.qsize]
      simp only [List.take_zero, List.not_mem_nil, iff_false]
      intro hx
      have hmem := getN_mem hx
      exact Bool.true_eq_false.mp (hcore.qfalse true hmem) |>.elim
  obtain ⟨hW1, q1, q2, q3, q4, q5, q6, q7, q8⟩ :=
    cellQuery_fold _ s s1 hcore.cellRange hcore.headRange hW0 hcore.qlen hfold
  obtain ⟨r1, r2, r3, r4, r5, r6, r7, r8, r9, r10⟩ := resetQuerySet_ok hW1 s2 hrst
  refine ⟨⟨?_, ?_, ?_, ?_, ?_, ?_, ?_, ?_⟩, ?_, ?_, ?_⟩
  · rw [r6, r3, q1, q4]
    exact hcore.qlen
  · rw [r4, q2, r3, q1]
    exact hcore.lqlen
  · rw [r5, r6, q3, q4]
    exact hcore.elen
  · exact r1
  · exact r2
  · rw [r7, q5]
    exact hcore.cellHi
  · intro j hj nd hnd
    rw [r7, q5] at hnd
    rw [r7, q5, r6, q4]
    exact hcore.cellRange j hj nd hnd
  · intro j hj nd hnd
    rw [r7, q5] at hnd
    rw [r7, q5]
    exact hcore.headRange j hj nd hnd
  · rcases helem with hE | hstale
    · exact Or.inl (ElemInv_congr (r6.trans q4) (r8.trans q6) hE)
    · refine Or.inr ⟨?_, hstale.2.1, ?_⟩
      · rw [r6, q4]
        exact hstale.1
      · rw [r8, q6]
        exact hstale.2.2
  · rw [r10, q8]
    exact hnum
  · rcases hcell with hgood | hstale2
    · refine Or.inl ?_
      rw [CellFreeOK, r9, q7, r7, q5]
      exact hgood
    · refine Or.inr ⟨?_, ?_, hstale2.2.2⟩
      · rw [r7, q5]
        exact hstale2.1
      · rw [r9, q7]
        exact hstale2.2.1

/-- `clear` preserves the invariant with an emptied ghost list; stale free
list heads land in the degenerate regimes. -/
theorem clear_ok {T : Type} {C : Int} {Z : Nat} {s : GridState T}
    {live : List (Int × Bounds)}
    (hok : StateOK C Z s live) : StateOK C Z (V1.clear Z s) [] := by
  obtain ⟨hcore, helem, hnum, hcell⟩ := hok
  refine ⟨⟨?_, ?_, ?_, ?_, ?_, ?_, ?_, ?_⟩, ?_, ?_, ?_⟩
  · dsimp only [V1.clear]
    simp
  · exact hcore.lqlen
  · rfl
  · exact hcore.qsize
  · exact hcore.qfalse
  · dsimp only [V1.clear]
    simp
  · exact (replicate_range Z (V1.clear Z s).element_nodes.length
      (V1.clear Z s).cell_nodes.length).1
  · exact (replicate_range Z (V1.clear Z s).element_nodes.length
      (V1.clear Z s).cell_nodes.length).2
  · by_cases hfe : s.free_element_nodes = -1
    · refine Or.inl ⟨List.nodup_nil, by simp, ⟨[], hfe, List.nodup_nil, by simp, ?_⟩⟩
      intro x hx0 hx1
      dsimp only [V1.clear] at hx1
      simp only [List.length_nil] at hx1
      omega
    · refine Or.inr ⟨rfl, rfl, ?_⟩
      rcases helem with hE | hstale
      · obtain ⟨F, hch, -, hFrange, -⟩ := hE.freeE
        cases F with
        | nil => exact absurd hch hfe
        | cons g0 F' =>
          obtain ⟨hg0, -, -, -⟩ := hch
          have := hFrange g0 (by simp)
          dsimp only [V1.clear]
          omega
      · exact hstale.2.2
  · dsimp only [V1.clear]
    simp only [List.length_nil]
    have h0 : (0 : Int) ≤ (live.length : Int) := by positivity
    push_cast
    omega
  · by_cases hfc : s.free_cell_nodes = -1
    · exact Or.inl (Or.inl hfc)
    · refine Or.inr ⟨rfl, ?_, by simp⟩
      rcases hcell with hgood | hstale2
      · exact (hgood.resolve_left hfc).1
      · exact hstale2.2.1

/-- The initial state satisfies the invariant with no live handles. -/
theorem init_ok (T : Type) (C : Int) (Z : Nat) : StateOK C Z (V1.init T Z) [] := by
  refine ⟨⟨?_, ?_, ?_, ?_, ?_, ?_, ?_, ?_⟩, Or.inl ?_, ?_, Or.inl ?_⟩
  · simp [V1.init]
  · rfl
  · rfl
  · rfl
  · intro b hb
    simp [V1.init] at hb
  · simp [V1.init]
  · exact (replicate_range Z (V1.init T Z).element_nodes.length
      (V1.init T Z).cell_nodes.length).1
  · exact (replicate_range Z (V1.init T Z).element_nodes.length
      (V1.init T Z).cell_nodes.length).2
  · refine ⟨List.nodup_nil, by simp, ⟨[], rfl, List.nodup_nil, by simp, ?_⟩⟩
    intro x hx0 hx1
    simp only [V1.init, List.length_nil] at hx1
    omega
  · simp [V1.init]
  · exact Or.inl rfl

/-- The all-clear dedup scratch of an at-rest state is consistent. -/
theorem coreWInv {T : Type} {Z : Nat} {s : GridState T} (hcore : CoreInv Z s) :
    WInv ⟨s.last_query, s.query_set, s.query_size⟩ := by
  refine ⟨hcore.lqlen, ?_, ?_, ?_⟩
  · dsimp only
    rw [hcore.qsize]
    omega
  · dsimp only
    rw [hcore.qsize]
    simp
  · intro e
    dsimp only
    rw [hcore.qsize]
    simp only [List.take_zero, List.not_mem_nil, iff_false]
    intro hx
    have hmem := getN_mem hx
    exact Bool.true_eq_false.mp (hcore.qfalse true hmem) |>.elim

/-- Correct use of the first variant's public API: `remove` and `update`
receive a currently live handle together with the bounds it is stored
under, and each step is a successful public operation. -/
inductive CorrectReach (T : Type) (C : Int) (Z : Nat) :
    GridState T → List (Int × Bounds) → Prop where
  | init : CorrectReach T C Z (V1.init T Z) []
  | insert {s : GridState T} {live : List (Int × Bounds)} {v : T} {b : Bounds}
      {g : Int} {s' : GridState T} : CorrectReach T C Z s live →
      V1.insert C Z s v b = some (g, s') →
      CorrectReach T C Z s' (live ++ [(g, b)])
  | remove {s : GridState T} {live : List (Int × Bounds)} {g : Int} {b : Bounds}
      {s' : GridState T} : CorrectReach T C Z s live → (g, b) ∈ live →
      V1.remove C Z s g b = some s' →
      CorrectReach T C Z s' (live.erase (g, b))
  | update {s : GridState T} {live : List (Int × Bounds)} {g : Int}
      {b b' : Bounds} {s' : GridState T} : CorrectReach T C Z s live →
      (g, b) ∈ live → V1.update C Z s g b b' = some s' →
      CorrectReach T C Z s' (live.erase (g, b) ++ [(g, b')])
  | query {s : GridState T} {live : List (Int × Bounds)} {b : Bounds}
      {r : List T} {s' : GridState T} : CorrectReach T C Z s live →
      V1.query C Z s b = some (r, s') → CorrectReach T C Z s' live
  | clear {s : GridState T} {live : List (Int × Bounds)} :
      CorrectReach T C Z s live → CorrectReach T C Z (V1.clear Z s) []

/-- Every correctly reached state satisfies the full invariant. -/
theorem reach_ok {T : Type} {C : Int} {Z : Nat} {s : GridState T}
    {live : List (Int × Bounds)} (h : CorrectReach T C Z s live) :
    StateOK C Z s live := by
  induction h with
  | init => exact init_ok T C Z
  | insert hr hop ih => exact insert_ok ih hop
  | remove hr hmem hop ih => exact remove_ok ih hmem hop
  | update hr hmem hop ih => exact update_ok ih hmem hop
  | query hr hop ih => exact query_ok ih hop
  | clear hr ih => exact clear_ok ih

/-- C10: the first variant maintains the implicit invariant that makes its
unchecked query-side indexing safe.  Under correct use of the public API
(`remove` and `update` are only called with a currently live handle and
the bounds it is stored under), after every public operation:
`query_set` and `last_query` are at least as large as `element_nodes`;
every element handle stored in a non-head cell node is a valid index into
both scratch vectors; and the `cellQuery` walk — including its unchecked
`last_query[query_size]` write — cannot index out of range on any cell
list of the state, whatever its fuel. -/
theorem C10_scratch_capacity {T : Type} (C : Int) (Z : Nat) (s : GridState T)
    (live : List (Int × Bounds)) (h : CorrectReach T C Z s live) :
    s.element_nodes.length ≤ s.query_set.length ∧
    s.element_nodes.length ≤ s.last_query.length ∧
    (∀ (j : Nat), wrapping_bit_mask Z ≤ j → ∀ nd,
      getN s.cell_nodes (j : Int) = some nd →
      0 ≤ nd.element ∧ nd.element < (s.query_set.length : Int) ∧
        nd.element < (s.last_query.length : Int)) ∧
    (∀ (a : Int) (nc : Node) (fuel : Nat), getN s.cell_nodes a = some nc →
      V1.cellQueryWalk s.cell_nodes fuel nc.next
        { last_query := s.last_query, query_set := s.query_set,
          query_size := s.query_size } ≠ .fault) := by
  obtain ⟨hcore, helem, hnum, hcell⟩ := reach_ok h
  have hq := hcore.qlen
  have hlq := hcore.lqlen
  refine ⟨hq, by omega, ?_, ?_⟩
  · intro j hj nd hnd
    obtain ⟨⟨h1, h2⟩, -⟩ := hcore.cellRange j hj nd hnd
    exact ⟨h1, by omega, by omega⟩
  · intro a nc fuel hnc
    obtain ⟨ha0, halt⟩ := getN_pos hnc
    have hnc' : getN s.cell_nodes ((a.toNat : Nat) : Int) = some nc := by
      rw [show ((a.toNat : Nat) : Int) = a from by omega]
      exact hnc
    have hstart : nc.next = -1 ∨ ((wrapping_bit_mask Z : Int) ≤ nc.next ∧
        nc.next < (s.cell_nodes.length : Int)) := by
      by_cases hj : a.toNat < wrapping_bit_mask Z
      · exact hcore.headRange a.toNat hj nc hnc'
      · exact (hcore.cellRange a.toNat (by omega) nc hnc').2
    exact (cellQueryWalk_safe hcore.cellRange fuel nc.next
      ⟨s.last_query, s.query_set, s.query_size⟩ hstart (coreWInv hcore) hq).1

/-- C10 witness: the conclusions at a concretely reached state. -/
theorem C10_scratch_capacity_witness :
    (V1.init Int 2).element_nodes.length ≤ (V1.init Int 2).query_set.length ∧
    (V1.init Int 2).element_nodes.length ≤ (V1.init Int 2).last_query.length ∧
    (∀ (j : Nat), wrapping_bit_mask 2 ≤ j → ∀ nd,
      getN (V1.init Int 2).cell_nodes (j : Int) = some nd →
      0 ≤ nd.element ∧ nd.element < ((V1.init Int 2).query_set.length : Int) ∧
        nd.element < ((V1.init Int 2).last_query.length : Int)) ∧
    (∀ (a : Int) (nc : Node) (fuel : Nat),
      getN (V1.init Int 2).cell_nodes a = some nc →
      V1.cellQueryWalk (V1.init Int 2).cell_nodes fuel nc.next
        { last_query := (V1.init Int 2).last_query,
          query_set := (V1.init Int 2).query_set,
          query_size := (V1.init Int 2).query_size } ≠ .fault) :=
  C10_scratch_capacity 1 2 (V1.init Int 2) [] CorrectReach.init

end Lightgrid
